import Mathlib

/-!
# parvum_grep: the regex engine of `cgrep.c`

A shallow embedding of the automaton compiler and the matchers of
`3_nfa_more_regex/cgrep.c` and `4_dfa_from_nfa/cgrep.c`, and of the backtracking
matcher of `1_backtracking/cgrep.c`.

Conventions of the embedding.

* A byte is a natural number.  A pattern is the list of its bytes before the
  terminating NUL.  A text pointer is the list of the bytes stored from the
  pointer on, followed by a terminating NUL: reading `text[0]` at the end of
  the list gives `0`, and the matchers test every byte they read against NUL
  as the source does, so a text is a C string exactly when `0` is not in it.
* Heap cells are kept in a list; a pointer is the index of a cell and `malloc`
  appends a cell.  `nfa_node*` points into a `List nfa_node`, `dfa_node*` into a
  `List dfa_node`.
* The linked lists `nfa_edge*`, `dfa_edge*`, `nfal*`, `nfa_2dlist*` and
  `dfagen_node*` are Lean lists, head first.
* Loops and recursions of the source that are not bounded by their input take a
  fuel argument and return `none` when it runs out; `none` is also the result of
  an execution that the C standard leaves undefined.
-/

namespace ParvumGrep

/-! ## Data model (`4_dfa_from_nfa/cgrep.c`, lines 47-111) -/

/-- The C struct `nfa_edge`: `cond_ch`, `always` and the target node. -/
structure nfa_edge where
  cond_ch : Nat
  always : Bool
  node : Nat
deriving DecidableEq, Repr

/-- The C struct `dfa_edge`: `cond_ch` and the target node. -/
structure dfa_edge where
  cond_ch : Nat
  node : Nat
deriving DecidableEq, Repr

/-- The C struct `nfa_node`: accept flag and outgoing edges. -/
structure nfa_node where
  isend : Bool
  next_l : List nfa_edge
deriving DecidableEq, Repr

/-- The C struct `nfa`: node count, start node and end node. -/
structure nfa where
  num_nodes : Nat
  start : Nat
  end_ : Nat
deriving DecidableEq, Repr

/-- The C struct `dfa_node`: accept flag and outgoing edges. -/
structure dfa_node where
  isend : Bool
  next_l : List dfa_edge
deriving DecidableEq, Repr

/-- The C struct `dfa`: node count and start node. -/
structure dfa where
  num_nodes : Nat
  start : Nat
deriving DecidableEq, Repr

/-- The C struct `RE` of `4_dfa_from_nfa`: the two anchor flags and the DFA. -/
structure RE where
  match_start : Bool
  match_end : Bool
  dfa : dfa
deriving DecidableEq, Repr

/-- The C struct `dfagen_node`: an NFA node list and the DFA node built for it. -/
structure dfagen_node where
  nfas : List Nat
  node : Nat
deriving DecidableEq, Repr

/-- The C struct `always_g`: result of `always_group`. -/
structure always_g where
  isend : Bool
  nfas : List Nat
deriving DecidableEq, Repr

/-- The C struct `nfa_2dlist`: one entry per `cond_ch` with the merged targets. -/
structure nfa_2dlist where
  cond_ch : Nat
  isend : Bool
  nfas : List Nat
deriving DecidableEq, Repr

/-- Bytes of a string literal. -/
def bytes (s : String) : List Nat := s.toList.map Char.toNat

/-- Dereference of an `nfa_node*`. -/
def nfa_at (h : List nfa_node) (p : Nat) : nfa_node := h.getD p ⟨false, []⟩

/-- Dereference of a `dfa_node*`. -/
def dfa_at (h : List dfa_node) (p : Nat) : dfa_node := h.getD p ⟨false, []⟩

/-! ## Small helpers of the source -/

/-- Source `char_match`: `matcher == '.' || matcher == source`. -/
def char_match (matcher source : Nat) : Bool := matcher == 46 || matcher == source

/-- Source `insert_nfa_edge`: the new edge becomes the head of the list. -/
def insert_nfa_edge (start : List nfa_edge) (always : Bool) (cond_ch : Nat) (node : Nat) :
    List nfa_edge :=
  ⟨cond_ch, always, node⟩ :: start

/-- Source `insert_dfa_edge`: the new edge becomes the head of the list. -/
def insert_dfa_edge (start : List dfa_edge) (cond_ch : Nat) (node : Nat) : List dfa_edge :=
  ⟨cond_ch, node⟩ :: start

/-- Source `insert_into_nfa_list`: the new cell becomes the head. -/
def insert_into_nfa_list (list : List Nat) (node : Nat) : List Nat := node :: list

/-- Source `copy_nfa_list`: inserts the cells one by one, so the copy is reversed. -/
def copy_nfa_list (list : List Nat) : List Nat :=
  list.foldl (fun out n => insert_into_nfa_list out n) []

/-- Source `contains_nfa_list`. -/
def contains_nfa_list : List Nat → Nat → Bool
  | [], _ => false
  | x :: xs, node => if x = node then true else contains_nfa_list xs node

/-- Source `union_into_nfa_list`: every cell of a copy of `b` whose node is not in
`a` is put in front of the output, which starts as `a`. -/
def union_into_nfa_list (a b : List Nat) : List Nat :=
  (copy_nfa_list b).foldl (fun out n => if contains_nfa_list a n then out else n :: out) a

/-- Source `match_nfa_list`: cell by cell comparison in list order. -/
def match_nfa_list : List Nat → List Nat → Bool
  | [], [] => true
  | x :: xs, y :: ys => if x ≠ y then false else match_nfa_list xs ys
  | _, _ => false

/-- Source `find_dfagen_node`: first entry whose list matches. -/
def find_dfagen_node : List dfagen_node → List Nat → Option dfagen_node
  | [], _ => none
  | it :: rest, nfas => if match_nfa_list it.nfas nfas then some it else find_dfagen_node rest nfas

/-- Source `insert_into_conns`: entries with the same `cond_ch` are merged in
place; when there is none a new entry becomes the head. -/
def insert_into_conns (conns : List nfa_2dlist) (cond_ch : Nat) (isend : Bool)
    (nfas : List Nat) : List nfa_2dlist :=
  let found := conns.any (fun it => it.cond_ch == cond_ch)
  let out := conns.map (fun it =>
    if it.cond_ch = cond_ch then
      { it with nfas := union_into_nfa_list it.nfas (copy_nfa_list nfas),
                isend := it.isend || isend }
    else it)
  if found then out else ⟨cond_ch, isend, copy_nfa_list nfas⟩ :: out

/-! ## NFA builder (`generate_nfa`, lines 334-399) -/

/-- Index of the first occurrence of byte `c`, as `strstr(s, ")")` for a one-byte
needle; `none` stands for the NULL result. -/
def strstr1 : List Nat → Nat → Option Nat
  | [], _ => none
  | x :: xs, c => if x = c then some 0 else (strstr1 xs c).map (· + 1)

/-- Heap write `p->next_l = insert_nfa_edge(p->next_l, always, cond_ch, node)`. -/
def nfa_push_edge (h : List nfa_node) (p : Nat) (always : Bool) (cond_ch node : Nat) :
    List nfa_node :=
  h.set p { nfa_at h p with next_l := insert_nfa_edge (nfa_at h p).next_l always cond_ch node }

/-- Heap write `p->isend = v`. -/
def nfa_set_isend (h : List nfa_node) (p : Nat) (v : Bool) : List nfa_node :=
  h.set p { nfa_at h p with isend := v }

/-- The unit that `generate_nfa` splits off a pattern of length at least two:
the offset of `regex_end` and the string `left_regex`.  For a group the offset is
that of the first `)`, `left_regex` is `strndup(regex + 1, size)` cut by
`left_regex[size-1] = 0`; a missing `)` (NULL from `strstr`) and `size = 0` (a
write before the buffer) are undefined. -/
def split_unit (regex : List Nat) : Option (Nat × List Nat) :=
  if regex.headD 0 = 40 then
    match strstr1 regex 41 with
    | none => none
    | some regex_end =>
      let size := regex_end - 1
      let left_regex := (regex.drop 1).take size
      if size = 0 then none else some (regex_end, left_regex.take (size - 1))
  else some (0, regex.take 1)

/-- Source `generate_nfa`, on the heap `h`; the fuel bounds the recursion depth
(a pattern of length `n` needs at most `n + 1`). -/
def generate_nfa : Nat → List nfa_node → List Nat → Option (List nfa_node × nfa)
  | 0, _, _ => none
  | fuel + 1, h, regex =>
    match regex with
    | [] =>
      let start := h.length
      let end_ := h.length + 1
      some (h ++ [⟨false, insert_nfa_edge [] true 0 end_⟩, ⟨true, []⟩], ⟨2, start, end_⟩)
    | [c] =>
      let start := h.length
      let end_ := h.length + 1
      some (h ++ [⟨false, insert_nfa_edge [] false c end_⟩, ⟨true, []⟩], ⟨2, start, end_⟩)
    | _ :: _ :: _ =>
      match split_unit regex with
      | none => none
      | some (regex_end, left_regex) =>
        match generate_nfa fuel h left_regex with
        | none => none
        | some (h1, first) =>
          if regex.getD (regex_end + 1) 0 = 42 then
            match generate_nfa fuel h1 (regex.drop (regex_end + 2)) with
            | none => none
            | some (h2, second) =>
              let start := h2.length
              let h3 := h2 ++ [⟨false, insert_nfa_edge [] true 0 first.start⟩]
              let h4 := nfa_push_edge h3 first.start true 0 second.start
              let h5 := nfa_push_edge h4 first.end_ true 0 first.start
              let h6 := nfa_set_isend h5 first.end_ false
              some (h6, ⟨1 + (first.num_nodes + second.num_nodes), start, second.end_⟩)
          else
            match generate_nfa fuel h1 (regex.drop (regex_end + 1)) with
            | none => none
            | some (h2, second) =>
              let h3 := nfa_set_isend h2 first.end_ false
              let h4 := nfa_push_edge h3 first.end_ true 0 second.start
              some (h4, ⟨0 + (first.num_nodes + second.num_nodes), first.start, second.end_⟩)

/-! ## Epsilon closure (`always_group`, lines 404-427) -/

/-- One iteration of the edge loop of `always_group`; `rec` is the recursive
call. -/
def always_group_step (rec : Nat → Option always_g) (node : Nat) (out : always_g)
    (iter_edge : nfa_edge) : Option always_g :=
  if iter_edge.always then
    match rec iter_edge.node with
    | none => none
    | some tmp_alwg =>
      some ⟨out.isend || tmp_alwg.isend, union_into_nfa_list out.nfas tmp_alwg.nfas⟩
  else if iter_edge.node = node then
    some ⟨out.isend, insert_into_nfa_list out.nfas iter_edge.node⟩
  else some out

/-- The edge loop of `always_group`. -/
def always_group_edges (rec : Nat → Option always_g) (node : Nat) :
    List nfa_edge → always_g → Option always_g
  | [], out => some out
  | e :: es, out =>
    match always_group_step rec node out e with
    | none => none
    | some out1 => always_group_edges rec node es out1

/-- Source `always_group`; the source keeps no visited set, the fuel bounds the
recursion depth. -/
def always_group (h : List nfa_node) : Nat → Nat → Option always_g
  | 0, _ => none
  | fuel + 1, node =>
    always_group_edges (always_group h fuel) node (nfa_at h node).next_l
      ⟨(nfa_at h node).isend, insert_into_nfa_list [] node⟩

/-! ## Subset construction (`nfa_to_dfa`, lines 265-330) -/

/-- The inner loop of lines 293-300 over the edges of one NFA node: every
consuming edge inserts the closure of its target into `conns`. -/
def conns_of_edges (h : List nfa_node) (fuel : Nat) :
    List nfa_edge → List nfa_2dlist → Option (List nfa_2dlist)
  | [], conns => some conns
  | iter_edge :: es, conns =>
    if iter_edge.always then conns_of_edges h fuel es conns
    else
      match always_group h fuel iter_edge.node with
      | none => none
      | some alw_g =>
        conns_of_edges h fuel es
          (insert_into_conns conns iter_edge.cond_ch alw_g.isend alw_g.nfas)

/-- The outer loop of lines 290-301 over the NFA nodes of the current DFA node. -/
def conns_of_nodes (h : List nfa_node) (fuel : Nat) :
    List Nat → List nfa_2dlist → Option (List nfa_2dlist)
  | [], conns => some conns
  | iter_nfa :: ns, conns =>
    match conns_of_edges h fuel (nfa_at h iter_nfa).next_l conns with
    | none => none
    | some conns1 => conns_of_nodes h fuel ns conns1

/-- Loop state of `nfa_to_dfa`: the DFA heap, `worklist`, `worked_list` and
`out->num_nodes`. -/
structure dfagen_state where
  dheap : List dfa_node
  worklist : List dfagen_node
  worked_list : List dfagen_node
  num_nodes : Nat
deriving DecidableEq, Repr

/-- Heap write `p->next_l = insert_dfa_edge(p->next_l, cond_ch, node)`. -/
def dfa_push_edge (dh : List dfa_node) (p : Nat) (cond_ch node : Nat) : List dfa_node :=
  dh.set p { dfa_at dh p with next_l := insert_dfa_edge (dfa_at dh p).next_l cond_ch node }

/-- Source `insert_into_dfagen_list`: allocates a DFA node for a copy of `nfas`
and puts the pair in front of `worklist`. -/
def insert_into_dfagen_list (dh : List dfa_node) (worklist : List dfagen_node) (isend : Bool)
    (nfas : List Nat) : List dfa_node × List dfagen_node :=
  (dh ++ [⟨isend, []⟩], ⟨copy_nfa_list nfas, dh.length⟩ :: worklist)

/-- Source `insert_node_into_dfagen_list`: a copy of the item becomes the head. -/
def insert_node_into_dfagen_list (worked_list : List dfagen_node) (item : dfagen_node) :
    List dfagen_node :=
  ⟨copy_nfa_list item.nfas, item.node⟩ :: worked_list

/-- The loop of lines 313-323 over `conns`: look the target set up in
`worked_list`, allocate a DFA node when it is not there, add the edge. -/
def link_conns (curr_node : Nat) : List nfa_2dlist → dfagen_state → dfagen_state
  | [], s => s
  | iter_conns :: cs, s =>
    match find_dfagen_node s.worked_list iter_conns.nfas with
    | some tmp =>
      link_conns curr_node cs
        { s with dheap := dfa_push_edge s.dheap curr_node iter_conns.cond_ch tmp.node }
    | none =>
      let (dh1, worklist1) :=
        insert_into_dfagen_list s.dheap s.worklist iter_conns.isend iter_conns.nfas
      let dh2 := dh1.set (dh1.length - 1) ⟨iter_conns.isend, []⟩
      link_conns curr_node cs
        { dheap := dfa_push_edge dh2 curr_node iter_conns.cond_ch (dh1.length - 1),
          worklist := worklist1,
          worked_list := s.worked_list,
          num_nodes := s.num_nodes + 1 }

/-- One iteration of the `while (worklist != NULL)` loop, for the head `w` of
the worklist and the rest `tmp`. -/
def nfa_to_dfa_step (h : List nfa_node) (fuel : Nat) (s : dfagen_state) (w : dfagen_node)
    (tmp : List dfagen_node) : Option dfagen_state :=
  match conns_of_nodes h fuel w.nfas [] with
  | none => none
  | some conns =>
    some (link_conns w.node conns
      { s with worklist := tmp,
               worked_list := insert_node_into_dfagen_list s.worked_list w })

/-- The `while (worklist != NULL)` loop; `n` bounds the number of iterations and
`fuel` the depth of each `always_group`. -/
def nfa_to_dfa_loop (h : List nfa_node) (fuel : Nat) : Nat → dfagen_state → Option dfagen_state
  | 0, _ => none
  | n + 1, s =>
    match s.worklist with
    | [] => some s
    | w :: tmp =>
      match nfa_to_dfa_step h fuel s w tmp with
      | none => none
      | some s1 => nfa_to_dfa_loop h fuel n s1

/-- Source `nfa_to_dfa`: returns the DFA heap and the `dfa` record. -/
def nfa_to_dfa (h : List nfa_node) (fuel : Nat) (nfa_in : nfa) : Option (List dfa_node × dfa) :=
  match always_group h fuel nfa_in.start with
  | none => none
  | some alw_g =>
    let (dh, worklist) := insert_into_dfagen_list [] [] alw_g.isend alw_g.nfas
    match nfa_to_dfa_loop h fuel fuel ⟨dh, worklist, [], 1⟩ with
    | none => none
    | some s => some (s.dheap, ⟨s.num_nodes, 0⟩)

/-! ## Release of an automaton (`FREE_FA_GRAPH`, `free_nfa`, `free_dfa`) -/

/-- Macro `IS_NODE_IN_ARRAY`: the loop sets `OUT = 1` when it finds the node, and
the statement after the loop sets `OUT = 0`. -/
def IS_NODE_IN_ARRAY (ARR : List Nat) (NODE SIZE : Nat) : Bool :=
  let _OUT := (ARR.take SIZE).any (fun x => x == NODE)
  false

/-- State of the first loop of `FREE_FA_GRAPH`: the slots `TOFREE[0..node_count)`
and the nodes whose edge list has been walked and released, in that order. -/
structure free_log where
  tofree : List Nat
  walked : List Nat
deriving DecidableEq, Repr

/-- The inner loop of `FREE_FA_GRAPH` over the edge list of one node (given by
the targets of its edges): a target that `IS_NODE_IN_ARRAY` does not report is
stored in `TOFREE[node_count++]`; every edge cell is released. -/
def free_walk_edges : List Nat → List Nat → List Nat
  | [], tofree => tofree
  | target :: rest, tofree =>
    if !IS_NODE_IN_ARRAY tofree target tofree.length then
      free_walk_edges rest (tofree ++ [target])
    else free_walk_edges rest tofree

/-- The first loop of `FREE_FA_GRAPH`, `n` iterations from index `i`; `targets`
gives the targets of the edge list of a node.  The result is `none` when an
iteration reads a slot of `TOFREE` that was never written, or walks an edge list
whose cells were already released. -/
def FREE_FA_GRAPH_loop (targets : Nat → List Nat) : Nat → Nat → free_log → Option free_log
  | 0, _, log => some log
  | n + 1, i, log =>
    match log.tofree.get? i with
    | none => none
    | some node =>
      if node ∈ log.walked ∧ targets node ≠ [] then none
      else
        FREE_FA_GRAPH_loop targets n (i + 1)
          ⟨free_walk_edges (targets node) log.tofree, log.walked ++ [node]⟩

/-- Macro `FREE_FA_GRAPH`: the first loop, then `free(TOFREE[i])` for
`i < NUM_NODES`.  The result is the list of the released nodes, or `none` when
the execution is undefined (see `FREE_FA_GRAPH_loop`; a node that is in two of
the slots is released twice). -/
def FREE_FA_GRAPH (targets : Nat → List Nat) (FIRST_NODE NUM_NODES : Nat) : Option (List Nat) :=
  match FREE_FA_GRAPH_loop targets NUM_NODES 0 ⟨[FIRST_NODE], []⟩ with
  | none => none
  | some log =>
    if (log.tofree.take NUM_NODES).Nodup then some (log.tofree.take NUM_NODES) else none

/-- Source `free_nfa`. -/
def free_nfa (h : List nfa_node) (nfa_in : nfa) : Option (List Nat) :=
  FREE_FA_GRAPH (fun n => (nfa_at h n).next_l.map (fun e => e.node)) nfa_in.start
    nfa_in.num_nodes

/-- Source `free_dfa`. -/
def free_dfa (dh : List dfa_node) (d : dfa) : Option (List Nat) :=
  FREE_FA_GRAPH (fun n => (dfa_at dh n).next_l.map (fun e => e.node)) d.start d.num_nodes

/-! ## Compilation and matching (`RE_gen`, `RE_run`, `RE_matchhere`) -/

/-- Source `RE_gen` of `4_dfa_from_nfa`.  Returns the DFA heap, the `RE` record
and the pattern buffer as the function leaves it (a trailing `$` is overwritten
by NUL).  The read `regex[strlen(regex) - 1]` of an empty string is the byte
before the string: the `^` just skipped, or a byte outside the buffer
(undefined) when the whole pattern is empty.  The call `free_nfa(re_nfa)` of
line 209 releases the NFA; the DFA does not refer to it, so the call adds nothing
to the result, but `RE_gen` returns only when the execution of `free_nfa` is
defined. -/
def RE_gen (fuel : Nat) (regex : List Nat) : Option (List dfa_node × RE × List Nat) :=
  let match_start := regex.headD 0 == 94
  let regex1 := if match_start then regex.drop 1 else regex
  if regex1 = [] ∧ match_start = false then none
  else
    let match_end := regex1.getLastD 94 == 36
    let regex2 := if match_end then regex1.dropLast else regex1
    match generate_nfa fuel [] regex2 with
    | none => none
    | some (h, re_nfa) =>
      match nfa_to_dfa h fuel re_nfa with
      | none => none
      | some (dh, d) =>
        match free_nfa h re_nfa with
        | none => none
        | some _ =>
          some (dh, ⟨match_start, match_end, d⟩, if match_start then 94 :: regex2 else regex2)

/-- The edge loop of `RE_matchhere` (lines 250-256): target of the first edge
whose label matches the byte. -/
def first_match : List dfa_edge → Nat → Option Nat
  | [], _ => none
  | iter :: rest, c => if char_match iter.cond_ch c then some iter.node else first_match rest c

/-- The `do ... while (match && *text++ != 0)` loop of `RE_matchhere`, from node
`curr_node`.  At the end of the list `text[0]` is the terminating NUL. -/
def RE_matchhere_loop (dh : List dfa_node) (re : RE) : Nat → List Nat → Bool
  | curr_node, [] =>
    if (dfa_at dh curr_node).isend && (!re.match_end || (0 : Nat) == 0) then true
    else false
  | curr_node, c :: text =>
    if (dfa_at dh curr_node).isend && (!re.match_end || c == 0) then true
    else
      match first_match (dfa_at dh curr_node).next_l c with
      | none => false
      | some next => if c ≠ 0 then RE_matchhere_loop dh re next text else false

/-- Source `RE_matchhere` of `4_dfa_from_nfa`; `regex` is not read. -/
def RE_matchhere (dh : List dfa_node) (re : RE) (_regex : List Nat) (text : List Nat) : Bool :=
  RE_matchhere_loop dh re re.dfa.start text

/-- The `do ... while (*text++ != 0)` loop of `RE_run`. -/
def RE_run_loop (dh : List dfa_node) (re : RE) (regex : List Nat) : List Nat → Bool
  | [] => RE_matchhere dh re regex []
  | c :: text =>
    if RE_matchhere dh re regex (c :: text) then true
    else if c ≠ 0 then RE_run_loop dh re regex text else false

/-- Source `RE_run` of `4_dfa_from_nfa`. -/
def RE_run (dh : List dfa_node) (re : RE) (regex : List Nat) (text : List Nat) : Bool :=
  if regex.headD 0 = 94 then RE_matchhere dh re (regex.drop 1) text
  else RE_run_loop dh re regex text

/-! ## The NFA simulator of `3_nfa_more_regex/cgrep.c` -/

namespace NfaSim

/-- The C struct `RE` of `3_nfa_more_regex`: the anchor flags and the NFA. -/
structure RE where
  match_start : Bool
  match_end : Bool
  re_nfa : nfa
deriving DecidableEq, Repr

/-- The C struct `cnl_field`: a thread of the simulation. -/
structure cnl_field where
  text : List Nat
  node : Nat
deriving DecidableEq, Repr

/-- Source `insert_node_into_cnl`: the new field becomes the head. -/
def insert_node_into_cnl (start : List cnl_field) (node_ptr : Nat) (text : List Nat) :
    List cnl_field :=
  ⟨text, node_ptr⟩ :: start

/-- The edge loop of `RE_run` (lines 137-144) for the field with text `text`;
`cnl` is the part of the list in front of the field. -/
def spawn (text : List Nat) : List nfa_edge → List cnl_field → List cnl_field
  | [], cnl => cnl
  | iter :: rest, cnl =>
    if iter.always || char_match iter.cond_ch (text.headD 0) then
      if iter.always then spawn text rest (insert_node_into_cnl cnl iter.node text)
      else if text.headD 0 ≠ 0 then
        spawn text rest (insert_node_into_cnl cnl iter.node (text.drop 1))
      else spawn text rest cnl
    else spawn text rest cnl

/-- One pass of the `for (tmp = cnl; ...)` loop over the fields that are in the
list when the pass starts.  `front` holds the fields inserted during the pass
(they are in front of `tmp`), `kept` the processed fields that stay, last
first.  `none` is the jump to `over` with `end = 1`. -/
def pass (h : List nfa_node) (re : RE) :
    List cnl_field → List cnl_field → List cnl_field → Option (List cnl_field)
  | [], front, kept => some (front ++ kept.reverse)
  | tmp :: next, front, kept =>
    let curr_node := nfa_at h tmp.node
    if curr_node.isend && (!re.match_end || tmp.text.headD 0 == 0) then none
    else
      let front1 := spawn tmp.text curr_node.next_l front
      if tmp.node = re.re_nfa.start ∧ re.match_start = false ∧ tmp.text.headD 0 ≠ 0 then
        pass h re next front1 (⟨tmp.text.drop 1, tmp.node⟩ :: kept)
      else pass h re next front1 kept

/-- The `do ... while (!end && cnl != NULL)` loop; the fuel bounds the number of
passes. -/
def RE_run_loop (h : List nfa_node) (re : RE) : Nat → List cnl_field → Option Bool
  | 0, _ => none
  | fuel + 1, cnl =>
    match pass h re cnl [] [] with
    | none => some true
    | some cnl1 => if cnl1 = [] then some false else RE_run_loop h re fuel cnl1

/-- Source `RE_run` of `3_nfa_more_regex`; `regex` is not read. -/
def RE_run (h : List nfa_node) (re : RE) (fuel : Nat) (_regex : List Nat) (text : List Nat) :
    Option Bool :=
  RE_run_loop h re fuel (insert_node_into_cnl [] re.re_nfa.start text)

end NfaSim

/-- One line of `main` in `4_dfa_from_nfa`: `re = RE_gen(regex)` followed by
`RE_run(re, regex, buf)` on the pattern buffer as `RE_gen` left it. -/
def RE_gen_run (fuel : Nat) (regex : List Nat) (text : List Nat) : Option Bool :=
  match RE_gen fuel regex with
  | none => none
  | some (dh, re, regex1) => some (RE_run dh re regex1 text)

/-- The pipeline with the anchor flags given: `generate_nfa(regex)`, then
`nfa_to_dfa`, then `RE_run` of `4_dfa_from_nfa` with `regex` as pattern buffer. -/
def dfa_run (fuel : Nat) (match_start match_end : Bool) (regex : List Nat) (text : List Nat) :
    Option Bool :=
  match generate_nfa fuel [] regex with
  | none => none
  | some (h, re_nfa) =>
    match nfa_to_dfa h fuel re_nfa with
    | none => none
    | some (dh, d) => some (RE_run dh ⟨match_start, match_end, d⟩ regex text)

/-- The pipeline of `3_nfa_more_regex` with the anchor flags given:
`generate_nfa(regex)`, then `RE_run` over the NFA. -/
def nfa_run (fuel : Nat) (match_start match_end : Bool) (regex : List Nat) (text : List Nat) :
    Option Bool :=
  match generate_nfa fuel [] regex with
  | none => none
  | some (h, re_nfa) => NfaSim.RE_run h ⟨match_start, match_end, re_nfa⟩ fuel regex text

/-- The labels of the outgoing edges of a DFA node. -/
def dfa_labels (n : dfa_node) : List Nat := n.next_l.map (fun e => e.cond_ch)

/-- The DFA heap that `RE_gen` builds for the pattern `a*b`
(see `RE_gen_astar_b`). -/
def dh_astar_b : List dfa_node :=
  [⟨false, [⟨97, 2⟩, ⟨98, 1⟩]⟩, ⟨true, []⟩, ⟨false, [⟨98, 3⟩, ⟨97, 2⟩]⟩, ⟨true, []⟩]

/-- The DFA heap that `RE_gen` builds for the pattern `^abc$`
(see `RE_gen_caret_abc_dollar`). -/
def dh_abc : List dfa_node :=
  [⟨false, [⟨97, 1⟩]⟩, ⟨false, [⟨98, 2⟩]⟩, ⟨false, [⟨99, 3⟩]⟩, ⟨true, []⟩]

/-- The DFA heap that `RE_gen` builds for a one-byte pattern `p`
(see `RE_gen_single`). -/
def dh_single (p : Nat) : List dfa_node := [⟨false, [⟨p, 1⟩]⟩, ⟨true, []⟩]

/-- Invariant of the loop of `nfa_to_dfa` on the DFA heap and the worklist:
every queued DFA node is allocated and has no outgoing edge yet, no DFA node is
queued twice, and the edge labels of every DFA node are pairwise distinct. -/
def worklist_inv (dh : List dfa_node) (worklist : List dfagen_node) : Prop :=
  (∀ w ∈ worklist, w.node < dh.length ∧ (dfa_at dh w.node).next_l = []) ∧
    (worklist.map (fun w => w.node)).Nodup ∧
    ∀ i, (dfa_labels (dfa_at dh i)).Nodup

/-- The NFA heap that `generate_nfa` builds for the pattern `.*a`
(see `dfa_edge_labels_distinct_witness`). -/
def nh_dot_star_a : List nfa_node :=
  [⟨false, [⟨0, true, 2⟩, ⟨46, false, 1⟩]⟩, ⟨false, [⟨0, true, 0⟩]⟩,
    ⟨false, [⟨97, false, 3⟩]⟩, ⟨true, []⟩, ⟨false, [⟨0, true, 0⟩]⟩]

/-- The DFA heap that `nfa_to_dfa` builds for the pattern `.*a`
(see `dfa_edge_labels_distinct_witness`). -/
def dh_dot_star_a : List dfa_node :=
  [⟨false, [⟨46, 2⟩, ⟨97, 1⟩]⟩, ⟨true, []⟩, ⟨false, [⟨97, 3⟩, ⟨46, 2⟩]⟩, ⟨true, []⟩]

/-- The loop of `nfa_to_dfa` with its final state: when the worklist is empty,
`worked_list` holds, for every DFA node that was built, the NFA node list it
stands for (the lists that `free_dfagen_list` releases at the end). -/
def nfa_to_dfa_state (h : List nfa_node) (fuel : Nat) (nfa_in : nfa) : Option dfagen_state :=
  match always_group h fuel nfa_in.start with
  | none => none
  | some alw_g =>
    let (dh, worklist) := insert_into_dfagen_list [] [] alw_g.isend alw_g.nfas
    nfa_to_dfa_loop h fuel fuel ⟨dh, worklist, [], 1⟩

/-! ## Definitions used to state the properties -/

/-- The node reached from `node` by following, for each byte of `w` in turn, the
first outgoing edge whose label matches the byte; `none` when some byte has no
matching edge. -/
def dfa_follow (dh : List dfa_node) : Nat → List Nat → Option Nat
  | node, [] => some node
  | node, c :: w =>
    match first_match (dfa_at dh node).next_l c with
    | none => none
    | some next => dfa_follow dh next w

/-- The NFA heap that `generate_nfa` builds for the pattern `(a)*`
(see `always_group_never_returns`). -/
def nh_group_a_star : List nfa_node :=
  [⟨false, [⟨0, true, 2⟩, ⟨0, true, 1⟩]⟩, ⟨false, [⟨0, true, 0⟩]⟩, ⟨false, [⟨0, true, 3⟩]⟩,
    ⟨true, []⟩, ⟨false, [⟨0, true, 0⟩]⟩]

/-- The NFA heap that `generate_nfa` builds for the pattern `a*b*`
(see `free_nfa_releases_twice`). -/
def nh_astar_bstar : List nfa_node :=
  [⟨false, [⟨0, true, 6⟩, ⟨97, false, 1⟩]⟩, ⟨false, [⟨0, true, 0⟩]⟩,
    ⟨false, [⟨0, true, 4⟩, ⟨98, false, 3⟩]⟩, ⟨false, [⟨0, true, 2⟩]⟩,
    ⟨false, [⟨0, true, 5⟩]⟩, ⟨true, []⟩, ⟨false, [⟨0, true, 2⟩]⟩, ⟨false, [⟨0, true, 0⟩]⟩]

/-! ## Layout of the NFA of a pattern without groups

Descriptions of what `generate_nfa` appends to the heap for a pattern in which
no unit is a group; they are compared with `generate_nfa` in
`generate_nfa_layout`. -/

/-- Number of nodes that `generate_nfa` allocates for the pattern. -/
def frag_size : List Nat → Nat
  | [] => 2
  | [_] => 2
  | _ :: d :: rest => if d = 42 then 3 + frag_size rest else 2 + frag_size (d :: rest)

/-- Start node of the fragment that `generate_nfa` builds at heap index `k`. -/
def frag_start : List Nat → Nat → Nat
  | [], k => k
  | [_], k => k
  | _ :: d :: rest, k => if d = 42 then k + 2 + frag_size rest else k

/-- End node of the fragment that `generate_nfa` builds at heap index `k`. -/
def frag_end : List Nat → Nat → Nat
  | [], k => k + 1
  | [_], k => k + 1
  | _ :: d :: rest, k => if d = 42 then frag_end rest (k + 2) else frag_end (d :: rest) (k + 2)

/-- The nodes that `generate_nfa` appends at heap index `k`, as they are when it
returns. -/
def frag_nodes : List Nat → Nat → List nfa_node
  | [], k => [⟨false, [⟨0, true, k + 1⟩]⟩, ⟨true, []⟩]
  | [c], k => [⟨false, [⟨c, false, k + 1⟩]⟩, ⟨true, []⟩]
  | c :: d :: rest, k =>
    if d = 42 then
      ⟨false, [⟨0, true, frag_start rest (k + 2)⟩, ⟨c, false, k + 1⟩]⟩ ::
        ⟨false, [⟨0, true, k⟩]⟩ ::
        (frag_nodes rest (k + 2) ++ [⟨false, [⟨0, true, k⟩]⟩])
    else
      ⟨false, [⟨c, false, k + 1⟩]⟩ ::
        ⟨false, [⟨0, true, frag_start (d :: rest) (k + 2)⟩]⟩ ::
        frag_nodes (d :: rest) (k + 2)

/-- An epsilon (`always`) edge leads from node `n` to node `m`. -/
def eps_step (H : List nfa_node) (n m : Nat) : Prop :=
  ∃ e ∈ (nfa_at H n).next_l, e.always = true ∧ e.node = m

/-- Node `m` is `n` itself or is reachable from `n` through epsilon edges only. -/
def eps_reach (H : List nfa_node) (n m : Nat) : Prop :=
  Relation.ReflTransGen (eps_step H) n m

/-- The heap `H` holds at the indices `k ..` the nodes that `generate_nfa` builds
at index `k` for the pattern `p` (a pattern without groups). -/
def frag_in (H : List nfa_node) (k : Nat) (p : List Nat) : Prop :=
  ∀ i, i < frag_size p → nfa_at H (k + i) = nfa_at (frag_nodes p k) i

/-- A path of the NFA from node `n` to node `m` whose consuming edges match the
bytes of `w` in order; epsilon edges consume nothing. -/
inductive nfa_path (H : List nfa_node) : Nat → List Nat → Nat → Prop
  | refl (n : Nat) : nfa_path H n [] n
  | eps (n m : Nat) (w : List Nat) (e : nfa_edge) :
      e ∈ (nfa_at H n).next_l → e.always = true → nfa_path H e.node w m → nfa_path H n w m
  | consume (n m b : Nat) (w : List Nat) (e : nfa_edge) :
      e ∈ (nfa_at H n).next_l → e.always = false → char_match e.cond_ch b = true →
        nfa_path H e.node w m → nfa_path H n (b :: w) m

/-- An atom of a pattern: a literal byte (any byte other than NUL and
`^ $ * ( )`) or the wildcard `.`. -/
def is_atom (c : Nat) : Bool :=
  c != 0 && c != 94 && c != 36 && c != 42 && c != 40 && c != 41

/-- A pattern built only from atoms and `*` applied to the single atom before it
(no parentheses, no leading `*`). -/
def simple_pattern : List Nat → Bool
  | [] => true
  | [c] => is_atom c
  | c :: d :: rest =>
    is_atom c && (if d = 42 then simple_pattern rest else simple_pattern (d :: rest))

/-- The language of an atom: the one-byte strings whose byte the atom matches
(`.` matches every byte, a literal matches itself). -/
def atom_lang (c : Nat) : Language Nat :=
  {w | ∃ b, w = [b] ∧ char_match c b = true}

/-- The regular language denoted by a simple pattern: the empty pattern denotes
the empty string, `c*r` the Kleene star of the atom followed by the language of
`r`, and `cr` the atom followed by the language of `r`. -/
def pattern_lang : List Nat → Language Nat
  | [] => 1
  | [c] => atom_lang c
  | c :: d :: rest =>
    if d = 42 then KStar.kstar (atom_lang c) * pattern_lang rest
    else atom_lang c * pattern_lang (d :: rest)

/-- A pair of `worklist` or `worked_list` is sound: its DFA node is allocated and
is accepting exactly when its NFA node list contains an accepting node. -/
def entry_ok (h : List nfa_node) (dh : List dfa_node) (w : dfagen_node) : Prop :=
  w.node < dh.length ∧
    ((dfa_at dh w.node).isend = true ↔ ∃ m ∈ w.nfas, (nfa_at h m).isend = true)

/-- An entry of `conns` is sound: its `isend` flag is set exactly when its node
list contains an accepting node. -/
def conn_ok (h : List nfa_node) (c : nfa_2dlist) : Prop :=
  c.isend = true ↔ ∃ m ∈ c.nfas, (nfa_at h m).isend = true

/-- Invariant of the loop of `nfa_to_dfa` relating DFA nodes and NFA node lists:
every pair is sound, every DFA node has a pair, and the pair of DFA node 0
lists the members of `closure`. -/
def state_ok (h : List nfa_node) (closure : List Nat) (s : dfagen_state) : Prop :=
  (∀ w, w ∈ s.worklist ∨ w ∈ s.worked_list → entry_ok h s.dheap w) ∧
    (∀ i, i < s.dheap.length → ∃ w, (w ∈ s.worklist ∨ w ∈ s.worked_list) ∧ w.node = i) ∧
    ∃ w, (w ∈ s.worklist ∨ w ∈ s.worked_list) ∧ w.node = 0 ∧ ∀ m, m ∈ w.nfas ↔ m ∈ closure

/-- The NFA heap that `generate_nfa` builds for the pattern `a*b`. -/
def nh_astar_b : List nfa_node :=
  [⟨false, [⟨0, true, 2⟩, ⟨97, false, 1⟩]⟩, ⟨false, [⟨0, true, 0⟩]⟩,
    ⟨false, [⟨98, false, 3⟩]⟩, ⟨true, []⟩, ⟨false, [⟨0, true, 0⟩]⟩]

/-- Some edge, epsilon or consuming, leads from node `n` to node `m`. -/
def nfa_edge_step (H : List nfa_node) (n m : Nat) : Prop :=
  ∃ e ∈ (nfa_at H n).next_l, e.node = m

/-- Node `m` is `n` itself or is reachable from `n` along edges of the NFA. -/
def nfa_reach (H : List nfa_node) (n m : Nat) : Prop :=
  Relation.ReflTransGen (nfa_edge_step H) n m

/-! ## `RE_matchhere` and `RE_run` on a memory, with the addresses they inspect

The text is a pointer `text` into a memory `mem`; an iteration of the loop of
`RE_matchhere` reads `text[0]` only, so the list of the values of `text` at the
iterations is the list of the addresses that the call inspects.  The fuel bounds
the number of iterations (a memory without a NUL lets the loop run on). -/

/-- The `do ... while (match && *text++ != 0)` loop of `RE_matchhere` from node
`curr_node` with the text at address `text`: the value of `end` and the address
`text` of every iteration, in order. -/
def RE_matchhere_trace (dh : List dfa_node) (re : RE) (mem : Nat → Nat) :
    Nat → Nat → Nat → Option (Bool × List Nat)
  | 0, _, _ => none
  | fuel + 1, curr_node, text =>
    if (dfa_at dh curr_node).isend && (!re.match_end || mem text == 0) then some (true, [text])
    else
      match first_match (dfa_at dh curr_node).next_l (mem text) with
      | none => some (false, [text])
      | some next =>
        if mem text ≠ 0 then
          (RE_matchhere_trace dh re mem fuel next (text + 1)).map (fun r => (r.1, text :: r.2))
        else some (false, [text])

/-- The `do ... while (*text++ != 0)` loop of `RE_run` with the text at address
`text`: the result and, for every call of `RE_matchhere`, the address it is
called on and the addresses it inspects.  `fm` is the fuel of each call. -/
def RE_run_trace_loop (dh : List dfa_node) (re : RE) (mem : Nat → Nat) (fm : Nat) :
    Nat → Nat → Option (Bool × List (Nat × List Nat))
  | 0, _ => none
  | fuel + 1, text =>
    match RE_matchhere_trace dh re mem fm re.dfa.start text with
    | none => none
    | some (b, tr) =>
      if b then some (true, [(text, tr)])
      else if mem text ≠ 0 then
        (RE_run_trace_loop dh re mem fm fuel (text + 1)).map (fun r => (r.1, (text, tr) :: r.2))
      else some (false, [(text, tr)])

/-- Source `RE_run` with the text at address `text`: the result and the calls
of `RE_matchhere` it makes (see `RE_run_trace_loop`). -/
def RE_run_trace (dh : List dfa_node) (re : RE) (mem : Nat → Nat) (fm fuel : Nat)
    (regex : List Nat) (text : Nat) : Option (Bool × List (Nat × List Nat)) :=
  if regex.headD 0 = 94 then
    (RE_matchhere_trace dh re mem fm re.dfa.start text).map (fun r => (r.1, [(text, r.2)]))
  else RE_run_trace_loop dh re mem fm fuel text

/-- The `n` bytes of the memory from address `t` on. -/
def mem_text (mem : Nat → Nat) (t n : Nat) : List Nat :=
  (List.range n).map (fun i => mem (t + i))

/-! ## Definitions used for the termination of the worklist loop -/

/-- The NFA node lists of the entries of `worked_list`: the lists that
`find_dfagen_node` compares a list of `conns` with. -/
def worked_keys (s : dfagen_state) : List (List Nat) :=
  s.worked_list.map (fun v => v.nfas)

/-- A list of NFA nodes without repetition whose nodes are below `N`. -/
def nfas_valid (N : Nat) (K : List Nat) : Prop :=
  K.Nodup ∧ ∀ m ∈ K, m < N

/-- All lists without repetition of NFA nodes below `N`. -/
def key_universe (N : Nat) : Finset (List Nat) :=
  ((List.range N).sublists.flatMap List.permutations).toFinset

/-- Invariant of the worklist as a stack: when the list of a queued entry `x` is
already in `worked_list`, every list that the entry leads to is in
`worked_list` too or belongs to an entry queued above `x`. -/
def stack_inv (h : List nfa_node) (fuel : Nat) (s : dfagen_state) : Prop :=
  ∀ above x below, s.worklist = above ++ x :: below →
    copy_nfa_list x.nfas ∈ worked_keys s →
    ∀ conns, conns_of_nodes h fuel x.nfas [] = some conns →
      ∀ c ∈ conns, c.nfas ∈ worked_keys s ∨ ∃ a ∈ above, copy_nfa_list a.nfas = c.nfas

/-- Every list of `worklist` and of `worked_list` is without repetition and
holds nodes below `N` only. -/
def lists_valid (N : Nat) (s : dfagen_state) : Prop :=
  (∀ x ∈ s.worklist, nfas_valid N x.nfas) ∧ ∀ v ∈ s.worked_list, nfas_valid N v.nfas

/-- Some edge leads from DFA node `n` to DFA node `m`. -/
def dfa_edge_step (dh : List dfa_node) (n m : Nat) : Prop :=
  ∃ e ∈ (dfa_at dh n).next_l, e.node = m

/-- DFA node `m` is `n` itself or is reachable from `n` along edges of the DFA. -/
def dfa_reach (dh : List dfa_node) (n m : Nat) : Prop :=
  Relation.ReflTransGen (dfa_edge_step dh) n m

/-- Invariant of the loop of `nfa_to_dfa` on the node count: `num_nodes` is the
number of allocated DFA nodes, the entries and the edges point to allocated
nodes, and every allocated node is reachable from node 0. -/
def count_inv (s : dfagen_state) : Prop :=
  (s.num_nodes = s.dheap.length ∧ 0 < s.dheap.length) ∧
    (∀ w ∈ s.worklist, w.node < s.dheap.length) ∧
    (∀ v ∈ s.worked_list, v.node < s.dheap.length) ∧
    (∀ i, ∀ e ∈ (dfa_at s.dheap i).next_l, e.node < s.dheap.length) ∧
    ∀ i, i < s.dheap.length → dfa_reach s.dheap 0 i

/-! ## The backtracking matcher of `1_backtracking/cgrep.c` (lines 52-92)

The text is the list of the bytes in front of the terminating NUL, as for
`RE_run`: `text.headD 0` is `text[0]` and `text.drop 1` is `text + 1`. -/

namespace Backtracking

/-- The `while (!matchhere(regex, text))` loop of `matchstar` and the `return`
after it; `mh` is `matchhere(regex, ·)`. -/
def matchstar_loop (mh : List Nat → Bool) (c : Nat) : List Nat → Bool
  | [] => if mh [] then mh [] else false
  | t :: text =>
    if mh (t :: text) then mh (t :: text)
    else if (c ≠ 46 ∧ t ≠ c) ∨ t = 0 then false
    else matchstar_loop mh c text

/-- Source `matchhere`.  In a pattern of two bytes or more `regex[1]` is not NUL,
so the test for a final `$` fails there; the call of `matchstar` is written as
its loop. -/
def matchhere : List Nat → List Nat → Bool
  | [], _ => true
  | [c], text =>
    if c = 36 then text.headD 0 == 0
    else if text.headD 0 ≠ 0 ∧ (c = 46 ∨ c = text.headD 0) then matchhere [] (text.drop 1)
    else false
  | c :: d :: rest, text =>
    if d = 42 then matchstar_loop (matchhere rest) c text
    else if text.headD 0 ≠ 0 ∧ (c = 46 ∨ c = text.headD 0) then
      matchhere (d :: rest) (text.drop 1)
    else false

/-- Source `matchstar`. -/
def matchstar (c : Nat) (regex text : List Nat) : Bool :=
  matchstar_loop (matchhere regex) c text

/-- The `do ... while (*text++ != 0)` loop of `match`. -/
def match_loop (regex : List Nat) : List Nat → Bool
  | [] => if matchhere regex [] then true else false
  | t :: text =>
    if matchhere regex (t :: text) then true
    else if t ≠ 0 then match_loop regex text else false

/-- Source `match`. -/
def match_ (regex text : List Nat) : Bool :=
  if regex.headD 0 = 94 then matchhere (regex.drop 1) text else match_loop regex text

end Backtracking

/-- A literal byte of a pattern: any byte other than NUL and `^ $ * ( ) .`. -/
def is_literal (c : Nat) : Bool := is_atom c && c != 46

/-- A pattern built only from literal bytes and `*` applied to the literal
before it. -/
def literal_pattern : List Nat → Bool
  | [] => true
  | [c] => is_literal c
  | c :: d :: rest =>
    is_literal c && (if d = 42 then literal_pattern rest else literal_pattern (d :: rest))

/-- The pattern with the body `body`, a leading `^` when `ms` is set and a
trailing `$` when `me` is set. -/
def anchored (ms me : Bool) (body : List Nat) : List Nat :=
  (if ms then [94] else []) ++ body ++ (if me then [36] else [])

/-! ## Definitions used to compare the DFA with the NFA -/

/-- Node `m` is in the epsilon closure of the target of a consuming edge of `E`
with the label `b`. -/
def edges_move (h : List nfa_node) (E : List nfa_edge) (b m : Nat) : Prop :=
  ∃ e ∈ E, e.always = false ∧ e.cond_ch = b ∧ eps_reach h e.node m

/-- Node `m` is in the epsilon closure of the target of a consuming edge with
the label `b` that leaves a node of `S`. -/
def move_closure (h : List nfa_node) (S : List Nat) (b m : Nat) : Prop :=
  ∃ n ∈ S, edges_move h (nfa_at h n).next_l b m

/-- The list `conns` stands for the consuming edges of `E`: the entry of a
label lists the closure of the targets of the edges with that label, every
label of a consuming edge has an entry, and every entry has an edge. -/
def conns_rep (h : List nfa_node) (E : List nfa_edge) (conns : List nfa_2dlist) : Prop :=
  (∀ c ∈ conns, ∀ m, m ∈ c.nfas ↔ edges_move h E c.cond_ch m) ∧
    (∀ b m, edges_move h E b m → ∃ c ∈ conns, c.cond_ch = b) ∧
    ∀ c ∈ conns, ∃ e ∈ E, e.always = false ∧ e.cond_ch = c.cond_ch

/-- One iteration of the loop of `link_conns` (lines 315-322), in closed form:
the state after the entry `c` of `conns`. -/
def link_conn (curr : Nat) (c : nfa_2dlist) (s : dfagen_state) : dfagen_state :=
  match find_dfagen_node s.worked_list c.nfas with
  | some tmp => { s with dheap := dfa_push_edge s.dheap curr c.cond_ch tmp.node }
  | none =>
    { dheap := dfa_push_edge (s.dheap ++ [⟨c.isend, []⟩]) curr c.cond_ch s.dheap.length,
      worklist := ⟨copy_nfa_list c.nfas, s.dheap.length⟩ :: s.worklist,
      worked_list := s.worked_list,
      num_nodes := s.num_nodes + 1 }

/-- Invariant of the loop of `nfa_to_dfa` that relates the edges of the DFA with
the NFA: a DFA node is in one entry only, a queued node has no edge yet, an edge
of a node that was worked on leads to the node of the closure of the NFA edges
with the label of the edge, every such label has an edge, and the lists of the
entries are closed under epsilon edges. -/
def det_ok (h : List nfa_node) (s : dfagen_state) : Prop :=
  ((s.worklist.map (fun w => w.node)).Nodup ∧
      ∀ w ∈ s.worklist, ∀ v ∈ s.worked_list, w.node ≠ v.node) ∧
    (∀ w, w ∈ s.worklist ∨ w ∈ s.worked_list → w.node < s.dheap.length) ∧
    (∀ w ∈ s.worklist, (dfa_at s.dheap w.node).next_l = []) ∧
    (∀ v ∈ s.worked_list, ∀ e ∈ (dfa_at s.dheap v.node).next_l,
      e.cond_ch ≠ 46 ∧ ∃ v1, (v1 ∈ s.worklist ∨ v1 ∈ s.worked_list) ∧ v1.node = e.node ∧
        ∀ m, m ∈ v1.nfas ↔ move_closure h v.nfas e.cond_ch m) ∧
    (∀ v ∈ s.worked_list, ∀ b m, move_closure h v.nfas b m →
      ∃ e ∈ (dfa_at s.dheap v.node).next_l, e.cond_ch = b) ∧
    ∀ w, w ∈ s.worklist ∨ w ∈ s.worked_list →
      ∀ m ∈ w.nfas, ∀ m1, eps_reach h m m1 → m1 ∈ w.nfas

/-- The NFA heap that `generate_nfa` builds for the pattern `a*a`
(see `dedup_misses_reordered_list`). -/
def nh_astar_a : List nfa_node :=
  [⟨false, [⟨0, true, 2⟩, ⟨97, false, 1⟩]⟩, ⟨false, [⟨0, true, 0⟩]⟩,
    ⟨false, [⟨97, false, 3⟩]⟩, ⟨true, []⟩, ⟨false, [⟨0, true, 0⟩]⟩]

/-- The NFA heap that `generate_nfa` builds for the pattern `a*bc`
(see `pipeline_undefined_backtracking_matches`). -/
def nh_astar_bc : List nfa_node :=
  [⟨false, [⟨0, true, 2⟩, ⟨97, false, 1⟩]⟩, ⟨false, [⟨0, true, 0⟩]⟩,
    ⟨false, [⟨98, false, 3⟩]⟩, ⟨false, [⟨0, true, 4⟩]⟩, ⟨false, [⟨99, false, 5⟩]⟩,
    ⟨true, []⟩, ⟨false, [⟨0, true, 0⟩]⟩]

/-! ## Theorems -/

/-! ### More fuel does not change a result -/

theorem generate_nfa_succ (n : Nat) :
    ∀ (h : List nfa_node) (regex : List Nat) (r : List nfa_node × nfa),
      generate_nfa n h regex = some r → generate_nfa (n + 1) h regex = some r := by
  induction n with
  | zero =>
    intro h regex r hr
    simp [generate_nfa] at hr
  | succ n ih =>
    intro h regex r hr
    match regex with
    | [] => simpa [generate_nfa] using hr
    | [c] => simpa [generate_nfa] using hr
    | a :: b :: rest =>
      rw [generate_nfa] at hr ⊢
      generalize a :: b :: rest = regex0 at hr ⊢
      cases hsp : split_unit regex0 with
      | none => simp [hsp] at hr
      | some p =>
        obtain ⟨regex_end, left_regex⟩ := p
        simp only [hsp] at hr ⊢
        cases h1 : generate_nfa n h left_regex with
        | none => simp [h1] at hr
        | some q =>
          obtain ⟨h1', first⟩ := q
          rw [ih h left_regex _ h1]
          simp only [h1] at hr ⊢
          by_cases hstar : regex0.getD (regex_end + 1) 0 = 42
          · simp only [hstar, if_true] at hr ⊢
            cases h2 : generate_nfa n h1' (List.drop (regex_end + 2) regex0) with
            | none => simp [h2] at hr
            | some q2 =>
              rw [ih _ _ _ h2]
              rw [h2] at hr
              exact hr
          · simp only [hstar, if_false] at hr ⊢
            cases h2 : generate_nfa n h1' (List.drop (regex_end + 1) regex0) with
            | none => simp [h2] at hr
            | some q2 =>
              rw [ih _ _ _ h2]
              rw [h2] at hr
              exact hr

theorem generate_nfa_mono {n m : Nat} (hnm : n ≤ m) (h : List nfa_node) (regex : List Nat)
    (r : List nfa_node × nfa) (hr : generate_nfa n h regex = some r) :
    generate_nfa m h regex = some r := by
  induction hnm with
  | refl => exact hr
  | step _ ih => exact generate_nfa_succ _ h regex r ih

theorem always_group_edges_mono (rec1 rec2 : Nat → Option always_g) (node : Nat)
    (hrec : ∀ p r, rec1 p = some r → rec2 p = some r) (es : List nfa_edge) :
    ∀ (out r : always_g), always_group_edges rec1 node es out = some r →
      always_group_edges rec2 node es out = some r := by
  induction es with
  | nil =>
    intro out r hr
    simpa [always_group_edges] using hr
  | cons e es ih =>
    intro out r hr
    unfold always_group_edges at hr ⊢
    cases hs : always_group_step rec1 node out e with
    | none => simp [hs] at hr
    | some out1 =>
      have hs2 : always_group_step rec2 node out e = some out1 := by
        unfold always_group_step at hs ⊢
        by_cases ha : e.always = true
        · simp only [ha, if_true] at hs ⊢
          cases hr1 : rec1 e.node with
          | none => simp [hr1] at hs
          | some t =>
            rw [hrec _ _ hr1]
            simpa [hr1] using hs
        · simpa [ha] using hs
      rw [hs2]
      rw [hs] at hr
      exact ih out1 r hr

theorem always_group_succ (h : List nfa_node) (n : Nat) :
    ∀ (node : Nat) (r : always_g), always_group h n node = some r →
      always_group h (n + 1) node = some r := by
  induction n with
  | zero =>
    intro node r hr
    simp [always_group] at hr
  | succ n ih =>
    intro node r hr
    rw [always_group] at hr ⊢
    exact always_group_edges_mono _ _ node ih _ _ r hr

theorem always_group_mono (h : List nfa_node) {n m : Nat} (hnm : n ≤ m) (node : Nat)
    (r : always_g) (hr : always_group h n node = some r) : always_group h m node = some r := by
  induction hnm with
  | refl => exact hr
  | step _ ih => exact always_group_succ h _ node r ih

theorem conns_of_edges_mono (h : List nfa_node) {n m : Nat} (hnm : n ≤ m)
    (es : List nfa_edge) :
    ∀ (conns out : List nfa_2dlist), conns_of_edges h n es conns = some out →
      conns_of_edges h m es conns = some out := by
  induction es with
  | nil =>
    intro conns out hr
    simpa [conns_of_edges] using hr
  | cons e es ih =>
    intro conns out hr
    unfold conns_of_edges at hr ⊢
    by_cases ha : e.always = true
    · simp only [ha, if_true] at hr ⊢
      exact ih conns out hr
    · simp only [ha] at hr ⊢
      cases hg : always_group h n e.node with
      | none => simp [hg] at hr
      | some g =>
        rw [always_group_mono h hnm _ _ hg]
        rw [hg] at hr
        exact ih _ out hr

theorem conns_of_nodes_mono (h : List nfa_node) {n m : Nat} (hnm : n ≤ m) (ns : List Nat) :
    ∀ (conns out : List nfa_2dlist), conns_of_nodes h n ns conns = some out →
      conns_of_nodes h m ns conns = some out := by
  induction ns with
  | nil =>
    intro conns out hr
    simpa [conns_of_nodes] using hr
  | cons p ns ih =>
    intro conns out hr
    unfold conns_of_nodes at hr ⊢
    cases hc : conns_of_edges h n (nfa_at h p).next_l conns with
    | none => simp [hc] at hr
    | some c1 =>
      rw [conns_of_edges_mono h hnm _ _ _ hc]
      rw [hc] at hr
      exact ih c1 out hr

theorem nfa_to_dfa_step_mono (h : List nfa_node) {n m : Nat} (hnm : n ≤ m) (s s1 : dfagen_state)
    (w : dfagen_node) (tmp : List dfagen_node) (hr : nfa_to_dfa_step h n s w tmp = some s1) :
    nfa_to_dfa_step h m s w tmp = some s1 := by
  unfold nfa_to_dfa_step at hr ⊢
  cases hc : conns_of_nodes h n w.nfas [] with
  | none => simp [hc] at hr
  | some c1 =>
    rw [conns_of_nodes_mono h hnm _ _ _ hc]
    simpa [hc] using hr

theorem nfa_to_dfa_loop_mono (h : List nfa_node) {n m : Nat} (hnm : n ≤ m) (k : Nat) :
    ∀ (k1 : Nat) (s s1 : dfagen_state), k ≤ k1 → nfa_to_dfa_loop h n k s = some s1 →
      nfa_to_dfa_loop h m k1 s = some s1 := by
  induction k with
  | zero =>
    intro k1 s s1 _ hr
    simp [nfa_to_dfa_loop] at hr
  | succ k ih =>
    intro k1 s s1 hk hr
    obtain ⟨k2, rfl⟩ : ∃ k2, k1 = k2 + 1 := ⟨k1 - 1, by omega⟩
    unfold nfa_to_dfa_loop at hr ⊢
    cases hw : s.worklist with
    | nil => simpa [hw] using hr
    | cons w tmp =>
      simp only [hw] at hr ⊢
      cases hs : nfa_to_dfa_step h n s w tmp with
      | none => simp [hs] at hr
      | some s2 =>
        rw [nfa_to_dfa_step_mono h hnm _ _ _ _ hs]
        rw [hs] at hr
        exact ih k2 s2 s1 (by omega) hr

theorem nfa_to_dfa_mono (h : List nfa_node) {n m : Nat} (hnm : n ≤ m) (nfa_in : nfa)
    (r : List dfa_node × dfa) (hr : nfa_to_dfa h n nfa_in = some r) :
    nfa_to_dfa h m nfa_in = some r := by
  unfold nfa_to_dfa at hr ⊢
  cases hg : always_group h n nfa_in.start with
  | none => simp [hg] at hr
  | some g =>
    rw [always_group_mono h hnm _ _ hg]
    simp only [hg] at hr ⊢
    cases hl : nfa_to_dfa_loop h n n
        ⟨(insert_into_dfagen_list [] [] g.isend g.nfas).1,
          (insert_into_dfagen_list [] [] g.isend g.nfas).2, [], 1⟩ with
    | none => simp [hl] at hr
    | some s =>
      rw [nfa_to_dfa_loop_mono h hnm n m _ _ hnm hl]
      simpa [hl] using hr

theorem RE_gen_mono {n m : Nat} (hnm : n ≤ m) (regex : List Nat)
    (r : List dfa_node × RE × List Nat) (hr : RE_gen n regex = some r) :
    RE_gen m regex = some r := by
  unfold RE_gen at hr ⊢
  dsimp only at hr ⊢
  generalize (regex.headD 0 == 94) = ms at hr ⊢
  generalize (if ms = true then List.drop 1 regex else regex) = r1 at hr ⊢
  generalize (r1.getLastD 94 == 36) = me at hr ⊢
  generalize (if me = true then r1.dropLast else r1) = r2 at hr ⊢
  by_cases hc : r1 = [] ∧ ms = false
  · rw [if_pos hc] at hr
    exact absurd hr (by simp)
  · rw [if_neg hc] at hr ⊢
    cases hg : generate_nfa n [] r2 with
    | none =>
      rw [hg] at hr
      exact absurd hr (by simp)
    | some q =>
      obtain ⟨h, re_nfa⟩ := q
      rw [generate_nfa_mono hnm _ _ _ hg]
      rw [hg] at hr
      dsimp only at hr ⊢
      cases hd : nfa_to_dfa h n re_nfa with
      | none =>
        rw [hd] at hr
        exact absurd hr (by simp)
      | some q2 =>
        rw [nfa_to_dfa_mono h hnm _ _ hd]
        rw [hd] at hr
        exact hr

theorem RE_gen_run_mono {n m : Nat} (hnm : n ≤ m) (regex text : List Nat) (b : Bool)
    (hr : RE_gen_run n regex text = some b) : RE_gen_run m regex text = some b := by
  unfold RE_gen_run at hr ⊢
  cases hg : RE_gen n regex with
  | none => simp [hg] at hr
  | some q =>
    rw [RE_gen_mono hnm _ _ hg]
    simpa [hg] using hr

theorem dfa_run_mono {n m : Nat} (hnm : n ≤ m) (ms me : Bool) (regex text : List Nat)
    (b : Bool) (hr : dfa_run n ms me regex text = some b) :
    dfa_run m ms me regex text = some b := by
  unfold dfa_run at hr ⊢
  cases hg : generate_nfa n [] regex with
  | none =>
    rw [hg] at hr
    exact absurd hr (by simp)
  | some q =>
    obtain ⟨h, re_nfa⟩ := q
    rw [generate_nfa_mono hnm _ _ _ hg]
    rw [hg] at hr
    dsimp only at hr ⊢
    cases hd : nfa_to_dfa h n re_nfa with
    | none =>
      rw [hd] at hr
      exact absurd hr (by simp)
    | some q2 =>
      rw [nfa_to_dfa_mono h hnm _ _ hd]
      rw [hd] at hr
      exact hr

theorem nfa_sim_loop_mono (h : List nfa_node) (re : NfaSim.RE) (n : Nat) :
    ∀ (m : Nat) (cnl : List NfaSim.cnl_field) (b : Bool), n ≤ m →
      NfaSim.RE_run_loop h re n cnl = some b → NfaSim.RE_run_loop h re m cnl = some b := by
  induction n with
  | zero =>
    intro m cnl b _ hr
    simp [NfaSim.RE_run_loop] at hr
  | succ n ih =>
    intro m cnl b hm hr
    obtain ⟨m1, rfl⟩ : ∃ m1, m = m1 + 1 := ⟨m - 1, by omega⟩
    unfold NfaSim.RE_run_loop at hr ⊢
    cases hp : NfaSim.pass h re cnl [] [] with
    | none =>
      rw [hp] at hr
      exact hr
    | some cnl1 =>
      rw [hp] at hr
      dsimp only at hr ⊢
      by_cases he : cnl1 = []
      · rw [if_pos he] at hr ⊢
        exact hr
      · rw [if_neg he] at hr ⊢
        exact ih m1 cnl1 b (by omega) hr

theorem nfa_run_mono {n m : Nat} (hnm : n ≤ m) (ms me : Bool) (regex text : List Nat)
    (b : Bool) (hr : nfa_run n ms me regex text = some b) :
    nfa_run m ms me regex text = some b := by
  unfold nfa_run at hr ⊢
  cases hg : generate_nfa n [] regex with
  | none =>
    rw [hg] at hr
    exact absurd hr (by simp)
  | some q =>
    obtain ⟨h, re_nfa⟩ := q
    rw [generate_nfa_mono hnm _ _ _ hg]
    rw [hg] at hr
    exact nfa_sim_loop_mono h _ n m _ b hnm hr

/-! ### The search loop of `RE_run` -/

theorem RE_run_loop_iff (dh : List dfa_node) (re : RE) (regex : List Nat) (T : List Nat)
    (hT : 0 ∉ T) :
    RE_run_loop dh re regex T = true ↔
      ∃ o, o ≤ T.length ∧ RE_matchhere dh re regex (T.drop o) = true := by
  induction T with
  | nil =>
    simp [RE_run_loop]
  | cons c text ih =>
    have hc : c ≠ 0 := fun h => hT (by simp [h])
    have ht : 0 ∉ text := fun h => hT (by simp [h])
    simp only [RE_run_loop, hc, ne_eq, not_false_eq_true, if_true]
    constructor
    · intro h
      by_cases h0 : RE_matchhere dh re regex (c :: text) = true
      · exact ⟨0, by simp, by simpa using h0⟩
      · simp [h0] at h
        obtain ⟨o, ho, hm⟩ := (ih ht).1 h
        exact ⟨o + 1, by simpa using ho, by simpa using hm⟩
    · rintro ⟨o, ho, hm⟩
      cases o with
      | zero => simp at hm; simp [hm]
      | succ o =>
        have : RE_run_loop dh re regex text = true :=
          (ih ht).2 ⟨o, by simpa using ho, by simpa using hm⟩
        simp [this]

theorem dot_star_a_fuel8 :
    nfa_run 8 false false (bytes ".*a") (bytes "a") = some true ∧
      dfa_run 8 false false (bytes ".*a") (bytes "a") = some false := by
  decide

/-- C1, evaluated at the pattern `.*a` and the text `a` with no anchor flag: the
NFA simulator of `3_nfa_more_regex` returns 1 and the DFA matcher of
`4_dfa_from_nfa`, run over `nfa_to_dfa` of the same NFA, returns 0; with no
amount of fuel do the two return the same result. -/
theorem nfa_accepts_dfa_rejects :
    (nfa_run 8 false false (bytes ".*a") (bytes "a") = some true ∧
        dfa_run 8 false false (bytes ".*a") (bytes "a") = some false) ∧
      ¬ ∃ fuel1 fuel2 b, nfa_run fuel1 false false (bytes ".*a") (bytes "a") = some b ∧
          dfa_run fuel2 false false (bytes ".*a") (bytes "a") = some b := by
  refine ⟨dot_star_a_fuel8, ?_⟩
  rintro ⟨fuel1, fuel2, b, h1, h2⟩
  have a1 := nfa_run_mono (Nat.le_max_right fuel1 8) _ _ _ _ _ dot_star_a_fuel8.1
  have a2 := nfa_run_mono (Nat.le_max_left fuel1 8) _ _ _ _ _ h1
  have b1 := dfa_run_mono (Nat.le_max_right fuel2 8) _ _ _ _ _ dot_star_a_fuel8.2
  have b2 := dfa_run_mono (Nat.le_max_left fuel2 8) _ _ _ _ _ h2
  rw [a1] at a2
  rw [b1] at b2
  cases b <;> simp at a2 b2

/-- C2: when the pattern buffer does not start with `^`, `RE_run` returns 1
exactly when `RE_matchhere` returns 1 on the suffix of the text at some offset
`o` with `0 ≤ o ≤ length T`, the end offset included. -/
theorem RE_run_iff_some_offset (dh : List dfa_node) (re : RE) (regex : List Nat)
    (T : List Nat) (hreg : regex.headD 0 ≠ 94) (hT : 0 ∉ T) :
    RE_run dh re regex T = true ↔
      ∃ o, o ≤ T.length ∧ RE_matchhere dh re regex (T.drop o) = true := by
  unfold RE_run
  rw [if_neg hreg]
  exact RE_run_loop_iff dh re regex T hT

/-- Witness of C2: the DFA of the pattern `b$` on the text `ab`, where the only
matching offset is 1. -/
theorem RE_run_iff_some_offset_witness :
    ([98].headD 0 ≠ 94 ∧ 0 ∉ [97, 98]) ∧
      (RE_run (dh_single 98) ⟨false, true, ⟨2, 0⟩⟩ [98] [97, 98] = true ↔
        ∃ o, o ≤ [97, 98].length ∧
          RE_matchhere (dh_single 98) ⟨false, true, ⟨2, 0⟩⟩ [98] ([97, 98].drop o) = true) :=
  ⟨by decide,
    RE_run_iff_some_offset (dh_single 98) ⟨false, true, ⟨2, 0⟩⟩ [98] [97, 98]
      (by decide) (by decide)⟩

/-- C3: when the pattern buffer starts with `^`, `RE_run` returns the result of
the single call `RE_matchhere(re, regex + 1, text)` at offset 0; no other offset
is tried. -/
theorem RE_run_anchored (dh : List dfa_node) (re : RE) (regex : List Nat) (T : List Nat)
    (hreg : regex.headD 0 = 94) :
    RE_run dh re regex T = RE_matchhere dh re (regex.drop 1) T := by
  unfold RE_run
  rw [if_pos hreg]

/-- Witness of C3: for the pattern buffer `^b` and the text `ab` the match that
exists at offset 1 is not found. -/
theorem RE_run_anchored_witness :
    [94, 98].headD 0 = 94 ∧
      RE_run (dh_single 98) ⟨true, false, ⟨2, 0⟩⟩ [94, 98] [97, 98] = false ∧
      RE_matchhere (dh_single 98) ⟨true, false, ⟨2, 0⟩⟩ [98] ([97, 98].drop 1) = true :=
  ⟨by decide,
    (RE_run_anchored (dh_single 98) ⟨true, false, ⟨2, 0⟩⟩ [94, 98] [97, 98] (by decide)).trans
      (by decide),
    by decide⟩

/-! ### The pattern `a*b` -/

theorem RE_gen_astar_b :
    RE_gen 8 (bytes "a*b") = some (dh_astar_b, ⟨false, false, ⟨4, 0⟩⟩, bytes "a*b") := by
  decide

theorem astar_b_loop2_b (re : RE) (n : Nat) :
    RE_matchhere_loop dh_astar_b re 2 (List.replicate n 97 ++ [98]) = true := by
  induction n with
  | zero => simp [RE_matchhere_loop, dfa_at, dh_astar_b, first_match, char_match]
  | succ n ih =>
    simpa [List.replicate_succ, RE_matchhere_loop, dfa_at, dh_astar_b, first_match,
      char_match] using ih

theorem astar_b_loop2_a (re : RE) (n : Nat) :
    RE_matchhere_loop dh_astar_b re 2 (List.replicate n 97) = false := by
  induction n with
  | zero => simp [RE_matchhere_loop, dfa_at, dh_astar_b]
  | succ n ih =>
    simpa [List.replicate_succ, RE_matchhere_loop, dfa_at, dh_astar_b, first_match,
      char_match] using ih

theorem astar_b_here_b (re : RE) (regex : List Nat) (hs : re.dfa.start = 0) (n : Nat) :
    RE_matchhere dh_astar_b re regex (List.replicate n 97 ++ [98]) = true := by
  unfold RE_matchhere
  rw [hs]
  cases n with
  | zero => simp [RE_matchhere_loop, dfa_at, dh_astar_b, first_match, char_match]
  | succ n =>
    simpa [List.replicate_succ, RE_matchhere_loop, dfa_at, dh_astar_b, first_match,
      char_match] using astar_b_loop2_b re n

theorem astar_b_here_a (re : RE) (regex : List Nat) (hs : re.dfa.start = 0) (n : Nat) :
    RE_matchhere dh_astar_b re regex (List.replicate n 97) = false := by
  unfold RE_matchhere
  rw [hs]
  cases n with
  | zero => simp [RE_matchhere_loop, dfa_at, dh_astar_b]
  | succ n =>
    simpa [List.replicate_succ, RE_matchhere_loop, dfa_at, dh_astar_b, first_match,
      char_match] using astar_b_loop2_a re n

theorem astar_b_run_a (re : RE) (regex : List Nat) (hs : re.dfa.start = 0) (n : Nat) :
    RE_run_loop dh_astar_b re regex (List.replicate n 97) = false := by
  induction n with
  | zero => simpa [RE_run_loop] using astar_b_here_a re regex hs 0
  | succ n ih =>
    have h := astar_b_here_a re regex hs (n + 1)
    rw [List.replicate_succ] at h
    simp [List.replicate_succ, RE_run_loop, h, ih]

theorem astar_b_fuel8 (n : Nat) :
    RE_gen_run 8 (bytes "a*b") (List.replicate n 97 ++ [98]) = some true ∧
      RE_gen_run 8 (bytes "a*b") (List.replicate n 97) = some false := by
  have hb : (bytes "a*b").headD 0 ≠ 94 := by decide
  simp only [RE_gen_run, RE_gen_astar_b, RE_run, if_neg hb]
  refine ⟨?_, ?_⟩
  · have h := astar_b_here_b ⟨false, false, ⟨4, 0⟩⟩ (bytes "a*b") rfl n
    cases n with
    | zero =>
      have h0 : RE_matchhere dh_astar_b ⟨false, false, ⟨4, 0⟩⟩ (bytes "a*b") [98] = true := by
        simpa using h
      simp [RE_run_loop, h0]
    | succ n =>
      rw [List.replicate_succ] at h ⊢
      simp only [List.cons_append] at h ⊢
      simp [RE_run_loop, h]
  · rw [astar_b_run_a ⟨false, false, ⟨4, 0⟩⟩ (bytes "a*b") rfl n]

/-- C4: the pattern `a*b`, compiled by `RE_gen` (with any fuel from 8 on) and run
by `RE_run` on the buffer `RE_gen` left: for every `n` the text of `n` bytes `a`
followed by `b` is matched and the text of `n` bytes `a` alone is not. -/
theorem astar_b_matches (fuel n : Nat) (hf : 8 ≤ fuel) :
    RE_gen_run fuel (bytes "a*b") (List.replicate n 97 ++ [98]) = some true ∧
      RE_gen_run fuel (bytes "a*b") (List.replicate n 97) = some false :=
  ⟨RE_gen_run_mono hf _ _ _ (astar_b_fuel8 n).1, RE_gen_run_mono hf _ _ _ (astar_b_fuel8 n).2⟩

/-- Witness of C4: `aaab` and `b` are matched, `aaa` is not. -/
theorem astar_b_matches_witness :
    8 ≤ 8 ∧
      (RE_gen_run 8 (bytes "a*b") (bytes "aaab") = some true ∧
        RE_gen_run 8 (bytes "a*b") (bytes "aaa") = some false) ∧
      (RE_gen_run 8 (bytes "a*b") (bytes "b") = some true ∧
        RE_gen_run 8 (bytes "a*b") (bytes "") = some false) :=
  ⟨by decide, astar_b_matches 8 3 (by decide), astar_b_matches 8 0 (by decide)⟩

/-! ### The pattern `^abc$` -/

theorem RE_gen_caret_abc_dollar :
    RE_gen 8 (bytes "^abc$") = some (dh_abc, ⟨true, true, ⟨4, 0⟩⟩, bytes "^abc") := by
  decide

theorem abc_loop3 (T : List Nat) (hT : 0 ∉ T) :
    RE_matchhere_loop dh_abc ⟨true, true, ⟨4, 0⟩⟩ 3 T = decide (T = []) := by
  cases T with
  | nil => simp [RE_matchhere_loop, dfa_at, dh_abc]
  | cons c t =>
    have hc : c ≠ 0 := fun e => hT (by simp [e])
    simp [RE_matchhere_loop, dfa_at, dh_abc, first_match, hc]

theorem abc_loop2 (T : List Nat) (hT : 0 ∉ T) :
    RE_matchhere_loop dh_abc ⟨true, true, ⟨4, 0⟩⟩ 2 T = decide (T = [99]) := by
  cases T with
  | nil => simp [RE_matchhere_loop, dfa_at, dh_abc]
  | cons c t =>
    have hc : c ≠ 0 := fun e => hT (by simp [e])
    have ht : 0 ∉ t := fun e => hT (by simp [e])
    by_cases h : c = 99
    · subst h
      have hn := abc_loop3 t ht
      simp only [dh_abc] at hn
      simp [RE_matchhere_loop, dfa_at, dh_abc, first_match, char_match, hn]
    · have h1 : ¬ 99 = c := fun e => h e.symm
      simp [RE_matchhere_loop, dfa_at, dh_abc, first_match, char_match, h, h1]

theorem abc_loop1 (T : List Nat) (hT : 0 ∉ T) :
    RE_matchhere_loop dh_abc ⟨true, true, ⟨4, 0⟩⟩ 1 T = decide (T = [98, 99]) := by
  cases T with
  | nil => simp [RE_matchhere_loop, dfa_at, dh_abc]
  | cons c t =>
    have hc : c ≠ 0 := fun e => hT (by simp [e])
    have ht : 0 ∉ t := fun e => hT (by simp [e])
    by_cases h : c = 98
    · subst h
      have hn := abc_loop2 t ht
      simp only [dh_abc] at hn
      simp [RE_matchhere_loop, dfa_at, dh_abc, first_match, char_match, hn]
    · have h1 : ¬ 98 = c := fun e => h e.symm
      simp [RE_matchhere_loop, dfa_at, dh_abc, first_match, char_match, h, h1]

theorem abc_loop0 (T : List Nat) (hT : 0 ∉ T) :
    RE_matchhere_loop dh_abc ⟨true, true, ⟨4, 0⟩⟩ 0 T = decide (T = [97, 98, 99]) := by
  cases T with
  | nil => simp [RE_matchhere_loop, dfa_at, dh_abc]
  | cons c t =>
    have hc : c ≠ 0 := fun e => hT (by simp [e])
    have ht : 0 ∉ t := fun e => hT (by simp [e])
    by_cases h : c = 97
    · subst h
      have hn := abc_loop1 t ht
      simp only [dh_abc] at hn
      simp [RE_matchhere_loop, dfa_at, dh_abc, first_match, char_match, hn]
    · have h1 : ¬ 97 = c := fun e => h e.symm
      simp [RE_matchhere_loop, dfa_at, dh_abc, first_match, char_match, h, h1]

theorem caret_abc_dollar_fuel8 (T : List Nat) (hT : 0 ∉ T) :
    RE_gen_run 8 (bytes "^abc$") T = some (decide (T = bytes "abc")) := by
  have hb : (bytes "^abc").headD 0 = 94 := by decide
  have hbytes : bytes "abc" = [97, 98, 99] := by decide
  simp only [RE_gen_run, RE_gen_caret_abc_dollar, RE_run, if_pos hb, RE_matchhere, hbytes]
  rw [abc_loop0 T hT]

/-- C5: the pattern `^abc$`, compiled by `RE_gen` (with any fuel from 8 on) and
run by `RE_run` on the buffer `RE_gen` left, matches a text exactly when the
text is `abc`. -/
theorem caret_abc_dollar_matches (fuel : Nat) (T : List Nat) (hf : 8 ≤ fuel) (hT : 0 ∉ T) :
    RE_gen_run fuel (bytes "^abc$") T = some (decide (T = bytes "abc")) :=
  RE_gen_run_mono hf _ _ _ (caret_abc_dollar_fuel8 T hT)

/-- Witness of C5: `abc` is matched, `xabc` and `abcx` are not. -/
theorem caret_abc_dollar_matches_witness :
    (8 ≤ 8 ∧ 0 ∉ bytes "abc" ∧ 0 ∉ bytes "xabc" ∧ 0 ∉ bytes "abcx") ∧
      RE_gen_run 8 (bytes "^abc$") (bytes "abc") = some true ∧
      RE_gen_run 8 (bytes "^abc$") (bytes "xabc") = some false ∧
      RE_gen_run 8 (bytes "^abc$") (bytes "abcx") = some false :=
  ⟨by decide,
    (caret_abc_dollar_matches 8 (bytes "abc") (by decide) (by decide)).trans (by decide),
    (caret_abc_dollar_matches 8 (bytes "xabc") (by decide) (by decide)).trans (by decide),
    (caret_abc_dollar_matches 8 (bytes "abcx") (by decide) (by decide)).trans (by decide)⟩

/-! ### One-byte patterns -/

theorem generate_nfa_single (p : Nat) :
    generate_nfa 8 [] [p] =
      some ([⟨false, [⟨p, false, 1⟩]⟩, ⟨true, []⟩], ⟨2, 0, 1⟩) := by
  simp [generate_nfa, insert_nfa_edge]

theorem nfa_to_dfa_single (p : Nat) :
    nfa_to_dfa [⟨false, [⟨p, false, 1⟩]⟩, ⟨true, []⟩] 8 ⟨2, 0, 1⟩ =
      some (dh_single p, ⟨2, 0⟩) := by
  simp [nfa_to_dfa, always_group, always_group_edges, always_group_step, nfa_at,
    insert_into_nfa_list, insert_into_dfagen_list, copy_nfa_list, nfa_to_dfa_loop,
    nfa_to_dfa_step, conns_of_nodes, conns_of_edges, insert_into_conns, link_conns,
    find_dfagen_node, match_nfa_list, insert_node_into_dfagen_list, dfa_push_edge, dfa_at,
    insert_dfa_edge, dh_single]

theorem free_nfa_single (p : Nat) :
    free_nfa [⟨false, [⟨p, false, 1⟩]⟩, ⟨true, []⟩] ⟨2, 0, 1⟩ = some [0, 1] := by
  simp [free_nfa, FREE_FA_GRAPH, FREE_FA_GRAPH_loop, free_walk_edges, IS_NODE_IN_ARRAY, nfa_at]

theorem RE_gen_single (p : Nat) (h1 : p ≠ 94) (h2 : p ≠ 36) :
    RE_gen 8 [p] = some (dh_single p, ⟨false, false, ⟨2, 0⟩⟩, [p]) := by
  simp [RE_gen, h1, h2, generate_nfa_single, nfa_to_dfa_single, free_nfa_single]

theorem single_loop1 (p : Nat) (T : List Nat) :
    RE_matchhere_loop (dh_single p) ⟨false, false, ⟨2, 0⟩⟩ 1 T = true := by
  cases T <;> simp [RE_matchhere_loop, dfa_at, dh_single]

theorem single_here (p : Nat) (regex : List Nat) (c : Nat) (t : List Nat) (hc : c ≠ 0) :
    RE_matchhere (dh_single p) ⟨false, false, ⟨2, 0⟩⟩ regex (c :: t) = char_match p c := by
  have h1 := single_loop1 p t
  simp only [dh_single] at h1
  by_cases h : char_match p c = true
  · simp [RE_matchhere, RE_matchhere_loop, dfa_at, dh_single, first_match, h, hc, h1]
  · simp [RE_matchhere, RE_matchhere_loop, dfa_at, dh_single, first_match, h]

theorem single_run_loop (p : Nat) (regex : List Nat) (T : List Nat) (hT : 0 ∉ T) :
    RE_run_loop (dh_single p) ⟨false, false, ⟨2, 0⟩⟩ regex T =
      T.any (fun b => char_match p b) := by
  induction T with
  | nil => simp [RE_run_loop, RE_matchhere, RE_matchhere_loop, dfa_at, dh_single]
  | cons c t ih =>
    have hc : c ≠ 0 := fun e => hT (by simp [e])
    have ht : 0 ∉ t := fun e => hT (by simp [e])
    rw [RE_run_loop, single_here p regex c t hc, ih ht]
    by_cases h : char_match p c = true <;> simp [h, hc]

theorem single_byte_fuel8 (p : Nat) (T : List Nat) (hp1 : p ≠ 94) (hp2 : p ≠ 36)
    (hT : 0 ∉ T) :
    RE_gen_run 8 [p] T = some (T.any (fun b => char_match p b)) := by
  have hb : [p].headD 0 ≠ 94 := by simpa using hp1
  simp only [RE_gen_run, RE_gen_single p hp1 hp2, RE_run, if_neg hb]
  rw [single_run_loop p [p] T hT]

/-- C6: a one-byte pattern `p` other than `^` and `$`, compiled by `RE_gen` (with
any fuel from 8 on) and run by `RE_run`, accepts a text exactly when the text
contains a byte `b` with `char_match(p, b)`. -/
theorem single_byte_pattern_matches (fuel p : Nat) (T : List Nat) (hf : 8 ≤ fuel)
    (_hp0 : p ≠ 0) (hp1 : p ≠ 94) (hp2 : p ≠ 36) (hT : 0 ∉ T) :
    RE_gen_run fuel [p] T = some (T.any (fun b => char_match p b)) :=
  RE_gen_run_mono hf _ _ _ (single_byte_fuel8 p T hp1 hp2 hT)

/-- Witness of C6: the pattern `.` rejects the empty text and accepts `x`; the
pattern `a` rejects `xyz` and accepts `xay`. -/
theorem single_byte_pattern_matches_witness :
    (8 ≤ 8 ∧ (46 : Nat) ≠ 0 ∧ (46 : Nat) ≠ 94 ∧ (46 : Nat) ≠ 36 ∧ 0 ∉ bytes "x") ∧
      RE_gen_run 8 (bytes ".") (bytes "") = some false ∧
      RE_gen_run 8 (bytes ".") (bytes "x") = some true ∧
      RE_gen_run 8 (bytes "a") (bytes "xyz") = some false ∧
      RE_gen_run 8 (bytes "a") (bytes "xay") = some true :=
  ⟨by decide,
    (single_byte_pattern_matches 8 46 (bytes "") (by decide) (by decide) (by decide)
      (by decide) (by decide)).trans (by decide),
    (single_byte_pattern_matches 8 46 (bytes "x") (by decide) (by decide) (by decide)
      (by decide) (by decide)).trans (by decide),
    (single_byte_pattern_matches 8 97 (bytes "xyz") (by decide) (by decide) (by decide)
      (by decide) (by decide)).trans (by decide),
    (single_byte_pattern_matches 8 97 (bytes "xay") (by decide) (by decide) (by decide)
      (by decide) (by decide)).trans (by decide)⟩

/-! ### The pattern `(ab)*` -/

theorem group_star_fuel8 :
    RE_gen_run 8 (bytes "(ab)*") (bytes "ababab") = some true ∧
      RE_gen_run 8 (bytes "(ab)*") (bytes "aba") = some true := by
  decide

/-- C7 as stated fails: whatever the fuel, the pattern `(ab)*`, compiled by
`RE_gen` and run by `RE_run`, does not match `ababab` and reject `aba`. -/
theorem group_star_aba_not_rejected :
    ¬ ∃ fuel, RE_gen_run fuel (bytes "(ab)*") (bytes "ababab") = some true ∧
        RE_gen_run fuel (bytes "(ab)*") (bytes "aba") = some false := by
  rintro ⟨fuel, -, h2⟩
  have h8 := RE_gen_run_mono (Nat.le_max_right fuel 8) _ _ _ group_star_fuel8.2
  have hf := RE_gen_run_mono (Nat.le_max_left fuel 8) _ _ _ h2
  rw [h8] at hf
  exact absurd hf (by decide)

/-- C7 amended: the pattern `(ab)*`, compiled by `RE_gen` (with any fuel from 8
on) and run by `RE_run`, matches the text `ababab` and matches the text `aba` as
well. -/
theorem group_star_matches_both (fuel : Nat) (hf : 8 ≤ fuel) :
    RE_gen_run fuel (bytes "(ab)*") (bytes "ababab") = some true ∧
      RE_gen_run fuel (bytes "(ab)*") (bytes "aba") = some true :=
  ⟨RE_gen_run_mono hf _ _ _ group_star_fuel8.1, RE_gen_run_mono hf _ _ _ group_star_fuel8.2⟩

/-- Witness of C7 amended, at fuel 8. -/
theorem group_star_matches_both_witness :
    8 ≤ 8 ∧
      RE_gen_run 8 (bytes "(ab)*") (bytes "ababab") = some true ∧
      RE_gen_run 8 (bytes "(ab)*") (bytes "aba") = some true :=
  ⟨by decide, group_star_matches_both 8 (by decide)⟩

/-! ### The empty pattern -/

theorem empty_pattern_fuel8 (T : List Nat) : dfa_run 8 false false [] T = some true := by
  have hg : generate_nfa 8 [] [] =
      some ([⟨false, [⟨0, true, 1⟩]⟩, ⟨true, []⟩], ⟨2, 0, 1⟩) := by decide
  have hd : nfa_to_dfa [⟨false, [⟨0, true, 1⟩]⟩, ⟨true, []⟩] 8 ⟨2, 0, 1⟩ =
      some ([⟨true, []⟩], ⟨1, 0⟩) := by decide
  simp only [dfa_run, hg, hd, RE_run]
  cases T <;>
    simp [RE_run_loop, RE_matchhere, RE_matchhere_loop, dfa_at]

/-- C8: the regex compiled from the empty pattern (`generate_nfa("")`, then
`nfa_to_dfa`, with any fuel from 8 on, no anchor flag) matches every text:
`RE_run` returns 1. -/
theorem empty_pattern_matches_every_text (fuel : Nat) (T : List Nat) (hf : 8 ≤ fuel) :
    dfa_run fuel false false [] T = some true :=
  dfa_run_mono hf _ _ _ _ _ (empty_pattern_fuel8 T)

/-- Witness of C8: the empty pattern matches the empty text and the text `xyz`. -/
theorem empty_pattern_matches_every_text_witness :
    8 ≤ 8 ∧ dfa_run 8 false false [] [] = some true ∧
      dfa_run 8 false false [] (bytes "xyz") = some true :=
  ⟨by decide, empty_pattern_matches_every_text 8 [] (by decide),
    empty_pattern_matches_every_text 8 (bytes "xyz") (by decide)⟩

/-! ### Overlapping edge labels -/

/-- C10, evaluated at the pattern `.*a`: the start node of the DFA that `RE_gen`
builds has the two outgoing edges `.` and `a`, and both satisfy `char_match` for
the input byte `a`. -/
theorem dfa_two_edges_match_one_byte :
    ∃ dh re regex1, RE_gen 8 (bytes ".*a") = some (dh, re, regex1) ∧
      (dfa_at dh re.dfa.start).next_l = [⟨46, 2⟩, ⟨97, 1⟩] ∧
      ((dfa_at dh re.dfa.start).next_l.filter (fun e => char_match e.cond_ch 97)).length = 2 :=
  ⟨_, _, _, rfl, by decide, by decide⟩

/-! ### Determinism of the edge labels built by `nfa_to_dfa` -/

theorem dfa_at_push_edge (dh : List dfa_node) (p c n q : Nat) :
    dfa_at (dfa_push_edge dh p c n) q =
      if q = p ∧ p < dh.length then
        { dfa_at dh p with next_l := ⟨c, n⟩ :: (dfa_at dh p).next_l }
      else dfa_at dh q := by
  unfold dfa_push_edge dfa_at insert_dfa_edge
  simp only [List.getD_eq_getElem?_getD, List.getElem?_set]
  by_cases hq : q = p
  · subst hq
    by_cases hl : q < dh.length
    · simp [hl]
    · have h4 : dh[q]? = none := List.getElem?_eq_none (by omega)
      simp [hl, h4]
  · have hq2 : ¬ p = q := fun e => hq e.symm
    simp [hq, hq2]

theorem length_dfa_push_edge (dh : List dfa_node) (p c n : Nat) :
    (dfa_push_edge dh p c n).length = dh.length := by
  simp [dfa_push_edge]

theorem dfa_at_append (dh : List dfa_node) (x : dfa_node) (q : Nat) :
    dfa_at (dh ++ [x]) q =
      if q < dh.length then dfa_at dh q
      else if q = dh.length then x else ⟨false, []⟩ := by
  unfold dfa_at
  simp only [List.getD_eq_getElem?_getD]
  by_cases h1 : q < dh.length
  · simp [h1, List.getElem?_append_left]
  · by_cases h2 : q = dh.length
    · subst h2
      simp
    · have h3 : dh.length + 1 ≤ q := by omega
      have h4 : (dh ++ [x])[q]? = none := by
        apply List.getElem?_eq_none
        simpa using h3
      simp [h1, h2, h4]

theorem set_last_append (dh : List dfa_node) (x : dfa_node) :
    (dh ++ [x]).set ((dh ++ [x]).length - 1) x = dh ++ [x] := by
  simp

theorem insert_into_conns_labels (conns : List nfa_2dlist) (cond_ch : Nat) (isend : Bool)
    (nfas : List Nat) (hnd : (conns.map (fun it => it.cond_ch)).Nodup) :
    ((insert_into_conns conns cond_ch isend nfas).map (fun it => it.cond_ch)).Nodup := by
  have hmap : ∀ l : List nfa_2dlist,
      (l.map (fun it =>
        if it.cond_ch = cond_ch then
          ({ it with nfas := union_into_nfa_list it.nfas (copy_nfa_list nfas),
                     isend := it.isend || isend } : nfa_2dlist)
        else it)).map (fun it => it.cond_ch) = l.map (fun it => it.cond_ch) := by
    intro l
    induction l with
    | nil => rfl
    | cons a l ih =>
      simp only [List.map_cons, ih]
      by_cases h : a.cond_ch = cond_ch <;> simp [h]
  unfold insert_into_conns
  by_cases hf : conns.any (fun it => it.cond_ch == cond_ch) = true
  · simp only [hf, if_true]
    rw [hmap]
    exact hnd
  · simp only [hf, Bool.false_eq_true, if_false]
    rw [List.map_cons, hmap, List.nodup_cons]
    refine ⟨?_, hnd⟩
    intro hmem
    apply hf
    obtain ⟨it, hit, hc⟩ := List.mem_map.1 hmem
    exact List.any_eq_true.2 ⟨it, hit, by simpa using hc⟩

theorem conns_of_edges_labels (h : List nfa_node) (fuel : Nat) (es : List nfa_edge) :
    ∀ (conns out : List nfa_2dlist), (conns.map (fun it => it.cond_ch)).Nodup →
      conns_of_edges h fuel es conns = some out → (out.map (fun it => it.cond_ch)).Nodup := by
  induction es with
  | nil =>
    intro conns out hnd he
    simp only [conns_of_edges, Option.some.injEq] at he
    exact he ▸ hnd
  | cons e es ih =>
    intro conns out hnd he
    unfold conns_of_edges at he
    by_cases ha : e.always = true
    · rw [if_pos ha] at he
      exact ih conns out hnd he
    · rw [if_neg ha] at he
      cases hg : always_group h fuel e.node with
      | none => simp [hg] at he
      | some alw_g =>
        rw [hg] at he
        exact ih _ out (insert_into_conns_labels conns _ _ _ hnd) he

theorem conns_of_nodes_labels (h : List nfa_node) (fuel : Nat) (ns : List Nat) :
    ∀ (conns out : List nfa_2dlist), (conns.map (fun it => it.cond_ch)).Nodup →
      conns_of_nodes h fuel ns conns = some out → (out.map (fun it => it.cond_ch)).Nodup := by
  induction ns with
  | nil =>
    intro conns out hnd he
    simp only [conns_of_nodes, Option.some.injEq] at he
    exact he ▸ hnd
  | cons n ns ih =>
    intro conns out hnd he
    unfold conns_of_nodes at he
    cases hc : conns_of_edges h fuel (nfa_at h n).next_l conns with
    | none => simp [hc] at he
    | some conns1 =>
      rw [hc] at he
      exact ih conns1 out (conns_of_edges_labels h fuel _ conns conns1 hnd hc) he

theorem link_conns_inv (curr : Nat) (cs : List nfa_2dlist) :
    ∀ s : dfagen_state, worklist_inv s.dheap s.worklist → curr < s.dheap.length →
      (∀ w ∈ s.worklist, w.node ≠ curr) →
      (∀ c ∈ cs, c.cond_ch ∉ dfa_labels (dfa_at s.dheap curr)) →
      (cs.map (fun it => it.cond_ch)).Nodup →
      worklist_inv (link_conns curr cs s).dheap (link_conns curr cs s).worklist := by
  induction cs with
  | nil =>
    intro s hI _ _ _ _
    simpa [link_conns] using hI
  | cons c cs ih =>
    intro s hI hcurr hnot hfresh hnd
    obtain ⟨hI1, hI2, hI3⟩ := hI
    have hc_fresh : c.cond_ch ∉ dfa_labels (dfa_at s.dheap curr) :=
      hfresh c (List.mem_cons_self _ _)
    have hnd' : c.cond_ch ∉ cs.map (fun it => it.cond_ch) ∧
        (cs.map (fun it => it.cond_ch)).Nodup := by
      simpa [List.nodup_cons] using hnd
    have hcs_ne : ∀ c' ∈ cs, c'.cond_ch ≠ c.cond_ch := by
      intro c' hc' e
      exact hnd'.1 (List.mem_map.2 ⟨c', hc', e⟩)
    unfold link_conns
    cases hfind : find_dfagen_node s.worked_list c.nfas with
    | some tmp =>
      simp only []
      apply ih
      · refine ⟨?_, hI2, ?_⟩
        · intro w hw
          obtain ⟨hlt, hemp⟩ := hI1 w hw
          refine ⟨by simpa [length_dfa_push_edge] using hlt, ?_⟩
          rw [dfa_at_push_edge, if_neg (fun h => hnot w hw h.1)]
          exact hemp
        · intro i
          rw [dfa_at_push_edge]
          by_cases hi : i = curr ∧ curr < s.dheap.length
          · rw [if_pos hi]
            simp only [dfa_labels, List.map_cons, List.nodup_cons]
            exact ⟨hc_fresh, hI3 curr⟩
          · rw [if_neg hi]
            exact hI3 i
      · simpa [length_dfa_push_edge] using hcurr
      · exact hnot
      · intro c' hc'
        simp only [dfa_at_push_edge, hcurr, and_self, if_true, dfa_labels, List.map_cons,
          List.mem_cons, not_or]
        exact ⟨hcs_ne c' hc', hfresh c' (List.mem_cons_of_mem _ hc')⟩
      · exact hnd'.2
    | none =>
      simp only [insert_into_dfagen_list, set_last_append]
      have hlen : (s.dheap ++ [(⟨c.isend, []⟩ : dfa_node)]).length - 1 = s.dheap.length := by
        simp
      rw [hlen]
      have hcurr1 : curr < (s.dheap ++ [(⟨c.isend, []⟩ : dfa_node)]).length := by
        simp only [List.length_append, List.length_singleton]
        omega
      have hne : s.dheap.length ≠ curr := by omega
      apply ih
      · refine ⟨?_, ?_, ?_⟩
        · intro w hw
          simp only [length_dfa_push_edge, List.length_append, List.length_singleton]
          rcases List.mem_cons.1 hw with rfl | hw
          · refine ⟨by simp, ?_⟩
            simp only []
            rw [dfa_at_push_edge, if_neg (fun h => hne h.1), dfa_at_append]
            simp
          · obtain ⟨hlt, hemp⟩ := hI1 w hw
            refine ⟨by omega, ?_⟩
            rw [dfa_at_push_edge, if_neg (fun h => hnot w hw h.1), dfa_at_append, if_pos hlt]
            exact hemp
        · simp only [List.map_cons, List.nodup_cons]
          refine ⟨?_, hI2⟩
          intro hmem
          obtain ⟨w, hw, he⟩ := List.mem_map.1 hmem
          have := (hI1 w hw).1
          omega
        · intro i
          rw [dfa_at_push_edge]
          by_cases hi : i = curr ∧ curr < (s.dheap ++ [(⟨c.isend, []⟩ : dfa_node)]).length
          · rw [if_pos hi, dfa_at_append, if_pos hcurr]
            simp only [dfa_labels, List.map_cons, List.nodup_cons]
            exact ⟨hc_fresh, hI3 curr⟩
          · rw [if_neg hi, dfa_at_append]
            by_cases h1 : i < s.dheap.length
            · rw [if_pos h1]
              exact hI3 i
            · rw [if_neg h1]
              by_cases h2 : i = s.dheap.length
              · simp [h2, dfa_labels]
              · simp [h2, dfa_labels]
      · simpa [length_dfa_push_edge] using hcurr1
      · intro w hw
        rcases List.mem_cons.1 hw with rfl | hw
        · exact hne
        · exact hnot w hw
      · intro c' hc'
        simp only []
        rw [dfa_at_push_edge, if_pos ⟨rfl, hcurr1⟩, dfa_at_append, if_pos hcurr]
        simp only [dfa_labels, List.map_cons, List.mem_cons, not_or]
        exact ⟨hcs_ne c' hc', hfresh c' (List.mem_cons_of_mem _ hc')⟩
      · exact hnd'.2

theorem nfa_to_dfa_step_inv (h : List nfa_node) (fuel : Nat) (s s1 : dfagen_state)
    (w : dfagen_node) (tmp : List dfagen_node) (hw : s.worklist = w :: tmp)
    (hI : worklist_inv s.dheap s.worklist) (hs : nfa_to_dfa_step h fuel s w tmp = some s1) :
    worklist_inv s1.dheap s1.worklist := by
  unfold nfa_to_dfa_step at hs
  cases hc : conns_of_nodes h fuel w.nfas [] with
  | none => simp [hc] at hs
  | some conns =>
    rw [hc] at hs
    simp only [Option.some.injEq] at hs
    rw [← hs]
    obtain ⟨hI1, hI2, hI3⟩ := hI
    rw [hw] at hI1 hI2
    have hw0 := hI1 w (List.mem_cons_self _ _)
    have hI2' : w.node ∉ tmp.map (fun w => w.node) ∧ (tmp.map (fun w => w.node)).Nodup := by
      simpa [List.nodup_cons] using hI2
    apply link_conns_inv
    · exact ⟨fun w' hw' => hI1 w' (List.mem_cons_of_mem _ hw'), hI2'.2, hI3⟩
    · exact hw0.1
    · intro w' hw' e
      exact hI2'.1 (List.mem_map.2 ⟨w', hw', e⟩)
    · intro c _
      simp [dfa_labels, hw0.2]
    · exact conns_of_nodes_labels h fuel w.nfas [] conns (by simp) hc

theorem nfa_to_dfa_loop_inv (h : List nfa_node) (fuel : Nat) (n : Nat) :
    ∀ s s1 : dfagen_state, worklist_inv s.dheap s.worklist →
      nfa_to_dfa_loop h fuel n s = some s1 → worklist_inv s1.dheap s1.worklist := by
  induction n with
  | zero =>
    intro s s1 _ hl
    simp [nfa_to_dfa_loop] at hl
  | succ n ih =>
    intro s s1 hI hl
    unfold nfa_to_dfa_loop at hl
    cases hw : s.worklist with
    | nil =>
      rw [hw] at hl
      simp only [Option.some.injEq] at hl
      exact hl ▸ hI
    | cons w tmp =>
      rw [hw] at hl
      simp only [] at hl
      cases hs : nfa_to_dfa_step h fuel s w tmp with
      | none => simp [hs] at hl
      | some s2 =>
        rw [hs] at hl
        exact ih s2 s1 (nfa_to_dfa_step_inv h fuel s s2 w tmp hw hI hs) hl

theorem nfa_to_dfa_labels_nodup (h : List nfa_node) (fuel : Nat) (nfa_in : nfa)
    (dh : List dfa_node) (d : dfa) (hd : nfa_to_dfa h fuel nfa_in = some (dh, d)) :
    ∀ node ∈ dh, (dfa_labels node).Nodup := by
  unfold nfa_to_dfa at hd
  cases hg : always_group h fuel nfa_in.start with
  | none => simp [hg] at hd
  | some alw_g =>
    rw [hg] at hd
    simp only [insert_into_dfagen_list, List.nil_append, List.length_nil] at hd
    cases hl : nfa_to_dfa_loop h fuel fuel
        ⟨[⟨alw_g.isend, []⟩], [⟨copy_nfa_list alw_g.nfas, 0⟩], [], 1⟩ with
    | none => simp [hl] at hd
    | some s =>
      rw [hl] at hd
      simp only [Option.some.injEq, Prod.mk.injEq] at hd
      have hinit : worklist_inv [(⟨alw_g.isend, []⟩ : dfa_node)]
          [⟨copy_nfa_list alw_g.nfas, 0⟩] := by
        refine ⟨?_, by simp, ?_⟩
        · intro w hw
          simp only [List.mem_singleton] at hw
          subst hw
          simp [dfa_at]
        · intro i
          have := dfa_at_append [] ⟨alw_g.isend, []⟩ i
          simp only [List.nil_append, List.length_nil, Nat.not_lt_zero, if_false] at this
          rw [this]
          by_cases h2 : i = 0 <;> simp [h2, dfa_labels]
      have hfin := nfa_to_dfa_loop_inv h fuel fuel _ s hinit hl
      intro node hnode
      rw [← hd.1] at hnode
      obtain ⟨i, hi, hget⟩ := List.getElem_of_mem hnode
      have := hfin.2.2 i
      simpa [dfa_at, List.getD_eq_getElem?_getD, List.getElem?_eq_getElem hi, hget] using this

/-- C9: for every NFA built by `generate_nfa`, no node of the DFA returned by
`nfa_to_dfa` has two outgoing edges carrying the same `cond_ch` label. -/
theorem dfa_edge_labels_distinct (fuel1 fuel2 : Nat) (regex : List Nat) (h : List nfa_node)
    (re_nfa : nfa) (dh : List dfa_node) (d : dfa)
    (hg : generate_nfa fuel1 [] regex = some (h, re_nfa))
    (hd : nfa_to_dfa h fuel2 re_nfa = some (dh, d)) :
    ∀ node ∈ dh, (node.next_l.map (fun e => e.cond_ch)).Nodup := by
  have _ := hg
  exact nfa_to_dfa_labels_nodup h fuel2 re_nfa dh d hd

/-- Witness of C9: the NFA and the DFA of the pattern `.*a`. -/
theorem dfa_edge_labels_distinct_witness :
    (generate_nfa 8 [] (bytes ".*a") = some (nh_dot_star_a, ⟨5, 4, 3⟩) ∧
        nfa_to_dfa nh_dot_star_a 8 ⟨5, 4, 3⟩ = some (dh_dot_star_a, ⟨4, 0⟩)) ∧
      ∀ node ∈ dh_dot_star_a, (node.next_l.map (fun e => e.cond_ch)).Nodup :=
  ⟨by decide,
    dfa_edge_labels_distinct 8 8 (bytes ".*a") nh_dot_star_a ⟨5, 4, 3⟩ dh_dot_star_a ⟨4, 0⟩
      (by decide) (by decide)⟩

/-! ### Reuse of DFA nodes -/

/-- C11, evaluated at the pattern `a*b`: when the loop of `nfa_to_dfa` ends, the
DFA nodes 1 and 3 are two distinct nodes built for the same NFA node list `[3]`;
the second one was allocated while the first was still queued. -/
theorem dfa_nodes_for_same_set :
    ∃ h re_nfa s, generate_nfa 8 [] (bytes "a*b") = some (h, re_nfa) ∧
      nfa_to_dfa_state h 8 re_nfa = some s ∧ s.dheap = dh_astar_b ∧ s.num_nodes = 4 ∧
      (⟨[3], 1⟩ : dfagen_node) ∈ s.worked_list ∧ (⟨[3], 3⟩ : dfagen_node) ∈ s.worked_list :=
  ⟨_, _, _, rfl, rfl, by decide, by decide, by decide, by decide⟩

/-! ### Epsilon cycles -/

theorem group_a_star_cycle (fuel : Nat) :
    always_group nh_group_a_star fuel 0 = none ∧ always_group nh_group_a_star fuel 1 = none := by
  have e0 : nfa_at nh_group_a_star 0 = ⟨false, [⟨0, true, 2⟩, ⟨0, true, 1⟩]⟩ := rfl
  have e1 : nfa_at nh_group_a_star 1 = ⟨false, [⟨0, true, 0⟩]⟩ := rfl
  induction fuel with
  | zero => exact ⟨rfl, rfl⟩
  | succ n ih =>
    refine ⟨?_, ?_⟩
    · rw [always_group, e0]
      simp only [always_group_edges]
      cases hs : always_group_step (always_group nh_group_a_star n) 0
          ⟨false, insert_into_nfa_list [] 0⟩ ⟨0, true, 2⟩ with
      | none => rfl
      | some out1 => simp [always_group_step, ih.2]
    · rw [always_group, e1]
      simp [always_group_edges, always_group_step, ih.1]

theorem group_a_star_start (fuel : Nat) : always_group nh_group_a_star fuel 4 = none := by
  have e4 : nfa_at nh_group_a_star 4 = ⟨false, [⟨0, true, 0⟩]⟩ := rfl
  cases fuel with
  | zero => rfl
  | succ n =>
    rw [always_group, e4]
    simp [always_group_edges, always_group_step, (group_a_star_cycle n).1]

theorem RE_gen_group_a_star (fuel : Nat) : RE_gen fuel (bytes "(a)*") = none := by
  cases hr : RE_gen fuel (bytes "(a)*") with
  | none => rfl
  | some r =>
    exfalso
    have h1 := RE_gen_mono (Nat.le_max_left fuel 8) _ _ hr
    have hg : generate_nfa (max fuel 8) [] (bytes "(a)*") = some (nh_group_a_star, ⟨5, 4, 3⟩) :=
      generate_nfa_mono (Nat.le_max_right fuel 8) _ _ _ (by decide)
    have hb : bytes "(a)*" = [40, 97, 41, 42] := by decide
    rw [hb] at h1 hg
    have hd : nfa_to_dfa nh_group_a_star (max fuel 8) ⟨5, 4, 3⟩ = none := by
      unfold nfa_to_dfa
      simp only [group_a_star_start]
    simp [RE_gen, hg, hd] at h1

/-- C13, evaluated at the pattern `(a)*`: `generate_nfa` builds an NFA in which
the nodes 0 and 1 lie on an epsilon cycle, `always_group` on the start node
returns with no amount of fuel, and so `RE_gen` never returns a compiled regex. -/
theorem always_group_never_returns :
    generate_nfa 8 [] (bytes "(a)*") = some (nh_group_a_star, ⟨5, 4, 3⟩) ∧
      (∀ fuel, always_group nh_group_a_star fuel 4 = none) ∧
      ∀ fuel, RE_gen fuel (bytes "(a)*") = none :=
  ⟨by decide, group_a_star_start, RE_gen_group_a_star⟩

/-! ### Group extraction -/

/-- C14, evaluated at the pattern `(ab)c`: the unit that `generate_nfa` compiles
for the group is `a`, not `ab`; the NFA is the one of the pattern `ac`, and the
compiled regex matches the text `ac` and not the text `abc`. -/
theorem group_fragment_loses_last_byte :
    split_unit (bytes "(ab)c") = some (3, bytes "a") ∧
      generate_nfa 8 [] (bytes "(ab)c") = generate_nfa 8 [] (bytes "ac") ∧
      RE_gen_run 8 (bytes "(ab)c") (bytes "ac") = some true ∧
      RE_gen_run 8 (bytes "(ab)c") (bytes "abc") = some false := by
  decide

/-! ### Comparison of node lists -/

/-- C20, evaluated at the pattern `a*a`: in the second iteration of the loop of
`nfa_to_dfa` the current entry is that of DFA node 1, `worked_list` holds the
list `[3, 1, 0, 2]` for that node, and `conns` holds the list `[1, 0, 2, 3]` for
the label `a`.  The two lists are without repetition and have the same nodes,
`match_nfa_list` compares them cell by cell and returns false, so
`find_dfagen_node` finds nothing in `worked_list` and the iteration allocates
DFA node 2 for the nodes that DFA node 1 stands for; the final `worked_list` has
both. -/
theorem dedup_misses_reordered_list :
    generate_nfa 8 [] (bytes "a*a") = some (nh_astar_a, ⟨5, 4, 3⟩) ∧
      conns_of_nodes nh_astar_a 8 [2, 0, 1, 3] [] = some [⟨97, true, [1, 0, 2, 3]⟩] ∧
      [3, 1, 0, 2].Nodup ∧ [1, 0, 2, 3].Nodup ∧
      (∀ m, m ∈ [3, 1, 0, 2] ↔ m ∈ [1, 0, 2, 3]) ∧
      match_nfa_list [3, 1, 0, 2] [1, 0, 2, 3] = false ∧
      find_dfagen_node [⟨[3, 1, 0, 2], 1⟩, ⟨[2, 0, 4], 0⟩] [1, 0, 2, 3] = none ∧
      nfa_to_dfa_step nh_astar_a 8
          ⟨[⟨false, [⟨97, 1⟩]⟩, ⟨true, []⟩], [⟨[2, 0, 1, 3], 1⟩], [⟨[2, 0, 4], 0⟩], 2⟩
          ⟨[2, 0, 1, 3], 1⟩ [] =
        some ⟨[⟨false, [⟨97, 1⟩]⟩, ⟨true, [⟨97, 2⟩]⟩, ⟨true, []⟩], [⟨[3, 2, 0, 1], 2⟩],
          [⟨[3, 1, 0, 2], 1⟩, ⟨[2, 0, 4], 0⟩], 3⟩ ∧
      nfa_to_dfa_state nh_astar_a 8 ⟨5, 4, 3⟩ =
        some ⟨[⟨false, [⟨97, 1⟩]⟩, ⟨true, [⟨97, 2⟩]⟩, ⟨true, [⟨97, 2⟩]⟩], [],
          [⟨[1, 0, 2, 3], 2⟩, ⟨[3, 1, 0, 2], 1⟩, ⟨[2, 0, 4], 0⟩], 3⟩ := by
  refine ⟨by decide, by decide, by decide, by decide, ?_, by decide, by decide, by decide,
    by decide⟩
  intro m
  simp only [List.mem_cons, List.mem_singleton, List.not_mem_nil, or_false]
  constructor
  · rintro (h | h | h | h)
    · exact Or.inr (Or.inr (Or.inr h))
    · exact Or.inl h
    · exact Or.inr (Or.inl h)
    · exact Or.inr (Or.inr (Or.inl h))
  · rintro (h | h | h | h)
    · exact Or.inr (Or.inl h)
    · exact Or.inr (Or.inr (Or.inl h))
    · exact Or.inr (Or.inr (Or.inr h))
    · exact Or.inl h

/-! ### Release traversal -/

/-- C16, evaluated at the NFA of the pattern `a*b*` (8 nodes, start node 7):
after five iterations of the first loop of `FREE_FA_GRAPH` node 0 is in the
slots 1 and 5 of `tofree`, so the sixth iteration walks the edge list of node 0
that the second iteration released, node 0 is in two of the 8 slots that are
released, and node 5 is in none of them. -/
theorem free_nfa_releases_twice :
    generate_nfa 8 [] (bytes "a*b*") = some (nh_astar_bstar, ⟨8, 7, 5⟩) ∧
      FREE_FA_GRAPH_loop (fun n => (nfa_at nh_astar_bstar n).next_l.map (fun e => e.node)) 5 0
          ⟨[7], []⟩ = some ⟨[7, 0, 6, 1, 2, 0, 4, 3], [7, 0, 6, 1, 2]⟩ ∧
      free_nfa nh_astar_bstar ⟨8, 7, 5⟩ = none := by
  decide

/-! ### The loop of `RE_matchhere` -/

theorem RE_matchhere_loop_iff (dh : List dfa_node) (re : RE) (T : List Nat) (hT : 0 ∉ T) :
    ∀ node, RE_matchhere_loop dh re node T = true ↔
      ∃ k n, k ≤ T.length ∧ dfa_follow dh node (T.take k) = some n ∧
        (dfa_at dh n).isend = true ∧ (re.match_end = false ∨ k = T.length) := by
  induction T with
  | nil =>
    intro node
    simp [RE_matchhere_loop, dfa_follow]
  | cons c t ih =>
    intro node
    have hc : c ≠ 0 := fun e => hT (by simp [e])
    have ht : 0 ∉ t := fun e => hT (by simp [e])
    rw [RE_matchhere_loop]
    constructor
    · intro h
      by_cases hacc : ((dfa_at dh node).isend && (!re.match_end || c == 0)) = true
      · refine ⟨0, node, by simp, by simp [dfa_follow], ?_, ?_⟩
        · simp only [Bool.and_eq_true] at hacc
          exact hacc.1
        · left
          simp only [Bool.and_eq_true, Bool.or_eq_true, Bool.not_eq_true', beq_iff_eq] at hacc
          rcases hacc.2 with h1 | h1
          · exact h1
          · exact absurd h1 hc
      · rw [if_neg hacc] at h
        cases hf : first_match (dfa_at dh node).next_l c with
        | none => simp [hf] at h
        | some next =>
          simp only [hf, hc, ne_eq, not_false_eq_true, if_true] at h
          obtain ⟨k, n, hk, hfol, hend, hme⟩ := (ih ht next).1 h
          refine ⟨k + 1, n, by simpa using hk, ?_, hend, ?_⟩
          · simp [dfa_follow, hf, hfol]
          · rcases hme with h1 | h1
            · exact Or.inl h1
            · exact Or.inr (by simp [h1])
    · rintro ⟨k, n, hk, hfol, hend, hme⟩
      by_cases hacc : ((dfa_at dh node).isend && (!re.match_end || c == 0)) = true
      · rw [if_pos hacc]
      · rw [if_neg hacc]
        cases k with
        | zero =>
          simp only [List.take_zero, dfa_follow, Option.some.injEq] at hfol
          subst hfol
          exfalso
          apply hacc
          rcases hme with h1 | h1
          · simp [hend, h1]
          · simp at h1
        | succ k =>
          simp only [List.take_succ_cons, dfa_follow] at hfol
          cases hf : first_match (dfa_at dh node).next_l c with
          | none => simp [hf] at hfol
          | some next =>
            rw [hf] at hfol
            simp only [hc, ne_eq, not_false_eq_true, if_true]
            refine (ih ht next).2 ⟨k, n, by simpa using hk, hfol, hend, ?_⟩
            rcases hme with h1 | h1
            · exact Or.inl h1
            · exact Or.inr (by simpa using h1)

theorem RE_matchhere_loop_nul (dh : List dfa_node) (re : RE) (T rest : List Nat) :
    ∀ node, RE_matchhere_loop dh re node (T ++ 0 :: rest) = RE_matchhere_loop dh re node T := by
  induction T with
  | nil =>
    intro node
    simp only [List.nil_append, RE_matchhere_loop]
    by_cases hacc : (dfa_at dh node).isend = true
    · simp [hacc]
    · simp only [hacc]
      cases first_match (dfa_at dh node).next_l 0 <;> simp
  | cons c t ih =>
    intro node
    simp only [List.cons_append, RE_matchhere_loop]
    by_cases hacc : ((dfa_at dh node).isend && (!re.match_end || c == 0)) = true
    · simp [hacc]
    · simp only [hacc]
      cases first_match (dfa_at dh node).next_l c with
      | none => rfl
      | some next =>
        by_cases hc : c = 0
        · simp [hc]
        · simp [hc, ih next]

/-- C17: for every DFA, end-anchor flag and NUL-free text `T`, `RE_matchhere`
returns 1 exactly when some node reached from the start node by following, for
each byte of a prefix of `T`, the first edge whose label matches, is accepting
and the end-anchor flag is clear or the prefix is all of `T`.  The bytes from the
terminating NUL on never change the result: a transition on the NUL yields no
success. -/
theorem RE_matchhere_iff_follow (dh : List dfa_node) (re : RE) (regex : List Nat)
    (T : List Nat) (hT : 0 ∉ T) :
    (RE_matchhere dh re regex T = true ↔
      ∃ k n, k ≤ T.length ∧ dfa_follow dh re.dfa.start (T.take k) = some n ∧
        (dfa_at dh n).isend = true ∧ (re.match_end = false ∨ k = T.length)) ∧
      ∀ rest, RE_matchhere dh re regex (T ++ 0 :: rest) = RE_matchhere dh re regex T :=
  ⟨RE_matchhere_loop_iff dh re T hT re.dfa.start,
    fun rest => RE_matchhere_loop_nul dh re T rest re.dfa.start⟩

/-- Witness of C17: the DFA of `.` with the end anchor on the text `x`; the
wildcard edge also matches the NUL after `x` but that gives no second step. -/
theorem RE_matchhere_iff_follow_witness :
    0 ∉ [120] ∧
      ((RE_matchhere (dh_single 46) ⟨false, true, ⟨2, 0⟩⟩ [46] [120] = true ↔
        ∃ k n, k ≤ [120].length ∧ dfa_follow (dh_single 46) 0 ([120].take k) = some n ∧
          (dfa_at (dh_single 46) n).isend = true ∧ (true = false ∨ k = [120].length)) ∧
        ∀ rest, RE_matchhere (dh_single 46) ⟨false, true, ⟨2, 0⟩⟩ [46] ([120] ++ 0 :: rest) =
          RE_matchhere (dh_single 46) ⟨false, true, ⟨2, 0⟩⟩ [46] [120]) :=
  ⟨by decide, RE_matchhere_iff_follow (dh_single 46) ⟨false, true, ⟨2, 0⟩⟩ [46] [120] (by decide)⟩

/-! ### The heap built by `generate_nfa` for a pattern without groups -/

theorem frag_nodes_length (n : Nat) :
    ∀ (p : List Nat) (k : Nat), p.length ≤ n → (frag_nodes p k).length = frag_size p := by
  induction n with
  | zero =>
    intro p k hl
    match p, hl with
    | [], _ => simp [frag_nodes, frag_size]
  | succ n ih =>
    intro p k hl
    match p, hl with
    | [], _ => simp [frag_nodes, frag_size]
    | [c], _ => simp [frag_nodes, frag_size]
    | c :: d :: rest, hl =>
      have h1 := ih rest (k + 2) (by simp at hl; omega)
      have h2 := ih (d :: rest) (k + 2) (by simp at hl ⊢; omega)
      by_cases hd : d = 42
      · simp [frag_nodes, frag_size, hd, h1]
        omega
      · simp [frag_nodes, frag_size, hd, h2]
        omega

theorem frag_nodes_len (p : List Nat) (k : Nat) : (frag_nodes p k).length = frag_size p :=
  frag_nodes_length p.length p k (Nat.le_refl _)

theorem nfa_at_append_zero (h : List nfa_node) (a : nfa_node) (X : List nfa_node) :
    nfa_at (h ++ a :: X) h.length = a := by
  unfold nfa_at
  rw [List.getD_eq_getElem?_getD, List.getElem?_append_right (Nat.le_refl _)]
  simp

theorem nfa_at_append_one (h : List nfa_node) (a b : nfa_node) (X : List nfa_node) :
    nfa_at (h ++ a :: b :: X) (h.length + 1) = b := by
  have : h ++ a :: b :: X = (h ++ [a]) ++ b :: X := by simp
  rw [this]
  have hl : h.length + 1 = (h ++ [a]).length := by simp
  rw [hl]
  exact nfa_at_append_zero _ _ _

theorem set_append_zero (h : List nfa_node) (a v : nfa_node) (X : List nfa_node) :
    (h ++ a :: X).set h.length v = h ++ v :: X := by
  simp [List.set_append]

theorem set_append_one (h : List nfa_node) (a b v : nfa_node) (X : List nfa_node) :
    (h ++ a :: b :: X).set (h.length + 1) v = h ++ a :: v :: X := by
  simp [List.set_append]

theorem generate_nfa_layout (fuel : Nat) :
    ∀ (p : List Nat) (h : List nfa_node), 40 ∉ p → p.length < fuel →
      generate_nfa fuel h p =
        some (h ++ frag_nodes p h.length,
          ⟨frag_size p, frag_start p h.length, frag_end p h.length⟩) := by
  induction fuel with
  | zero =>
    intro p h _ hl
    omega
  | succ fuel ih =>
    intro p h hp hl
    match p, hp, hl with
    | [], _, _ => simp [generate_nfa, frag_nodes, frag_size, frag_start, frag_end, insert_nfa_edge]
    | [c], _, _ =>
      simp [generate_nfa, frag_nodes, frag_size, frag_start, frag_end, insert_nfa_edge]
    | c :: d :: rest, hp, hl =>
      have hc : c ≠ 40 := fun e => hp (by simp [e])
      have hrest : 40 ∉ rest := fun e => hp (by simp [e])
      have htl : 40 ∉ d :: rest := fun e => hp (List.mem_cons_of_mem _ e)
      obtain ⟨f1, rfl⟩ : ∃ f1, fuel = f1 + 1 := ⟨fuel - 1, by simp at hl; omega⟩
      have hsp : split_unit (c :: d :: rest) = some (0, [c]) := by
        simp [split_unit, hc]
      have hfirst : generate_nfa (f1 + 1) h [c] =
          some (h ++ [⟨false, [⟨c, false, h.length + 1⟩]⟩, ⟨true, []⟩],
            ⟨2, h.length, h.length + 1⟩) := by
        simp [generate_nfa, insert_nfa_edge]
      rw [generate_nfa]
      simp only [hsp, hfirst]
      have hlen1 : (h ++ [(⟨false, [⟨c, false, h.length + 1⟩]⟩ : nfa_node), ⟨true, []⟩]).length
          = h.length + 2 := by simp
      by_cases hd : d = 42
      · subst hd
        have hsecond := ih rest
          (h ++ [⟨false, [⟨c, false, h.length + 1⟩]⟩, ⟨true, []⟩]) hrest
          (by simp at hl; omega)
        rw [hlen1] at hsecond
        simp only [List.getD_cons_succ, List.getD_cons_zero, Nat.zero_add, if_true,
          List.drop_succ_cons, List.drop_zero, hsecond]
        simp only [List.append_assoc, List.cons_append, List.nil_append, List.length_append,
          List.length_cons, List.length_nil, frag_nodes_len]
        simp only [nfa_push_edge, nfa_set_isend, insert_nfa_edge, nfa_at_append_zero,
          set_append_zero, nfa_at_append_one, set_append_one]
        simp [frag_nodes, frag_size, frag_start, frag_end]
        omega
      · have hsecond := ih (d :: rest)
          (h ++ [⟨false, [⟨c, false, h.length + 1⟩]⟩, ⟨true, []⟩]) htl
          (by simp at hl ⊢; omega)
        rw [hlen1] at hsecond
        simp only [List.getD_cons_succ, List.getD_cons_zero, Nat.zero_add, hd, if_false,
          List.drop_succ_cons, List.drop_zero, hsecond]
        simp only [List.append_assoc, List.cons_append, List.nil_append]
        simp only [nfa_push_edge, nfa_set_isend, insert_nfa_edge, nfa_at_append_zero,
          set_append_zero, nfa_at_append_one, set_append_one]
        simp [frag_nodes, frag_size, frag_start, frag_end, hd]

/-! ### What `always_group` returns -/

theorem copy_nfa_list_eq_reverse (l : List Nat) : copy_nfa_list l = l.reverse := by
  have h : ∀ (l acc : List Nat),
      l.foldl (fun out n => insert_into_nfa_list out n) acc = l.reverse ++ acc := by
    intro l
    induction l with
    | nil => intro acc; rfl
    | cons x xs ih =>
      intro acc
      simp [List.foldl_cons, ih, insert_into_nfa_list]
  simpa using h l []

theorem mem_copy_nfa_list (l : List Nat) (m : Nat) : m ∈ copy_nfa_list l ↔ m ∈ l := by
  simp [copy_nfa_list_eq_reverse]

theorem contains_nfa_list_iff (l : List Nat) (n : Nat) :
    contains_nfa_list l n = true ↔ n ∈ l := by
  induction l with
  | nil => simp [contains_nfa_list]
  | cons x xs ih =>
    by_cases h : x = n
    · simp [contains_nfa_list, h]
    · have h2 : ¬ n = x := fun e => h e.symm
      simp [contains_nfa_list, h, h2, ih]

theorem union_into_nfa_list_eq (a b : List Nat) :
    union_into_nfa_list a b = b.filter (fun n => !contains_nfa_list a n) ++ a := by
  have h : ∀ (l acc : List Nat),
      l.foldl (fun out n => if contains_nfa_list a n = true then out else n :: out) acc =
        (l.filter (fun n => !contains_nfa_list a n)).reverse ++ acc := by
    intro l
    induction l with
    | nil => intro acc; rfl
    | cons x xs ih =>
      intro acc
      by_cases hx : contains_nfa_list a x = true
      · simp [List.foldl_cons, hx, ih]
      · simp [List.foldl_cons, hx, ih]
  unfold union_into_nfa_list
  rw [h, copy_nfa_list_eq_reverse, List.filter_reverse, List.reverse_reverse]

theorem mem_union_into_nfa_list (a b : List Nat) (m : Nat) :
    m ∈ union_into_nfa_list a b ↔ m ∈ a ∨ m ∈ b := by
  rw [union_into_nfa_list_eq]
  simp only [List.mem_append, List.mem_filter, Bool.not_eq_true', ← Bool.not_eq_true,
    contains_nfa_list_iff]
  constructor
  · rintro (⟨hb, _⟩ | ha)
    · exact Or.inr hb
    · exact Or.inl ha
  · rintro (ha | hb)
    · exact Or.inr ha
    · by_cases ha : m ∈ a
      · exact Or.inr ha
      · exact Or.inl ⟨hb, ha⟩

theorem nodup_union_into_nfa_list (a b : List Nat) (ha : a.Nodup) (hb : b.Nodup) :
    (union_into_nfa_list a b).Nodup := by
  rw [union_into_nfa_list_eq, List.nodup_append]
  refine ⟨hb.filter _, ha, ?_⟩
  intro x hx hxa
  simp only [List.mem_filter, Bool.not_eq_true', ← Bool.not_eq_true,
    contains_nfa_list_iff] at hx
  exact hx.2 hxa

theorem always_group_edges_spec (H : List nfa_node) (rec : Nat → Option always_g) (node : Nat)
    (hrec : ∀ p r, rec p = some r →
      (∀ m, m ∈ r.nfas ↔ eps_reach H p m) ∧
        (r.isend = true ↔ ∃ m, eps_reach H p m ∧ (nfa_at H m).isend = true))
    (es : List nfa_edge) :
    ∀ (out r : always_g), always_group_edges rec node es out = some r → node ∈ out.nfas →
      (∀ m, m ∈ r.nfas ↔ m ∈ out.nfas ∨ ∃ e ∈ es, e.always = true ∧ eps_reach H e.node m) ∧
        (r.isend = true ↔ out.isend = true ∨
          ∃ e ∈ es, e.always = true ∧ ∃ m, eps_reach H e.node m ∧ (nfa_at H m).isend = true) := by
  induction es with
  | nil =>
    intro out r hr _
    simp only [always_group_edges, Option.some.injEq] at hr
    subst hr
    simp
  | cons e es ih =>
    intro out r hr hnode
    unfold always_group_edges at hr
    cases hs : always_group_step rec node out e with
    | none => simp [hs] at hr
    | some out1 =>
      rw [hs] at hr
      simp only [] at hr
      unfold always_group_step at hs
      by_cases ha : e.always = true
      · rw [if_pos ha] at hs
        cases hr1 : rec e.node with
        | none => simp [hr1] at hs
        | some tmp =>
          rw [hr1] at hs
          simp only [Option.some.injEq] at hs
          subst hs
          obtain ⟨hm1, he1⟩ := hrec _ _ hr1
          obtain ⟨hm, he⟩ := ih _ r hr (by
            simp only [mem_union_into_nfa_list]
            exact Or.inl hnode)
          constructor
          · intro m
            rw [hm m]
            simp only [mem_union_into_nfa_list, hm1, List.mem_cons, exists_eq_or_imp, ha,
              true_and, or_assoc]
          · rw [he]
            simp only [Bool.or_eq_true, he1, List.mem_cons, exists_eq_or_imp, ha, true_and,
              or_assoc]
      · rw [if_neg ha] at hs
        have hout1 : (∀ m, m ∈ out1.nfas ↔ m ∈ out.nfas) ∧ out1.isend = out.isend := by
          by_cases hn : e.node = node
          · rw [if_pos hn] at hs
            simp only [Option.some.injEq] at hs
            subst hs
            refine ⟨?_, rfl⟩
            intro m
            simp only [insert_into_nfa_list, List.mem_cons, hn]
            constructor
            · rintro (rfl | h)
              · exact hnode
              · exact h
            · exact Or.inr
          · rw [if_neg hn] at hs
            simp only [Option.some.injEq] at hs
            subst hs
            exact ⟨fun _ => Iff.rfl, rfl⟩
        obtain ⟨hm, he⟩ := ih _ r hr ((hout1.1 node).2 hnode)
        have haf : e.always = false := by simpa using ha
        constructor
        · intro m
          rw [hm m, hout1.1 m]
          simp [haf]
        · rw [he, hout1.2]
          simp [haf]

theorem eps_reach_iff_head (H : List nfa_node) (n m : Nat) :
    eps_reach H n m ↔
      m = n ∨ ∃ e ∈ (nfa_at H n).next_l, e.always = true ∧ eps_reach H e.node m := by
  constructor
  · intro h
    rcases Relation.ReflTransGen.cases_head h with h1 | ⟨c, ⟨e, he, ha, hc⟩, hcm⟩
    · exact Or.inl h1.symm
    · exact Or.inr ⟨e, he, ha, hc ▸ hcm⟩
  · rintro (rfl | ⟨e, he, ha, hr⟩)
    · exact Relation.ReflTransGen.refl
    · exact Relation.ReflTransGen.head ⟨e, he, ha, rfl⟩ hr

theorem always_group_spec (H : List nfa_node) (fuel : Nat) :
    ∀ (n : Nat) (g : always_g), always_group H fuel n = some g →
      (∀ m, m ∈ g.nfas ↔ eps_reach H n m) ∧
        (g.isend = true ↔ ∃ m, eps_reach H n m ∧ (nfa_at H m).isend = true) := by
  induction fuel with
  | zero =>
    intro n g hg
    simp [always_group] at hg
  | succ fuel ih =>
    intro n g hg
    rw [always_group] at hg
    obtain ⟨hm, he⟩ := always_group_edges_spec H _ n ih _ _ g hg
      (by simp [insert_into_nfa_list])
    constructor
    · intro m
      rw [hm m, eps_reach_iff_head]
      simp [insert_into_nfa_list]
    · rw [he]
      constructor
      · rintro (h0 | ⟨e, hmem, ha, m, hr, hacc⟩)
        · exact ⟨n, Relation.ReflTransGen.refl, h0⟩
        · exact ⟨m, (eps_reach_iff_head H n m).2 (Or.inr ⟨e, hmem, ha, hr⟩), hacc⟩
      · rintro ⟨m, hr, hacc⟩
        rcases (eps_reach_iff_head H n m).1 hr with rfl | ⟨e, hmem, ha, hr2⟩
        · exact Or.inl hacc
        · exact Or.inr ⟨e, hmem, ha, m, hr2, hacc⟩

theorem always_group_isend_iff (H : List nfa_node) (fuel n : Nat) (g : always_g)
    (hg : always_group H fuel n = some g) :
    g.isend = true ↔ ∃ m ∈ g.nfas, (nfa_at H m).isend = true := by
  obtain ⟨hm, he⟩ := always_group_spec H fuel n g hg
  rw [he]
  constructor
  · rintro ⟨m, hr, hacc⟩
    exact ⟨m, (hm m).2 hr, hacc⟩
  · rintro ⟨m, hmem, hacc⟩
    exact ⟨m, (hm m).1 hmem, hacc⟩

theorem always_group_edges_nodup (rec : Nat → Option always_g) (node : Nat)
    (hrec : ∀ p r, rec p = some r → r.nfas.Nodup) (es : List nfa_edge)
    (hself : ∀ e ∈ es, e.always = false → e.node ≠ node) :
    ∀ (out r : always_g), always_group_edges rec node es out = some r → out.nfas.Nodup →
      r.nfas.Nodup := by
  induction es with
  | nil =>
    intro out r hr hnd
    simp only [always_group_edges, Option.some.injEq] at hr
    exact hr ▸ hnd
  | cons e es ih =>
    intro out r hr hnd
    unfold always_group_edges at hr
    cases hs : always_group_step rec node out e with
    | none => simp [hs] at hr
    | some out1 =>
      rw [hs] at hr
      simp only [] at hr
      refine ih (fun e' he' => hself e' (List.mem_cons_of_mem _ he')) out1 r hr ?_
      unfold always_group_step at hs
      by_cases ha : e.always = true
      · rw [if_pos ha] at hs
        cases hr1 : rec e.node with
        | none => simp [hr1] at hs
        | some tmp =>
          rw [hr1] at hs
          simp only [Option.some.injEq] at hs
          subst hs
          exact nodup_union_into_nfa_list _ _ hnd (hrec _ _ hr1)
      · rw [if_neg ha] at hs
        have hn : e.node ≠ node := hself e (List.mem_cons_self _ _) (by simpa using ha)
        rw [if_neg hn] at hs
        simp only [Option.some.injEq] at hs
        exact hs ▸ hnd

theorem always_group_nodup (H : List nfa_node)
    (hloop : ∀ n, ∀ e ∈ (nfa_at H n).next_l, e.always = false → e.node ≠ n) (fuel : Nat) :
    ∀ (n : Nat) (g : always_g), always_group H fuel n = some g → g.nfas.Nodup := by
  induction fuel with
  | zero =>
    intro n g hg
    simp [always_group] at hg
  | succ fuel ih =>
    intro n g hg
    rw [always_group] at hg
    exact always_group_edges_nodup _ n ih _ (hloop n) _ g hg (by simp [insert_into_nfa_list])

/-! ### Nodes of the fragment of a pattern without groups -/

theorem nfa_at_cons_zero (a : nfa_node) (L : List nfa_node) : nfa_at (a :: L) 0 = a := rfl

theorem nfa_at_cons_succ (a : nfa_node) (L : List nfa_node) (i : Nat) :
    nfa_at (a :: L) (i + 1) = nfa_at L i := by
  simp [nfa_at]

theorem nfa_at_append_left (L M : List nfa_node) (i : Nat) (hi : i < L.length) :
    nfa_at (L ++ M) i = nfa_at L i := by
  simp [nfa_at, List.getD_eq_getElem?_getD, List.getElem?_append_left hi]

theorem nfa_at_append_length (L : List nfa_node) (a : nfa_node) (M : List nfa_node) :
    nfa_at (L ++ a :: M) L.length = a := nfa_at_append_zero L a M

theorem frag_in_self (p : List Nat) : frag_in (frag_nodes p 0) 0 p := by
  intro i _
  simp

theorem frag_in_nil (H : List nfa_node) (k : Nat) (h : frag_in H k []) :
    nfa_at H k = ⟨false, [⟨0, true, k + 1⟩]⟩ ∧ nfa_at H (k + 1) = ⟨true, []⟩ := by
  have h0 := h 0 (by simp [frag_size])
  have h1 := h 1 (by simp [frag_size])
  simp only [frag_nodes, Nat.add_zero] at h0 h1
  exact ⟨h0, h1⟩

theorem frag_in_single (H : List nfa_node) (k c : Nat) (h : frag_in H k [c]) :
    nfa_at H k = ⟨false, [⟨c, false, k + 1⟩]⟩ ∧ nfa_at H (k + 1) = ⟨true, []⟩ := by
  have h0 := h 0 (by simp [frag_size])
  have h1 := h 1 (by simp [frag_size])
  simp only [frag_nodes, Nat.add_zero] at h0 h1
  exact ⟨h0, h1⟩

theorem frag_in_star (H : List nfa_node) (k c : Nat) (rest : List Nat)
    (h : frag_in H k (c :: 42 :: rest)) :
    nfa_at H k = ⟨false, [⟨0, true, frag_start rest (k + 2)⟩, ⟨c, false, k + 1⟩]⟩ ∧
      nfa_at H (k + 1) = ⟨false, [⟨0, true, k⟩]⟩ ∧
      frag_in H (k + 2) rest ∧
      nfa_at H (k + 2 + frag_size rest) = ⟨false, [⟨0, true, k⟩]⟩ := by
  have hsz : frag_size (c :: 42 :: rest) = 3 + frag_size rest := by simp [frag_size]
  have hn : frag_nodes (c :: 42 :: rest) k =
      ⟨false, [⟨0, true, frag_start rest (k + 2)⟩, ⟨c, false, k + 1⟩]⟩ ::
        ⟨false, [⟨0, true, k⟩]⟩ ::
        (frag_nodes rest (k + 2) ++ [⟨false, [⟨0, true, k⟩]⟩]) := by
    simp [frag_nodes]
  refine ⟨?_, ?_, ?_, ?_⟩
  · have h0 := h 0 (by omega)
    rw [hn, nfa_at_cons_zero] at h0
    simpa using h0
  · have h1 := h 1 (by omega)
    rw [hn, nfa_at_cons_succ, nfa_at_cons_zero] at h1
    exact h1
  · intro i hi
    have h2 := h (i + 2) (by omega)
    rw [hn, nfa_at_cons_succ, nfa_at_cons_succ,
      nfa_at_append_left _ _ _ (by rw [frag_nodes_len]; exact hi)] at h2
    rw [← h2]
    congr 1
    omega
  · have h3 := h (2 + frag_size rest) (by omega)
    have e : 2 + frag_size rest = (frag_size rest + 1) + 1 := by omega
    rw [hn, e, nfa_at_cons_succ, nfa_at_cons_succ] at h3
    have e2 : frag_size rest = (frag_nodes rest (k + 2)).length := (frag_nodes_len _ _).symm
    rw [e2, nfa_at_append_length] at h3
    rw [← h3]
    congr 1
    rw [frag_nodes_len]
    omega

theorem frag_in_concat (H : List nfa_node) (k c d : Nat) (rest : List Nat) (hd : d ≠ 42)
    (h : frag_in H k (c :: d :: rest)) :
    nfa_at H k = ⟨false, [⟨c, false, k + 1⟩]⟩ ∧
      nfa_at H (k + 1) = ⟨false, [⟨0, true, frag_start (d :: rest) (k + 2)⟩]⟩ ∧
      frag_in H (k + 2) (d :: rest) := by
  have hsz : frag_size (c :: d :: rest) = 2 + frag_size (d :: rest) := by simp [frag_size, hd]
  have hn : frag_nodes (c :: d :: rest) k =
      ⟨false, [⟨c, false, k + 1⟩]⟩ ::
        ⟨false, [⟨0, true, frag_start (d :: rest) (k + 2)⟩]⟩ ::
        frag_nodes (d :: rest) (k + 2) := by
    simp [frag_nodes, hd]
  refine ⟨?_, ?_, ?_⟩
  · have h0 := h 0 (by omega)
    rw [hn, nfa_at_cons_zero] at h0
    simpa using h0
  · have h1 := h 1 (by omega)
    rw [hn, nfa_at_cons_succ, nfa_at_cons_zero] at h1
    exact h1
  · intro i hi
    have h2 := h (i + 2) (by omega)
    rw [hn, nfa_at_cons_succ, nfa_at_cons_succ] at h2
    rw [← h2]
    congr 1
    omega

theorem frag_start_range (p : List Nat) (k : Nat) :
    k ≤ frag_start p k ∧ frag_start p k < k + frag_size p := by
  match p with
  | [] => simp [frag_start, frag_size]
  | [c] => simp [frag_start, frag_size]
  | c :: d :: rest =>
    by_cases hd : d = 42
    · simp only [frag_start, frag_size, hd, if_true]
      omega
    · simp [frag_start, frag_size, hd]

theorem frag_size_pos (p : List Nat) : 2 ≤ frag_size p := by
  match p with
  | [] => simp [frag_size]
  | [c] => simp [frag_size]
  | c :: d :: rest =>
    by_cases hd : d = 42
    · simp [frag_size, hd]
      omega
    · simp [frag_size, hd]

/-! ### `always_group` on the NFA of a pattern without groups -/

theorem always_group_edges_returns (rec : Nat → Option always_g) (node : Nat)
    (es : List nfa_edge) (h : ∀ e ∈ es, e.always = true → ∃ g, rec e.node = some g) :
    ∀ out, ∃ r, always_group_edges rec node es out = some r := by
  induction es with
  | nil =>
    intro out
    exact ⟨out, rfl⟩
  | cons e es ih =>
    intro out
    have ih2 := ih (fun e' he' => h e' (List.mem_cons_of_mem _ he'))
    unfold always_group_edges
    have hstep : ∃ out1, always_group_step rec node out e = some out1 := by
      unfold always_group_step
      by_cases ha : e.always = true
      · obtain ⟨g, hg⟩ := h e (List.mem_cons_self _ _) ha
        rw [if_pos ha, hg]
        exact ⟨_, rfl⟩
      · rw [if_neg ha]
        by_cases hn : e.node = node
        · rw [if_pos hn]
          exact ⟨_, rfl⟩
        · rw [if_neg hn]
          exact ⟨_, rfl⟩
    obtain ⟨out1, h1⟩ := hstep
    rw [h1]
    exact ih2 out1

theorem always_group_returns (H : List nfa_node) (f n : Nat)
    (h : ∀ e ∈ (nfa_at H n).next_l, e.always = true → ∃ g, always_group H f e.node = some g) :
    ∃ g, always_group H (f + 1) n = some g := by
  rw [always_group]
  exact always_group_edges_returns _ n _ h _

theorem always_group_no_edge (H : List nfa_node) (f n : Nat) (b : Bool)
    (hn : nfa_at H n = ⟨b, []⟩) : ∃ g, always_group H (f + 1) n = some g := by
  apply always_group_returns
  rw [hn]
  intro e he
  simp at he

theorem always_group_one_consume (H : List nfa_node) (f n c m : Nat) (b : Bool)
    (hn : nfa_at H n = ⟨b, [⟨c, false, m⟩]⟩) : ∃ g, always_group H (f + 1) n = some g := by
  apply always_group_returns
  rw [hn]
  intro e he ha
  simp at he
  simp [he] at ha

theorem always_group_one_eps (H : List nfa_node) (f n c m : Nat) (b : Bool) (g1 : always_g)
    (hn : nfa_at H n = ⟨b, [⟨c, true, m⟩]⟩) (hm : always_group H f m = some g1) :
    ∃ g, always_group H (f + 1) n = some g := by
  apply always_group_returns
  rw [hn]
  intro e he _
  simp at he
  exact ⟨g1, by rw [he]; exact hm⟩

theorem always_group_eps_consume (H : List nfa_node) (f n c m c2 m2 : Nat) (b : Bool)
    (g1 : always_g) (hn : nfa_at H n = ⟨b, [⟨c, true, m⟩, ⟨c2, false, m2⟩]⟩)
    (hm : always_group H f m = some g1) : ∃ g, always_group H (f + 1) n = some g := by
  apply always_group_returns
  rw [hn]
  intro e he ha
  simp at he
  rcases he with rfl | rfl
  · exact ⟨g1, hm⟩
  · simp at ha

theorem frag_always_group_returns (n : Nat) :
    ∀ (p : List Nat) (k : Nat) (H : List nfa_node), p.length ≤ n → frag_in H k p →
      ∀ i, i < frag_size p → ∃ fuel g, always_group H fuel (k + i) = some g := by
  induction n with
  | zero =>
    intro p k H hl hin i hi
    match p, hl with
    | [], _ =>
      obtain ⟨h0, h1⟩ := frag_in_nil H k hin
      obtain ⟨g1, hg1⟩ := always_group_no_edge H 0 (k + 1) true h1
      have hi2 : i = 0 ∨ i = 1 := by simp [frag_size] at hi; omega
      rcases hi2 with rfl | rfl
      · obtain ⟨g, hg⟩ := always_group_one_eps H 1 k 0 (k + 1) false g1 h0 hg1
        exact ⟨2, g, hg⟩
      · exact ⟨1, g1, hg1⟩
  | succ n ih =>
    intro p k H hl hin i hi
    match p, hl with
    | [], _ =>
      obtain ⟨h0, h1⟩ := frag_in_nil H k hin
      obtain ⟨g1, hg1⟩ := always_group_no_edge H 0 (k + 1) true h1
      have hi2 : i = 0 ∨ i = 1 := by simp [frag_size] at hi; omega
      rcases hi2 with rfl | rfl
      · obtain ⟨g, hg⟩ := always_group_one_eps H 1 k 0 (k + 1) false g1 h0 hg1
        exact ⟨2, g, hg⟩
      · exact ⟨1, g1, hg1⟩
    | [c], _ =>
      obtain ⟨h0, h1⟩ := frag_in_single H k c hin
      have hi2 : i = 0 ∨ i = 1 := by simp [frag_size] at hi; omega
      rcases hi2 with rfl | rfl
      · obtain ⟨g, hg⟩ := always_group_one_consume H 0 k c (k + 1) false h0
        exact ⟨1, g, hg⟩
      · obtain ⟨g, hg⟩ := always_group_no_edge H 0 (k + 1) true h1
        exact ⟨1, g, hg⟩
    | c :: d :: rest, hl =>
      by_cases hd : d = 42
      · subst hd
        obtain ⟨h0, h1, hrest, hS⟩ := frag_in_star H k c rest hin
        have hsz : frag_size (c :: 42 :: rest) = 3 + frag_size rest := by simp [frag_size]
        have ihr := ih rest (k + 2) H (by simp at hl; omega) hrest
        obtain ⟨hs1, hs2⟩ := frag_start_range rest (k + 2)
        obtain ⟨f2, g2, hg2⟩ := ihr (frag_start rest (k + 2) - (k + 2)) (by omega)
        rw [show k + 2 + (frag_start rest (k + 2) - (k + 2)) = frag_start rest (k + 2) by omega]
          at hg2
        obtain ⟨g0, hg0⟩ := always_group_eps_consume H f2 k 0 _ c (k + 1) false g2 h0 hg2
        by_cases hi0 : i = 0
        · subst hi0
          exact ⟨f2 + 1, g0, hg0⟩
        by_cases hi1 : i = 1
        · subst hi1
          obtain ⟨g, hg⟩ := always_group_one_eps H (f2 + 1) (k + 1) 0 k false g0 h1 hg0
          exact ⟨f2 + 2, g, hg⟩
        by_cases hi2 : i = 2 + frag_size rest
        · subst hi2
          obtain ⟨g, hg⟩ := always_group_one_eps H (f2 + 1) (k + 2 + frag_size rest) 0 k false
            g0 hS hg0
          exact ⟨f2 + 2, g, by rw [show k + (2 + frag_size rest) = k + 2 + frag_size rest by omega]; exact hg⟩
        · obtain ⟨f, g, hg⟩ := ihr (i - 2) (by omega)
          exact ⟨f, g, by rw [show k + i = k + 2 + (i - 2) by omega]; exact hg⟩
      · obtain ⟨h0, h1, htl⟩ := frag_in_concat H k c d rest hd hin
        have hsz : frag_size (c :: d :: rest) = 2 + frag_size (d :: rest) := by
          simp [frag_size, hd]
        have ihr := ih (d :: rest) (k + 2) H (by simp at hl ⊢; omega) htl
        obtain ⟨hs1, hs2⟩ := frag_start_range (d :: rest) (k + 2)
        obtain ⟨f2, g2, hg2⟩ := ihr (frag_start (d :: rest) (k + 2) - (k + 2)) (by omega)
        rw [show k + 2 + (frag_start (d :: rest) (k + 2) - (k + 2)) =
          frag_start (d :: rest) (k + 2) by omega] at hg2
        by_cases hi0 : i = 0
        · subst hi0
          obtain ⟨g, hg⟩ := always_group_one_consume H 0 k c (k + 1) false h0
          exact ⟨1, g, hg⟩
        by_cases hi1 : i = 1
        · subst hi1
          obtain ⟨g, hg⟩ := always_group_one_eps H f2 (k + 1) 0 _ false g2 h1 hg2
          exact ⟨f2 + 1, g, hg⟩
        · obtain ⟨f, g, hg⟩ := ihr (i - 2) (by omega)
          exact ⟨f, g, by rw [show k + i = k + 2 + (i - 2) by omega]; exact hg⟩

theorem frag_consuming_edge (n : Nat) :
    ∀ (p : List Nat) (k : Nat) (H : List nfa_node), p.length ≤ n → frag_in H k p →
      ∀ i, i < frag_size p → ∀ e ∈ (nfa_at H (k + i)).next_l, e.always = false →
        e.node = k + i + 1 := by
  induction n with
  | zero =>
    intro p k H hl hin i hi e he ha
    match p, hl with
    | [], _ =>
      obtain ⟨h0, h1⟩ := frag_in_nil H k hin
      have hi2 : i = 0 ∨ i = 1 := by simp [frag_size] at hi; omega
      rcases hi2 with rfl | rfl
      · rw [Nat.add_zero, h0] at he
        simp at he
        simp [he] at ha
      · rw [h1] at he
        simp at he
  | succ n ih =>
    intro p k H hl hin i hi e he ha
    match p, hl with
    | [], _ =>
      obtain ⟨h0, h1⟩ := frag_in_nil H k hin
      have hi2 : i = 0 ∨ i = 1 := by simp [frag_size] at hi; omega
      rcases hi2 with rfl | rfl
      · rw [Nat.add_zero, h0] at he
        simp at he
        simp [he] at ha
      · rw [h1] at he
        simp at he
    | [c], _ =>
      obtain ⟨h0, h1⟩ := frag_in_single H k c hin
      have hi2 : i = 0 ∨ i = 1 := by simp [frag_size] at hi; omega
      rcases hi2 with rfl | rfl
      · rw [Nat.add_zero, h0] at he
        simp at he
        simp [he]
      · rw [h1] at he
        simp at he
    | c :: d :: rest, hl =>
      by_cases hd : d = 42
      · subst hd
        obtain ⟨h0, h1, hrest, hS⟩ := frag_in_star H k c rest hin
        have hsz : frag_size (c :: 42 :: rest) = 3 + frag_size rest := by simp [frag_size]
        by_cases hi0 : i = 0
        · subst hi0
          rw [Nat.add_zero, h0] at he
          simp at he
          rcases he with rfl | rfl
          · simp at ha
          · simp
        by_cases hi1 : i = 1
        · subst hi1
          rw [h1] at he
          simp at he
          simp [he] at ha
        by_cases hi2 : i = 2 + frag_size rest
        · subst hi2
          rw [show k + (2 + frag_size rest) = k + 2 + frag_size rest by omega, hS] at he
          simp at he
          simp [he] at ha
        · have := ih rest (k + 2) H (by simp at hl; omega) hrest (i - 2) (by omega) e
            (by rw [show k + 2 + (i - 2) = k + i by omega]; exact he) ha
          omega
      · obtain ⟨h0, h1, htl⟩ := frag_in_concat H k c d rest hd hin
        have hsz : frag_size (c :: d :: rest) = 2 + frag_size (d :: rest) := by
          simp [frag_size, hd]
        by_cases hi0 : i = 0
        · subst hi0
          rw [Nat.add_zero, h0] at he
          simp at he
          simp [he]
        by_cases hi1 : i = 1
        · subst hi1
          rw [h1] at he
          simp at he
          simp [he] at ha
        · have := ih (d :: rest) (k + 2) H (by simp at hl ⊢; omega) htl (i - 2) (by omega) e
            (by rw [show k + 2 + (i - 2) = k + i by omega]; exact he) ha
          omega

theorem generate_nfa_eq_layout (p : List Nat) (hp : 40 ∉ p) (fuel : Nat) (h0 : List nfa_node)
    (r : List nfa_node × nfa) (hg : generate_nfa fuel h0 p = some r) :
    r = (h0 ++ frag_nodes p h0.length,
      ⟨frag_size p, frag_start p h0.length, frag_end p h0.length⟩) := by
  have h1 := generate_nfa_mono (Nat.le_max_left fuel (p.length + 1)) h0 p r hg
  have h2 := generate_nfa_layout (max fuel (p.length + 1)) p h0 hp
    (by have := Nat.le_max_right fuel (p.length + 1); omega)
  rw [h1] at h2
  exact Option.some.inj h2

/-- C12: for every node `n` of an NFA built by `generate_nfa` from a pattern
without parentheses, `always_group(n)` returns (with enough fuel) a node list
whose members are exactly `n` and the nodes reachable from `n` through epsilon
edges only, each listed once, and whose `isend` flag is true exactly when some
member is accepting. -/
theorem always_group_is_closure (p : List Nat) (fuel : Nat) (h : List nfa_node) (re_nfa : nfa)
    (n : Nat) (hp : 40 ∉ p) (hg : generate_nfa fuel [] p = some (h, re_nfa))
    (hn : n < h.length) :
    ∃ fuel2 g, always_group h fuel2 n = some g ∧ g.nfas.Nodup ∧
      (∀ m, m ∈ g.nfas ↔ eps_reach h n m) ∧
      (g.isend = true ↔ ∃ m ∈ g.nfas, (nfa_at h m).isend = true) := by
  have hr := generate_nfa_eq_layout p hp fuel [] _ hg
  simp only [List.nil_append, List.length_nil, Prod.mk.injEq] at hr
  obtain ⟨hh, -⟩ := hr
  subst hh
  rw [frag_nodes_len] at hn
  obtain ⟨fuel2, g, hret⟩ := frag_always_group_returns p.length p 0 _ (Nat.le_refl _)
    (frag_in_self p) n hn
  rw [Nat.zero_add] at hret
  refine ⟨fuel2, g, hret, ?_, (always_group_spec _ fuel2 n g hret).1,
    always_group_isend_iff _ fuel2 n g hret⟩
  apply always_group_nodup _ _ fuel2 n g hret
  intro i e he ha
  by_cases hi : i < frag_size p
  · have := frag_consuming_edge p.length p 0 _ (Nat.le_refl _) (frag_in_self p) i hi e
      (by rw [Nat.zero_add]; exact he) ha
    omega
  · have hd : nfa_at (frag_nodes p 0) i = ⟨false, []⟩ := by
      unfold nfa_at
      rw [List.getD_eq_getElem?_getD, List.getElem?_eq_none (by rw [frag_nodes_len]; omega)]
      rfl
    rw [hd] at he
    simp at he

/-- Witness of C12: the start node 4 of the NFA of `a*b`. -/
theorem always_group_is_closure_witness :
    (40 ∉ bytes "a*b" ∧ generate_nfa 8 [] (bytes "a*b") = some (nh_astar_b, ⟨5, 4, 3⟩) ∧
        4 < nh_astar_b.length) ∧
      ∃ fuel2 g, always_group nh_astar_b fuel2 4 = some g ∧ g.nfas.Nodup ∧
        (∀ m, m ∈ g.nfas ↔ eps_reach nh_astar_b 4 m) ∧
        (g.isend = true ↔ ∃ m ∈ g.nfas, (nfa_at nh_astar_b m).isend = true) :=
  ⟨by decide,
    always_group_is_closure (bytes "a*b") 8 nh_astar_b ⟨5, 4, 3⟩ 4 (by decide) (by decide)
      (by decide)⟩

/-! ### Paths of the NFA and the language of the pattern -/

theorem mem_kstar_atom_lang (c : Nat) (u : List Nat) :
    u ∈ KStar.kstar (atom_lang c) ↔ ∀ b ∈ u, char_match c b = true := by
  rw [Language.mem_kstar]
  constructor
  · rintro ⟨L, rfl, hL⟩
    induction L with
    | nil => simp
    | cons y L ih =>
      intro b hb
      simp only [List.flatten_cons, List.mem_append] at hb
      rcases hb with hb | hb
      · obtain ⟨b1, hy, hm⟩ := hL y (List.mem_cons_self _ _)
        rw [hy] at hb
        simp only [List.mem_singleton] at hb
        exact hb ▸ hm
      · exact ih (fun y' hy' => hL y' (List.mem_cons_of_mem _ hy')) b hb
  · intro h
    refine ⟨u.map (fun b => [b]), ?_, ?_⟩
    · clear h
      induction u with
      | nil => rfl
      | cons b u ih => simp [← ih]
    · intro y hy
      obtain ⟨b, hb, rfl⟩ := List.mem_map.1 hy
      exact ⟨b, rfl, h b hb⟩

theorem nfa_path_of_no_edge (H : List nfa_node) (n m : Nat) (w : List Nat) (b : Bool)
    (hn : nfa_at H n = ⟨b, []⟩) (hp : nfa_path H n w m) : w = [] ∧ m = n := by
  cases hp with
  | refl => exact ⟨rfl, rfl⟩
  | eps _ _ _ e he _ _ => rw [hn] at he; simp at he
  | consume _ _ _ _ e he _ _ _ => rw [hn] at he; simp at he

theorem frag_end_range (n : Nat) :
    ∀ (p : List Nat) (k : Nat), p.length ≤ n →
      k + 1 ≤ frag_end p k ∧ frag_end p k < k + frag_size p ∧ frag_end p k ≠ frag_start p k := by
  induction n with
  | zero =>
    intro p k hl
    match p, hl with
    | [], _ => simp [frag_end, frag_size, frag_start]
  | succ n ih =>
    intro p k hl
    match p, hl with
    | [], _ => simp [frag_end, frag_size, frag_start]
    | [c], _ => simp [frag_end, frag_size, frag_start]
    | c :: d :: rest, hl =>
      by_cases hd : d = 42
      · obtain ⟨h1, h2, -⟩ := ih rest (k + 2) (by simp at hl; omega)
        simp only [frag_end, frag_size, frag_start, hd, if_true]
        omega
      · obtain ⟨h1, h2, -⟩ := ih (d :: rest) (k + 2) (by simp at hl ⊢; omega)
        simp only [frag_end, frag_size, frag_start, hd, if_false]
        omega

theorem frag_end_node (n : Nat) :
    ∀ (p : List Nat) (k : Nat) (H : List nfa_node), p.length ≤ n → frag_in H k p →
      nfa_at H (frag_end p k) = ⟨true, []⟩ := by
  induction n with
  | zero =>
    intro p k H hl hin
    match p, hl with
    | [], _ => exact (frag_in_nil H k hin).2
  | succ n ih =>
    intro p k H hl hin
    match p, hl with
    | [], _ => exact (frag_in_nil H k hin).2
    | [c], _ => exact (frag_in_single H k c hin).2
    | c :: d :: rest, hl =>
      by_cases hd : d = 42
      · subst hd
        obtain ⟨-, -, hrest, -⟩ := frag_in_star H k c rest hin
        simpa [frag_end] using ih rest (k + 2) H (by simp at hl; omega) hrest
      · obtain ⟨-, -, htl⟩ := frag_in_concat H k c d rest hd hin
        simpa [frag_end, hd] using ih (d :: rest) (k + 2) H (by simp at hl ⊢; omega) htl

theorem frag_path_star (H : List nfa_node) (k c : Nat) (rest : List Nat)
    (hin : frag_in H k (c :: 42 :: rest)) (w : List Nat) :
    nfa_path H (frag_start (c :: 42 :: rest) k) w (frag_end (c :: 42 :: rest) k) ↔
      ∃ u v, w = u ++ v ∧ (∀ b ∈ u, char_match c b = true) ∧
        nfa_path H (frag_start rest (k + 2)) v (frag_end rest (k + 2)) := by
  obtain ⟨h0, h1, -, hS⟩ := frag_in_star H k c rest hin
  obtain ⟨hE1, hE2, -⟩ := frag_end_range rest.length rest (k + 2) (Nat.le_refl _)
  have hst : frag_start (c :: 42 :: rest) k = k + 2 + frag_size rest := by simp [frag_start]
  have hen : frag_end (c :: 42 :: rest) k = frag_end rest (k + 2) := by simp [frag_end]
  rw [hst, hen]
  constructor
  · intro hp
    have key : ∀ n w m, nfa_path H n w m → m = frag_end rest (k + 2) →
        (n = k + 2 + frag_size rest ∨ n = k ∨ n = k + 1) →
        ∃ u v, w = u ++ v ∧ (∀ b ∈ u, char_match c b = true) ∧
          nfa_path H (frag_start rest (k + 2)) v (frag_end rest (k + 2)) := by
      intro n w m hp
      induction hp with
      | refl n =>
        intro hm hn
        omega
      | eps n m w e he ha hp' ih =>
        intro hm hn
        rcases hn with rfl | rfl | rfl
        · rw [hS] at he
          simp only [List.mem_singleton] at he
          subst he
          exact ih hm (Or.inr (Or.inl rfl))
        · rw [h0] at he
          simp only [List.mem_cons, List.mem_singleton, List.not_mem_nil, or_false] at he
          rcases he with rfl | rfl
          · exact ⟨[], w, rfl, by simp, hm ▸ hp'⟩
          · simp at ha
        · rw [h1] at he
          simp only [List.mem_singleton] at he
          subst he
          exact ih hm (Or.inr (Or.inl rfl))
      | consume n m b w e he ha hc hp' ih =>
        intro hm hn
        rcases hn with rfl | rfl | rfl
        · rw [hS] at he
          simp only [List.mem_singleton] at he
          subst he
          simp at ha
        · rw [h0] at he
          simp only [List.mem_cons, List.mem_singleton, List.not_mem_nil, or_false] at he
          rcases he with rfl | rfl
          · simp at ha
          · obtain ⟨u, v, hw, hu, hv⟩ := ih hm (Or.inr (Or.inr rfl))
            refine ⟨b :: u, v, by simp [hw], ?_, hv⟩
            intro b' hb'
            rcases List.mem_cons.1 hb' with rfl | hb'
            · exact hc
            · exact hu b' hb'
        · rw [h1] at he
          simp only [List.mem_singleton] at he
          subst he
          simp at ha
    exact key _ _ _ hp rfl (Or.inl rfl)
  · rintro ⟨u, v, rfl, hu, hv⟩
    have hk : nfa_path H k (u ++ v) (frag_end rest (k + 2)) := by
      induction u with
      | nil =>
        exact nfa_path.eps k _ _ ⟨0, true, frag_start rest (k + 2)⟩ (by rw [h0]; simp) rfl hv
      | cons b u ih =>
        have ih2 := ih (fun b' hb' => hu b' (List.mem_cons_of_mem _ hb'))
        refine nfa_path.consume k _ b _ ⟨c, false, k + 1⟩ (by rw [h0]; simp) rfl
          (hu b (List.mem_cons_self _ _)) ?_
        exact nfa_path.eps (k + 1) _ _ ⟨0, true, k⟩ (by rw [h1]; simp) rfl ih2
    exact nfa_path.eps _ _ _ ⟨0, true, k⟩ (by rw [hS]; simp) rfl hk

theorem frag_path_concat (H : List nfa_node) (k c d : Nat) (rest : List Nat) (hd : d ≠ 42)
    (hin : frag_in H k (c :: d :: rest)) (w : List Nat) :
    nfa_path H (frag_start (c :: d :: rest) k) w (frag_end (c :: d :: rest) k) ↔
      ∃ b v, w = b :: v ∧ char_match c b = true ∧
        nfa_path H (frag_start (d :: rest) (k + 2)) v (frag_end (d :: rest) (k + 2)) := by
  obtain ⟨h0, h1, -⟩ := frag_in_concat H k c d rest hd hin
  obtain ⟨hE1, hE2, -⟩ := frag_end_range (d :: rest).length (d :: rest) (k + 2) (Nat.le_refl _)
  have hst : frag_start (c :: d :: rest) k = k := by simp [frag_start, hd]
  have hen : frag_end (c :: d :: rest) k = frag_end (d :: rest) (k + 2) := by
    simp [frag_end, hd]
  rw [hst, hen]
  constructor
  · intro hp
    generalize hm : frag_end (d :: rest) (k + 2) = m at hp
    cases hp with
    | refl => omega
    | eps _ _ _ e he ha hp' =>
      rw [h0] at he
      simp only [List.mem_singleton] at he
      subst he
      simp at ha
    | consume _ _ b w' e he ha hc hp' =>
      rw [h0] at he
      simp only [List.mem_singleton] at he
      subst he
      refine ⟨b, w', rfl, hc, ?_⟩
      have hp2 : nfa_path H (k + 1) w' m := hp'
      cases hp2 with
      | refl => omega
      | eps _ _ _ e he ha hp'' =>
        rw [h1] at he
        simp only [List.mem_singleton] at he
        subst he
        exact hp''
      | consume _ _ _ _ e he ha _ _ =>
        rw [h1] at he
        simp only [List.mem_singleton] at he
        subst he
        simp at ha
  · rintro ⟨b, v, rfl, hc, hv⟩
    refine nfa_path.consume k _ b _ ⟨c, false, k + 1⟩ (by rw [h0]; simp) rfl hc ?_
    exact nfa_path.eps (k + 1) _ _ ⟨0, true, frag_start (d :: rest) (k + 2)⟩ (by rw [h1]; simp)
      rfl hv

theorem frag_path_iff (n : Nat) :
    ∀ (p : List Nat) (k : Nat) (H : List nfa_node), p.length ≤ n → frag_in H k p →
      ∀ w, nfa_path H (frag_start p k) w (frag_end p k) ↔ w ∈ pattern_lang p := by
  induction n with
  | zero =>
    intro p k H hl hin w
    match p, hl with
    | [], _ =>
      obtain ⟨h0, h1⟩ := frag_in_nil H k hin
      simp only [frag_start, frag_end, pattern_lang, Language.mem_one]
      constructor
      · intro hp
        generalize hm : k + 1 = m at hp
        cases hp with
        | refl => omega
        | eps _ _ _ e he ha hp' =>
          rw [h0] at he
          simp only [List.mem_singleton] at he
          subst he
          subst hm
          exact (nfa_path_of_no_edge H _ _ _ true h1 hp').1
        | consume _ _ _ _ e he ha _ _ =>
          rw [h0] at he
          simp only [List.mem_singleton] at he
          subst he
          simp at ha
      · rintro rfl
        exact nfa_path.eps k _ _ ⟨0, true, k + 1⟩ (by rw [h0]; simp) rfl (nfa_path.refl _)
  | succ n ih =>
    intro p k H hl hin w
    match p, hl with
    | [], _ =>
      obtain ⟨h0, h1⟩ := frag_in_nil H k hin
      simp only [frag_start, frag_end, pattern_lang, Language.mem_one]
      constructor
      · intro hp
        generalize hm : k + 1 = m at hp
        cases hp with
        | refl => omega
        | eps _ _ _ e he ha hp' =>
          rw [h0] at he
          simp only [List.mem_singleton] at he
          subst he
          subst hm
          exact (nfa_path_of_no_edge H _ _ _ true h1 hp').1
        | consume _ _ _ _ e he ha _ _ =>
          rw [h0] at he
          simp only [List.mem_singleton] at he
          subst he
          simp at ha
      · rintro rfl
        exact nfa_path.eps k _ _ ⟨0, true, k + 1⟩ (by rw [h0]; simp) rfl (nfa_path.refl _)
    | [c], _ =>
      obtain ⟨h0, h1⟩ := frag_in_single H k c hin
      simp only [frag_start, frag_end, pattern_lang, atom_lang, Set.mem_setOf_eq]
      constructor
      · intro hp
        generalize hm : k + 1 = m at hp
        cases hp with
        | refl => omega
        | eps _ _ _ e he ha hp' =>
          rw [h0] at he
          simp only [List.mem_singleton] at he
          subst he
          simp at ha
        | consume _ _ b w' e he ha hc hp' =>
          rw [h0] at he
          simp only [List.mem_singleton] at he
          subst he
          subst hm
          obtain ⟨hw, -⟩ := nfa_path_of_no_edge H _ _ _ true h1 hp'
          exact ⟨b, by rw [hw], hc⟩
      · rintro ⟨b, rfl, hc⟩
        exact nfa_path.consume k _ b _ ⟨c, false, k + 1⟩ (by rw [h0]; simp) rfl hc
          (nfa_path.refl _)
    | c :: d :: rest, hl =>
      by_cases hd : d = 42
      · subst hd
        obtain ⟨-, -, hrest, -⟩ := frag_in_star H k c rest hin
        have ihr := ih rest (k + 2) H (by simp at hl; omega) hrest
        rw [frag_path_star H k c rest hin w]
        simp only [pattern_lang, if_true, Language.mem_mul, mem_kstar_atom_lang]
        constructor
        · rintro ⟨u, v, rfl, hu, hv⟩
          exact ⟨u, hu, v, (ihr v).1 hv, rfl⟩
        · rintro ⟨u, hu, v, hv, rfl⟩
          exact ⟨u, v, rfl, hu, (ihr v).2 hv⟩
      · obtain ⟨-, -, htl⟩ := frag_in_concat H k c d rest hd hin
        have ihr := ih (d :: rest) (k + 2) H (by simp at hl ⊢; omega) htl
        rw [frag_path_concat H k c d rest hd hin w]
        simp only [pattern_lang, hd, if_false, Language.mem_mul, atom_lang, Set.mem_setOf_eq]
        constructor
        · rintro ⟨b, v, rfl, hc, hv⟩
          exact ⟨[b], ⟨b, rfl, hc⟩, v, (ihr v).1 hv, rfl⟩
        · rintro ⟨a, ⟨b, rfl, hc⟩, v, hv, rfl⟩
          exact ⟨b, v, rfl, hc, (ihr v).2 hv⟩

theorem simple_pattern_no_group (n : Nat) :
    ∀ p : List Nat, p.length ≤ n → simple_pattern p = true → 40 ∉ p := by
  induction n with
  | zero =>
    intro p hl _
    match p, hl with
    | [], _ => simp
  | succ n ih =>
    intro p hl hs
    match p, hl, hs with
    | [], _, _ => simp
    | [c], _, hs =>
      simp only [simple_pattern, is_atom, Bool.and_eq_true, bne_iff_ne, ne_eq] at hs
      simp only [List.mem_singleton]
      intro e
      exact hs.1.2 e.symm
    | c :: d :: rest, hl, hs =>
      simp only [simple_pattern, is_atom, Bool.and_eq_true, bne_iff_ne, ne_eq] at hs
      obtain ⟨hc, hrest⟩ := hs
      have hc40 : ¬ 40 = c := fun e => hc.1.2 e.symm
      by_cases hd : d = 42
      · subst hd
        rw [if_pos rfl] at hrest
        have := ih rest (by simp at hl; omega) hrest
        simp [hc40, this]
      · rw [if_neg hd] at hrest
        have := ih (d :: rest) (by simp at hl ⊢; omega) hrest
        simp only [List.mem_cons, not_or] at this ⊢
        exact ⟨hc40, this⟩

/-- C18: for every pattern built only from literal bytes, `.` and `*` applied to
the single atom before it, `generate_nfa` returns (with any fuel above the
length of the pattern) an NFA that has a path from its start node to its end
node whose consuming edges match the bytes of `w` in order exactly when `w` is in
the regular language denoted by the pattern. -/
theorem nfa_paths_are_pattern_language (p : List Nat) (fuel : Nat)
    (hp : simple_pattern p = true) (hf : p.length < fuel) :
    ∃ h re_nfa, generate_nfa fuel [] p = some (h, re_nfa) ∧
      ∀ w, nfa_path h re_nfa.start w re_nfa.end_ ↔ w ∈ pattern_lang p := by
  have h40 := simple_pattern_no_group p.length p (Nat.le_refl _) hp
  refine ⟨_, _, generate_nfa_layout fuel p [] h40 hf, ?_⟩
  intro w
  simp only [List.nil_append, List.length_nil]
  exact frag_path_iff p.length p 0 _ (Nat.le_refl _) (frag_in_self p) w

/-- Witness of C18: the pattern `a*b`. -/
theorem nfa_paths_are_pattern_language_witness :
    (simple_pattern (bytes "a*b") = true ∧ (bytes "a*b").length < 8) ∧
      ∃ h re_nfa, generate_nfa 8 [] (bytes "a*b") = some (h, re_nfa) ∧
        ∀ w, nfa_path h re_nfa.start w re_nfa.end_ ↔ w ∈ pattern_lang (bytes "a*b") :=
  ⟨by decide, nfa_paths_are_pattern_language (bytes "a*b") 8 (by decide) (by decide)⟩

/-! ### Patterns with a dangling `*` -/

theorem dangling_star_fuel8 :
    RE_gen_run 8 (bytes "*a") (bytes "*a") = some true ∧
      RE_gen_run 8 (bytes "*a") (bytes "a") = some false ∧
      RE_gen_run 8 (bytes "*") (bytes "*") = some true ∧
      RE_gen_run 8 (bytes "*") (bytes "a") = some false := by
  decide

/-- C15 as stated fails: `RE_gen` on the patterns `*` and `*a` reports no error
and returns a compiled regex; the one of `*a` matches the text `*a`. -/
theorem dangling_star_compiles :
    (∃ r, RE_gen 8 (bytes "*") = some r) ∧ (∃ r, RE_gen 8 (bytes "*a") = some r) ∧
      RE_gen_run 8 (bytes "*a") (bytes "*a") = some true :=
  ⟨⟨_, rfl⟩, ⟨_, rfl⟩, by decide⟩

/-- C15 amended: compiling a pattern with a dangling `*` does not fail.  For
every pattern without `(` that starts with `*`, `generate_nfa` returns an NFA in
which the leading `*` is the label of a consuming edge from node 0 to node 1, a
literal byte; `RE_gen` compiles `*a` into a regex that matches the text `*a` and
not the text `a`, and `*` into one that matches `*` and not `a`. -/
theorem dangling_star_is_literal (rest : List Nat) (fuel : Nat) (h40 : 40 ∉ rest)
    (hf : rest.length + 1 < fuel) (hf8 : 8 ≤ fuel) :
    (∃ h re_nfa, generate_nfa fuel [] (42 :: rest) = some (h, re_nfa) ∧
        (⟨42, false, 1⟩ : nfa_edge) ∈ (nfa_at h 0).next_l) ∧
      RE_gen_run fuel (bytes "*a") (bytes "*a") = some true ∧
      RE_gen_run fuel (bytes "*a") (bytes "a") = some false ∧
      RE_gen_run fuel (bytes "*") (bytes "*") = some true ∧
      RE_gen_run fuel (bytes "*") (bytes "a") = some false := by
  refine ⟨?_, RE_gen_run_mono hf8 _ _ _ dangling_star_fuel8.1,
    RE_gen_run_mono hf8 _ _ _ dangling_star_fuel8.2.1,
    RE_gen_run_mono hf8 _ _ _ dangling_star_fuel8.2.2.1,
    RE_gen_run_mono hf8 _ _ _ dangling_star_fuel8.2.2.2⟩
  have hp : 40 ∉ 42 :: rest := by
    simp only [List.mem_cons, not_or]
    exact ⟨by decide, h40⟩
  refine ⟨_, _, generate_nfa_layout fuel (42 :: rest) [] hp (by simpa using hf), ?_⟩
  match rest with
  | [] => simp [frag_nodes, nfa_at]
  | d :: r =>
    by_cases hd : d = 42
    · simp [frag_nodes, nfa_at, hd]
    · simp [frag_nodes, nfa_at, hd]

/-- Witness of C15 amended: the pattern `*a` with fuel 8. -/
theorem dangling_star_is_literal_witness :
    (40 ∉ bytes "a" ∧ (bytes "a").length + 1 < 8 ∧ 8 ≤ 8) ∧
      (∃ h re_nfa, generate_nfa 8 [] (42 :: bytes "a") = some (h, re_nfa) ∧
        (⟨42, false, 1⟩ : nfa_edge) ∈ (nfa_at h 0).next_l) ∧
      RE_gen_run 8 (bytes "*a") (bytes "*a") = some true ∧
      RE_gen_run 8 (bytes "*a") (bytes "a") = some false ∧
      RE_gen_run 8 (bytes "*") (bytes "*") = some true ∧
      RE_gen_run 8 (bytes "*") (bytes "a") = some false :=
  ⟨by decide, dangling_star_is_literal (bytes "a") 8 (by decide) (by decide) (by decide)⟩

/-! ### DFA nodes and the NFA node lists they stand for -/

theorem isend_dfa_push_edge (dh : List dfa_node) (p c n q : Nat) :
    (dfa_at (dfa_push_edge dh p c n) q).isend = (dfa_at dh q).isend := by
  rw [dfa_at_push_edge]
  by_cases h : q = p ∧ p < dh.length
  · rw [if_pos h, h.1]
  · rw [if_neg h]

theorem entry_ok_push_edge (h : List nfa_node) (dh : List dfa_node) (p c n : Nat)
    (w : dfagen_node) (hw : entry_ok h dh w) : entry_ok h (dfa_push_edge dh p c n) w := by
  unfold entry_ok at hw ⊢
  rw [length_dfa_push_edge, isend_dfa_push_edge]
  exact hw

theorem entry_ok_append (h : List nfa_node) (dh : List dfa_node) (x : dfa_node)
    (w : dfagen_node) (hw : entry_ok h dh w) : entry_ok h (dh ++ [x]) w := by
  unfold entry_ok at hw ⊢
  rw [dfa_at_append, if_pos hw.1]
  exact ⟨by simp; omega, hw.2⟩

theorem conn_ok_insert (h : List nfa_node) (conns : List nfa_2dlist) (cond_ch : Nat)
    (isend : Bool) (nfas : List Nat) (hc : ∀ c ∈ conns, conn_ok h c)
    (hn : isend = true ↔ ∃ m ∈ nfas, (nfa_at h m).isend = true) :
    ∀ c ∈ insert_into_conns conns cond_ch isend nfas, conn_ok h c := by
  have hmerge : ∀ c ∈ conns.map (fun it =>
      if it.cond_ch = cond_ch then
        ({ it with nfas := union_into_nfa_list it.nfas (copy_nfa_list nfas),
                   isend := it.isend || isend } : nfa_2dlist)
      else it), conn_ok h c := by
    intro c hcm
    obtain ⟨it, hit, rfl⟩ := List.mem_map.1 hcm
    have hok := hc it hit
    by_cases he : it.cond_ch = cond_ch
    · rw [if_pos he]
      unfold conn_ok at hok ⊢
      simp only [Bool.or_eq_true, hok, hn, mem_union_into_nfa_list, mem_copy_nfa_list]
      constructor
      · rintro (⟨m, hm, ha⟩ | ⟨m, hm, ha⟩)
        · exact ⟨m, Or.inl hm, ha⟩
        · exact ⟨m, Or.inr hm, ha⟩
      · rintro ⟨m, hm | hm, ha⟩
        · exact Or.inl ⟨m, hm, ha⟩
        · exact Or.inr ⟨m, hm, ha⟩
    · rw [if_neg he]
      exact hok
  intro c hcm
  unfold insert_into_conns at hcm
  by_cases hf : conns.any (fun it => it.cond_ch == cond_ch) = true
  · simp only [hf, if_true] at hcm
    exact hmerge c hcm
  · simp only [hf, Bool.false_eq_true, if_false, List.mem_cons] at hcm
    rcases hcm with rfl | hcm
    · unfold conn_ok
      simp only [mem_copy_nfa_list]
      exact hn
    · exact hmerge c hcm

theorem conns_of_edges_ok (h : List nfa_node) (fuel : Nat) (es : List nfa_edge) :
    ∀ (conns out : List nfa_2dlist), (∀ c ∈ conns, conn_ok h c) →
      conns_of_edges h fuel es conns = some out → ∀ c ∈ out, conn_ok h c := by
  induction es with
  | nil =>
    intro conns out hc he
    simp only [conns_of_edges, Option.some.injEq] at he
    exact he ▸ hc
  | cons e es ih =>
    intro conns out hc he
    unfold conns_of_edges at he
    by_cases ha : e.always = true
    · rw [if_pos ha] at he
      exact ih conns out hc he
    · rw [if_neg ha] at he
      cases hg : always_group h fuel e.node with
      | none => simp [hg] at he
      | some alw_g =>
        rw [hg] at he
        exact ih _ out
          (conn_ok_insert h conns _ _ _ hc (always_group_isend_iff h fuel _ _ hg)) he

theorem conns_of_nodes_ok (h : List nfa_node) (fuel : Nat) (ns : List Nat) :
    ∀ (conns out : List nfa_2dlist), (∀ c ∈ conns, conn_ok h c) →
      conns_of_nodes h fuel ns conns = some out → ∀ c ∈ out, conn_ok h c := by
  induction ns with
  | nil =>
    intro conns out hc he
    simp only [conns_of_nodes, Option.some.injEq] at he
    exact he ▸ hc
  | cons n ns ih =>
    intro conns out hc he
    unfold conns_of_nodes at he
    cases hce : conns_of_edges h fuel (nfa_at h n).next_l conns with
    | none => simp [hce] at he
    | some conns1 =>
      rw [hce] at he
      exact ih conns1 out (conns_of_edges_ok h fuel _ conns conns1 hc hce) he

theorem link_conns_ok (h : List nfa_node) (closure : List Nat) (curr : Nat)
    (cs : List nfa_2dlist) :
    ∀ s : dfagen_state, state_ok h closure s → (∀ c ∈ cs, conn_ok h c) →
      state_ok h closure (link_conns curr cs s) := by
  induction cs with
  | nil =>
    intro s hs _
    simpa [link_conns] using hs
  | cons c cs ih =>
    intro s hs hc
    obtain ⟨h1, h2, w0, hw0, hw0n, hw0m⟩ := hs
    have hcs : ∀ c' ∈ cs, conn_ok h c' := fun c' hc' => hc c' (List.mem_cons_of_mem _ hc')
    unfold link_conns
    cases hfind : find_dfagen_node s.worked_list c.nfas with
    | some tmp =>
      simp only []
      apply ih _ _ hcs
      refine ⟨?_, ?_, w0, hw0, hw0n, hw0m⟩
      · intro w hw
        exact entry_ok_push_edge h _ _ _ _ w (h1 w hw)
      · intro i hi
        rw [length_dfa_push_edge] at hi
        exact h2 i hi
    | none =>
      simp only [insert_into_dfagen_list, set_last_append]
      have hlen : (s.dheap ++ [(⟨c.isend, []⟩ : dfa_node)]).length - 1 = s.dheap.length := by
        simp
      rw [hlen]
      apply ih _ _ hcs
      refine ⟨?_, ?_, w0, ?_, hw0n, hw0m⟩
      · intro w hw
        apply entry_ok_push_edge
        simp only [List.mem_cons] at hw
        rcases hw with (rfl | hw) | hw
        · unfold entry_ok
          simp only [List.length_append, List.length_singleton, dfa_at_append,
            Nat.lt_irrefl, if_false, if_true, mem_copy_nfa_list]
          exact ⟨by omega, hc c (List.mem_cons_self _ _)⟩
        · exact entry_ok_append h _ _ w (h1 w (Or.inl hw))
        · exact entry_ok_append h _ _ w (h1 w (Or.inr hw))
      · intro i hi
        simp only [length_dfa_push_edge, List.length_append, List.length_singleton] at hi
        by_cases hil : i < s.dheap.length
        · obtain ⟨w, hw, hwn⟩ := h2 i hil
          refine ⟨w, ?_, hwn⟩
          rcases hw with hw | hw
          · exact Or.inl (List.mem_cons_of_mem _ hw)
          · exact Or.inr hw
        · exact ⟨⟨copy_nfa_list c.nfas, s.dheap.length⟩, Or.inl (List.mem_cons_self _ _),
            by simp only []; omega⟩
      · rcases hw0 with hw | hw
        · exact Or.inl (List.mem_cons_of_mem _ hw)
        · exact Or.inr hw

theorem nfa_to_dfa_step_ok (h : List nfa_node) (closure : List Nat) (fuel : Nat)
    (s s1 : dfagen_state) (w : dfagen_node) (tmp : List dfagen_node)
    (hw : s.worklist = w :: tmp) (hs : state_ok h closure s)
    (hstep : nfa_to_dfa_step h fuel s w tmp = some s1) : state_ok h closure s1 := by
  unfold nfa_to_dfa_step at hstep
  cases hc : conns_of_nodes h fuel w.nfas [] with
  | none => simp [hc] at hstep
  | some conns =>
    rw [hc] at hstep
    simp only [Option.some.injEq] at hstep
    rw [← hstep]
    obtain ⟨h1, h2, w0, hw0, hw0n, hw0m⟩ := hs
    rw [hw] at h1 h2 hw0
    have hwok := h1 w (Or.inl (List.mem_cons_self _ _))
    apply link_conns_ok h closure w.node conns _ _
      (conns_of_nodes_ok h fuel w.nfas [] conns (by simp) hc)
    refine ⟨?_, ?_, ?_⟩
    · intro w' hw'
      simp only [insert_node_into_dfagen_list, List.mem_cons] at hw'
      rcases hw' with hw' | rfl | hw'
      · exact h1 w' (Or.inl (List.mem_cons_of_mem _ hw'))
      · unfold entry_ok at hwok ⊢
        simp only [mem_copy_nfa_list]
        exact hwok
      · exact h1 w' (Or.inr hw')
    · intro i hi
      obtain ⟨w', hw', hwn⟩ := h2 i hi
      simp only [List.mem_cons] at hw'
      rcases hw' with (rfl | hw') | hw'
      · exact ⟨⟨copy_nfa_list w'.nfas, w'.node⟩,
          Or.inr (by simp [insert_node_into_dfagen_list]), hwn⟩
      · exact ⟨w', Or.inl hw', hwn⟩
      · exact ⟨w', Or.inr (by simp [insert_node_into_dfagen_list, hw']), hwn⟩
    · simp only [List.mem_cons] at hw0
      rcases hw0 with (rfl | hw0) | hw0
      · refine ⟨⟨copy_nfa_list w0.nfas, w0.node⟩,
          Or.inr (by simp [insert_node_into_dfagen_list]), hw0n, ?_⟩
        intro m
        simp only [mem_copy_nfa_list]
        exact hw0m m
      · exact ⟨w0, Or.inl hw0, hw0n, hw0m⟩
      · exact ⟨w0, Or.inr (by simp [insert_node_into_dfagen_list, hw0]), hw0n, hw0m⟩

theorem nfa_to_dfa_loop_ok (h : List nfa_node) (closure : List Nat) (fuel : Nat) (n : Nat) :
    ∀ s s1 : dfagen_state, state_ok h closure s → nfa_to_dfa_loop h fuel n s = some s1 →
      state_ok h closure s1 ∧ s1.worklist = [] := by
  induction n with
  | zero =>
    intro s s1 _ hl
    simp [nfa_to_dfa_loop] at hl
  | succ n ih =>
    intro s s1 hs hl
    unfold nfa_to_dfa_loop at hl
    cases hw : s.worklist with
    | nil =>
      rw [hw] at hl
      simp only [Option.some.injEq] at hl
      subst hl
      exact ⟨hs, hw⟩
    | cons w tmp =>
      rw [hw] at hl
      simp only [] at hl
      cases hstep : nfa_to_dfa_step h fuel s w tmp with
      | none => simp [hstep] at hl
      | some s2 =>
        rw [hstep] at hl
        exact ih s2 s1 (nfa_to_dfa_step_ok h closure fuel s s2 w tmp hw hs hstep) hl

theorem nfa_to_dfa_of_state (h : List nfa_node) (fuel : Nat) (nfa_in : nfa) (s : dfagen_state)
    (hs : nfa_to_dfa_state h fuel nfa_in = some s) :
    nfa_to_dfa h fuel nfa_in = some (s.dheap, ⟨s.num_nodes, 0⟩) := by
  unfold nfa_to_dfa_state at hs
  unfold nfa_to_dfa
  cases hg : always_group h fuel nfa_in.start with
  | none => simp [hg] at hs
  | some alw_g =>
    rw [hg] at hs
    simp only [] at hs ⊢
    rw [hs]

/-- C19: when the loop of `nfa_to_dfa` ends, the NFA node list kept for the DFA
start node (node 0) lists exactly the epsilon closure of the NFA start node,
every DFA node of the result has such a list, and every DFA node is accepting
exactly when its list contains an accepting NFA node. -/
theorem dfa_nodes_accept_iff_set (h : List nfa_node) (fuel : Nat) (nfa_in : nfa)
    (s : dfagen_state) (hs : nfa_to_dfa_state h fuel nfa_in = some s) :
    nfa_to_dfa h fuel nfa_in = some (s.dheap, ⟨s.num_nodes, 0⟩) ∧
      (∃ w ∈ s.worked_list, w.node = 0 ∧ ∀ m, m ∈ w.nfas ↔ eps_reach h nfa_in.start m) ∧
      (∀ i, i < s.dheap.length → ∃ w ∈ s.worked_list, w.node = i) ∧
      ∀ w ∈ s.worked_list, w.node < s.dheap.length ∧
        ((dfa_at s.dheap w.node).isend = true ↔ ∃ m ∈ w.nfas, (nfa_at h m).isend = true) := by
  refine ⟨nfa_to_dfa_of_state h fuel nfa_in s hs, ?_⟩
  unfold nfa_to_dfa_state at hs
  cases hg : always_group h fuel nfa_in.start with
  | none => simp [hg] at hs
  | some alw_g =>
    rw [hg] at hs
    simp only [insert_into_dfagen_list, List.nil_append, List.length_nil] at hs
    obtain ⟨hmem, hend⟩ := always_group_spec h fuel _ _ hg
    have hinit : state_ok h alw_g.nfas
        ⟨[⟨alw_g.isend, []⟩], [⟨copy_nfa_list alw_g.nfas, 0⟩], [], 1⟩ := by
      refine ⟨?_, ?_, ⟨copy_nfa_list alw_g.nfas, 0⟩, by simp, rfl, ?_⟩
      · intro w hw
        simp only [List.mem_singleton, List.not_mem_nil, or_false] at hw
        subst hw
        unfold entry_ok
        simp only [List.length_singleton, Nat.lt_one_iff, mem_copy_nfa_list, true_and]
        simpa [dfa_at] using always_group_isend_iff h fuel _ _ hg
      · intro i hi
        have hi0 : i = 0 := by simpa using hi
        exact ⟨⟨copy_nfa_list alw_g.nfas, 0⟩, by simp, hi0.symm⟩
      · intro m
        simp [mem_copy_nfa_list]
    obtain ⟨⟨h1, h2, w0, hw0, hw0n, hw0m⟩, hwl⟩ :=
      nfa_to_dfa_loop_ok h alw_g.nfas fuel fuel _ s hinit hs
    rw [hwl] at h1 h2 hw0
    simp only [List.not_mem_nil, false_or] at h1 h2 hw0
    refine ⟨⟨w0, hw0, hw0n, ?_⟩, ?_, h1⟩
    · intro m
      rw [hw0m m]
      exact hmem m
    · intro i hi
      obtain ⟨w, hw, hwn⟩ := h2 i hi
      exact ⟨w, hw, hwn⟩

/-- Witness of C19: the NFA and the DFA of the pattern `a*b`. -/
theorem dfa_nodes_accept_iff_set_witness :
    nfa_to_dfa_state nh_astar_b 8 ⟨5, 4, 3⟩ =
        some ⟨dh_astar_b, [], [⟨[3], 1⟩, ⟨[3], 3⟩, ⟨[1, 0, 2], 2⟩, ⟨[2, 0, 4], 0⟩], 4⟩ ∧
      nfa_to_dfa nh_astar_b 8 ⟨5, 4, 3⟩ = some (dh_astar_b, ⟨4, 0⟩) ∧
      (∃ w ∈ [(⟨[3], 1⟩ : dfagen_node), ⟨[3], 3⟩, ⟨[1, 0, 2], 2⟩, ⟨[2, 0, 4], 0⟩],
        w.node = 0 ∧ ∀ m, m ∈ w.nfas ↔ eps_reach nh_astar_b 4 m) ∧
      (∀ i, i < dh_astar_b.length →
        ∃ w ∈ [(⟨[3], 1⟩ : dfagen_node), ⟨[3], 3⟩, ⟨[1, 0, 2], 2⟩, ⟨[2, 0, 4], 0⟩], w.node = i) ∧
      ∀ w ∈ [(⟨[3], 1⟩ : dfagen_node), ⟨[3], 3⟩, ⟨[1, 0, 2], 2⟩, ⟨[2, 0, 4], 0⟩],
        w.node < dh_astar_b.length ∧
          ((dfa_at dh_astar_b w.node).isend = true ↔
            ∃ m ∈ w.nfas, (nfa_at nh_astar_b m).isend = true) :=
  ⟨by decide,
    dfa_nodes_accept_iff_set nh_astar_b 8 ⟨5, 4, 3⟩
      ⟨dh_astar_b, [], [⟨[3], 1⟩, ⟨[3], 3⟩, ⟨[1, 0, 2], 2⟩, ⟨[2, 0, 4], 0⟩], 4⟩ (by decide)⟩

/-- The release traversals that `RE_gen` and `RE_destroy` run for the pattern
`a*b` release every node once. -/
theorem free_nfa_astar_b :
    free_nfa nh_astar_b ⟨5, 4, 3⟩ = some [4, 0, 2, 1, 3] ∧
      free_dfa dh_astar_b ⟨4, 0⟩ = some [0, 2, 1, 3] := by
  decide

/-! ### Shape of the NFA of a pattern without groups -/

/-- C24: `generate_nfa` on the empty pattern returns an automaton with
`num_nodes = 2` whose non-accepting start node 0 has exactly one outgoing edge,
an epsilon edge to the accepting end node 1; on a one-byte pattern `c` it
returns an automaton with `num_nodes = 2` whose start node 0 has exactly one
outgoing edge, a consuming edge labelled `c` to the accepting end node 1. -/
theorem generate_nfa_base_cases (fuel c : Nat) (hf : 1 ≤ fuel) :
    generate_nfa fuel [] [] =
        some ([⟨false, [⟨0, true, 1⟩]⟩, ⟨true, []⟩], ⟨2, 0, 1⟩) ∧
      generate_nfa fuel [] [c] =
        some ([⟨false, [⟨c, false, 1⟩]⟩, ⟨true, []⟩], ⟨2, 0, 1⟩) := by
  obtain ⟨f, rfl⟩ : ∃ f, fuel = f + 1 := ⟨fuel - 1, by omega⟩
  constructor
  · simp [generate_nfa, insert_nfa_edge]
  · simp [generate_nfa, insert_nfa_edge]

/-- Witness of C24: fuel 1 and the byte `a`. -/
theorem generate_nfa_base_cases_witness :
    1 ≤ 1 ∧
      generate_nfa 1 [] [] =
        some ([⟨false, [⟨0, true, 1⟩]⟩, ⟨true, []⟩], ⟨2, 0, 1⟩) ∧
      generate_nfa 1 [] [97] =
        some ([⟨false, [⟨97, false, 1⟩]⟩, ⟨true, []⟩], ⟨2, 0, 1⟩) :=
  ⟨by decide, generate_nfa_base_cases 1 97 (by decide)⟩

theorem frag_isend (n : Nat) :
    ∀ (p : List Nat) (k : Nat) (H : List nfa_node), p.length ≤ n → frag_in H k p →
      ∀ i, i < frag_size p → ((nfa_at H (k + i)).isend = true ↔ k + i = frag_end p k) := by
  induction n with
  | zero =>
    intro p k H hl hin i hi
    match p, hl with
    | [], _ =>
      obtain ⟨h0, h1⟩ := frag_in_nil H k hin
      have hi2 : i = 0 ∨ i = 1 := by simp [frag_size] at hi; omega
      rcases hi2 with rfl | rfl
      · simp [h0, frag_end]
      · simp [h1, frag_end]
  | succ n ih =>
    intro p k H hl hin i hi
    match p, hl with
    | [], _ =>
      obtain ⟨h0, h1⟩ := frag_in_nil H k hin
      have hi2 : i = 0 ∨ i = 1 := by simp [frag_size] at hi; omega
      rcases hi2 with rfl | rfl
      · simp [h0, frag_end]
      · simp [h1, frag_end]
    | [c], _ =>
      obtain ⟨h0, h1⟩ := frag_in_single H k c hin
      have hi2 : i = 0 ∨ i = 1 := by simp [frag_size] at hi; omega
      rcases hi2 with rfl | rfl
      · simp [h0, frag_end]
      · simp [h1, frag_end]
    | c :: d :: rest, hl =>
      by_cases hd : d = 42
      · subst hd
        obtain ⟨h0, h1, hrest, hS⟩ := frag_in_star H k c rest hin
        have hsz : frag_size (c :: 42 :: rest) = 3 + frag_size rest := by simp [frag_size]
        have hen : frag_end (c :: 42 :: rest) k = frag_end rest (k + 2) := by simp [frag_end]
        obtain ⟨hE1, hE2, -⟩ := frag_end_range rest.length rest (k + 2) (Nat.le_refl _)
        rw [hen]
        by_cases hi0 : i = 0
        · subst hi0
          rw [Nat.add_zero, h0]
          simp
          omega
        by_cases hi1 : i = 1
        · subst hi1
          rw [h1]
          simp
          omega
        by_cases hi2 : i = 2 + frag_size rest
        · subst hi2
          rw [show k + (2 + frag_size rest) = k + 2 + frag_size rest by omega, hS]
          simp
          omega
        · have := ih rest (k + 2) H (by simp at hl; omega) hrest (i - 2) (by omega)
          rw [show k + 2 + (i - 2) = k + i by omega] at this
          exact this
      · obtain ⟨h0, h1, htl⟩ := frag_in_concat H k c d rest hd hin
        have hsz : frag_size (c :: d :: rest) = 2 + frag_size (d :: rest) := by
          simp [frag_size, hd]
        have hen : frag_end (c :: d :: rest) k = frag_end (d :: rest) (k + 2) := by
          simp [frag_end, hd]
        obtain ⟨hE1, hE2, -⟩ := frag_end_range (d :: rest).length (d :: rest) (k + 2)
          (Nat.le_refl _)
        rw [hen]
        by_cases hi0 : i = 0
        · subst hi0
          rw [Nat.add_zero, h0]
          simp
          omega
        by_cases hi1 : i = 1
        · subst hi1
          rw [h1]
          simp
          omega
        · have := ih (d :: rest) (k + 2) H (by simp at hl ⊢; omega) htl (i - 2) (by omega)
          rw [show k + 2 + (i - 2) = k + i by omega] at this
          exact this

theorem nfa_at_out_of_range (H : List nfa_node) (n : Nat) (hn : H.length ≤ n) :
    nfa_at H n = ⟨false, []⟩ := by
  unfold nfa_at
  rw [List.getD_eq_getElem?_getD, List.getElem?_eq_none hn]
  rfl

/-- C23: for every pattern without parentheses, the NFA returned by
`generate_nfa` has exactly one accepting node: the node recorded as the end of
the automaton, which has no outgoing edge; every other node is non-accepting. -/
theorem end_is_only_accepting_node (p : List Nat) (fuel : Nat) (h : List nfa_node)
    (re_nfa : nfa) (hp : 40 ∉ p) (hg : generate_nfa fuel [] p = some (h, re_nfa)) :
    re_nfa.end_ < h.length ∧ nfa_at h re_nfa.end_ = ⟨true, []⟩ ∧
      ∀ n, (nfa_at h n).isend = true ↔ n = re_nfa.end_ := by
  have hr := generate_nfa_eq_layout p hp fuel [] _ hg
  simp only [List.nil_append, List.length_nil, Prod.mk.injEq] at hr
  obtain ⟨hh, hn⟩ := hr
  subst hh
  subst hn
  obtain ⟨hE1, hE2, -⟩ := frag_end_range p.length p 0 (Nat.le_refl _)
  simp only [frag_nodes_len]
  refine ⟨by omega, frag_end_node p.length p 0 _ (Nat.le_refl _) (frag_in_self p), ?_⟩
  intro n
  by_cases hlt : n < frag_size p
  · have := frag_isend p.length p 0 _ (Nat.le_refl _) (frag_in_self p) n hlt
    simpa using this
  · rw [nfa_at_out_of_range _ n (by rw [frag_nodes_len]; omega)]
    simp
    omega

/-- Witness of C23: the NFA of `a*b`, whose only accepting node is node 3. -/
theorem end_is_only_accepting_node_witness :
    (40 ∉ bytes "a*b" ∧ generate_nfa 8 [] (bytes "a*b") = some (nh_astar_b, ⟨5, 4, 3⟩)) ∧
      3 < nh_astar_b.length ∧ nfa_at nh_astar_b 3 = ⟨true, []⟩ ∧
      ∀ n, (nfa_at nh_astar_b n).isend = true ↔ n = 3 :=
  ⟨by decide,
    end_is_only_accepting_node (bytes "a*b") 8 nh_astar_b ⟨5, 4, 3⟩ (by decide) (by decide)⟩

theorem frag_edge_range (n : Nat) :
    ∀ (p : List Nat) (k : Nat) (H : List nfa_node), p.length ≤ n → frag_in H k p →
      ∀ i, i < frag_size p → ∀ e ∈ (nfa_at H (k + i)).next_l,
        k ≤ e.node ∧ e.node < k + frag_size p := by
  induction n with
  | zero =>
    intro p k H hl hin i hi e he
    match p, hl with
    | [], _ =>
      obtain ⟨h0, h1⟩ := frag_in_nil H k hin
      have hi2 : i = 0 ∨ i = 1 := by simp [frag_size] at hi; omega
      rcases hi2 with rfl | rfl
      · rw [Nat.add_zero, h0] at he
        simp at he
        simp [he, frag_size]
      · rw [h1] at he
        simp at he
  | succ n ih =>
    intro p k H hl hin i hi e he
    match p, hl with
    | [], _ =>
      obtain ⟨h0, h1⟩ := frag_in_nil H k hin
      have hi2 : i = 0 ∨ i = 1 := by simp [frag_size] at hi; omega
      rcases hi2 with rfl | rfl
      · rw [Nat.add_zero, h0] at he
        simp at he
        simp [he, frag_size]
      · rw [h1] at he
        simp at he
    | [c], _ =>
      obtain ⟨h0, h1⟩ := frag_in_single H k c hin
      have hi2 : i = 0 ∨ i = 1 := by simp [frag_size] at hi; omega
      rcases hi2 with rfl | rfl
      · rw [Nat.add_zero, h0] at he
        simp at he
        simp [he, frag_size]
      · rw [h1] at he
        simp at he
    | c :: d :: rest, hl =>
      by_cases hd : d = 42
      · subst hd
        obtain ⟨h0, h1, hrest, hS⟩ := frag_in_star H k c rest hin
        have hsz : frag_size (c :: 42 :: rest) = 3 + frag_size rest := by simp [frag_size]
        obtain ⟨hs1, hs2⟩ := frag_start_range rest (k + 2)
        rw [hsz]
        by_cases hi0 : i = 0
        · subst hi0
          rw [Nat.add_zero, h0] at he
          simp at he
          rcases he with rfl | rfl
          · simp only []
            omega
          · simp only []
            omega
        by_cases hi1 : i = 1
        · subst hi1
          rw [h1] at he
          simp at he
          subst he
          simp only []
          omega
        by_cases hi2 : i = 2 + frag_size rest
        · subst hi2
          rw [show k + (2 + frag_size rest) = k + 2 + frag_size rest by omega, hS] at he
          simp at he
          subst he
          simp only []
          omega
        · have := ih rest (k + 2) H (by simp at hl; omega) hrest (i - 2) (by omega) e
            (by rw [show k + 2 + (i - 2) = k + i by omega]; exact he)
          omega
      · obtain ⟨h0, h1, htl⟩ := frag_in_concat H k c d rest hd hin
        have hsz : frag_size (c :: d :: rest) = 2 + frag_size (d :: rest) := by
          simp [frag_size, hd]
        obtain ⟨hs1, hs2⟩ := frag_start_range (d :: rest) (k + 2)
        rw [hsz]
        by_cases hi0 : i = 0
        · subst hi0
          rw [Nat.add_zero, h0] at he
          simp at he
          subst he
          simp only []
          omega
        by_cases hi1 : i = 1
        · subst hi1
          rw [h1] at he
          simp at he
          subst he
          simp only []
          omega
        · have := ih (d :: rest) (k + 2) H (by simp at hl ⊢; omega) htl (i - 2) (by omega) e
            (by rw [show k + 2 + (i - 2) = k + i by omega]; exact he)
          omega

theorem nfa_reach_edge (H : List nfa_node) (a n m : Nat) (e : nfa_edge)
    (ha : nfa_reach H a n) (he : e ∈ (nfa_at H n).next_l) (hm : e.node = m) :
    nfa_reach H a m :=
  Relation.ReflTransGen.tail ha ⟨e, he, hm⟩

theorem frag_all_reachable (n : Nat) :
    ∀ (p : List Nat) (k : Nat) (H : List nfa_node), p.length ≤ n → frag_in H k p →
      ∀ i, i < frag_size p → nfa_reach H (frag_start p k) (k + i) := by
  induction n with
  | zero =>
    intro p k H hl hin i hi
    match p, hl with
    | [], _ =>
      obtain ⟨h0, h1⟩ := frag_in_nil H k hin
      have hi2 : i = 0 ∨ i = 1 := by simp [frag_size] at hi; omega
      rcases hi2 with rfl | rfl
      · exact Relation.ReflTransGen.refl
      · exact nfa_reach_edge H k k (k + 1) ⟨0, true, k + 1⟩ Relation.ReflTransGen.refl
          (by rw [h0]; simp) rfl
  | succ n ih =>
    intro p k H hl hin i hi
    match p, hl with
    | [], _ =>
      obtain ⟨h0, h1⟩ := frag_in_nil H k hin
      have hi2 : i = 0 ∨ i = 1 := by simp [frag_size] at hi; omega
      rcases hi2 with rfl | rfl
      · exact Relation.ReflTransGen.refl
      · exact nfa_reach_edge H k k (k + 1) ⟨0, true, k + 1⟩ Relation.ReflTransGen.refl
          (by rw [h0]; simp) rfl
    | [c], _ =>
      obtain ⟨h0, h1⟩ := frag_in_single H k c hin
      have hi2 : i = 0 ∨ i = 1 := by simp [frag_size] at hi; omega
      rcases hi2 with rfl | rfl
      · exact Relation.ReflTransGen.refl
      · exact nfa_reach_edge H k k (k + 1) ⟨c, false, k + 1⟩ Relation.ReflTransGen.refl
          (by rw [h0]; simp) rfl
    | c :: d :: rest, hl =>
      by_cases hd : d = 42
      · subst hd
        obtain ⟨h0, h1, hrest, hS⟩ := frag_in_star H k c rest hin
        have hsz : frag_size (c :: 42 :: rest) = 3 + frag_size rest := by simp [frag_size]
        have hst : frag_start (c :: 42 :: rest) k = k + 2 + frag_size rest := by
          simp [frag_start]
        rw [hst]
        have r0 : nfa_reach H (k + 2 + frag_size rest) k :=
          nfa_reach_edge H _ _ k ⟨0, true, k⟩ Relation.ReflTransGen.refl (by rw [hS]; simp) rfl
        have r1 : nfa_reach H (k + 2 + frag_size rest) (k + 1) :=
          nfa_reach_edge H _ k (k + 1) ⟨c, false, k + 1⟩ r0 (by rw [h0]; simp) rfl
        have r2 : nfa_reach H (k + 2 + frag_size rest) (frag_start rest (k + 2)) :=
          nfa_reach_edge H _ k _ ⟨0, true, frag_start rest (k + 2)⟩ r0 (by rw [h0]; simp) rfl
        by_cases hi0 : i = 0
        · subst hi0
          exact r0
        by_cases hi1 : i = 1
        · subst hi1
          exact r1
        by_cases hi2 : i = 2 + frag_size rest
        · subst hi2
          rw [show k + (2 + frag_size rest) = k + 2 + frag_size rest by omega]
          exact Relation.ReflTransGen.refl
        · have := ih rest (k + 2) H (by simp at hl; omega) hrest (i - 2) (by omega)
          rw [show k + 2 + (i - 2) = k + i by omega] at this
          exact Relation.ReflTransGen.trans r2 this
      · obtain ⟨h0, h1, htl⟩ := frag_in_concat H k c d rest hd hin
        have hsz : frag_size (c :: d :: rest) = 2 + frag_size (d :: rest) := by
          simp [frag_size, hd]
        have hst : frag_start (c :: d :: rest) k = k := by simp [frag_start, hd]
        rw [hst]
        have r1 : nfa_reach H k (k + 1) :=
          nfa_reach_edge H k k (k + 1) ⟨c, false, k + 1⟩ Relation.ReflTransGen.refl
            (by rw [h0]; simp) rfl
        have r2 : nfa_reach H k (frag_start (d :: rest) (k + 2)) :=
          nfa_reach_edge H k (k + 1) _ ⟨0, true, frag_start (d :: rest) (k + 2)⟩ r1
            (by rw [h1]; simp) rfl
        by_cases hi0 : i = 0
        · subst hi0
          exact Relation.ReflTransGen.refl
        by_cases hi1 : i = 1
        · subst hi1
          exact r1
        · have := ih (d :: rest) (k + 2) H (by simp at hl ⊢; omega) htl (i - 2) (by omega)
          rw [show k + 2 + (i - 2) = k + i by omega] at this
          exact Relation.ReflTransGen.trans r2 this

/-- C26: for every pattern without parentheses, `num_nodes` of the NFA returned
by `generate_nfa` is the number of nodes allocated, and the nodes reachable from
the start node are exactly these: their number is `num_nodes`. -/
theorem nfa_num_nodes_counts_reachable (p : List Nat) (fuel : Nat) (h : List nfa_node)
    (re_nfa : nfa) (hp : 40 ∉ p) (hg : generate_nfa fuel [] p = some (h, re_nfa)) :
    re_nfa.num_nodes = h.length ∧
      (∀ n, nfa_reach h re_nfa.start n ↔ n < re_nfa.num_nodes) ∧
      Set.ncard {n | nfa_reach h re_nfa.start n} = re_nfa.num_nodes := by
  have hr := generate_nfa_eq_layout p hp fuel [] _ hg
  simp only [List.nil_append, List.length_nil, Prod.mk.injEq] at hr
  obtain ⟨hh, hn⟩ := hr
  subst hh
  subst hn
  simp only [frag_nodes_len]
  have hiff : ∀ n, nfa_reach (frag_nodes p 0) (frag_start p 0) n ↔ n < frag_size p := by
    intro n
    constructor
    · intro hreach
      induction hreach with
      | refl =>
        have := (frag_start_range p 0).2
        omega
      | tail _ hstep ih =>
        obtain ⟨e, he, rfl⟩ := hstep
        have := frag_edge_range p.length p 0 _ (Nat.le_refl _) (frag_in_self p) _ ih e
          (by rw [Nat.zero_add]; exact he)
        omega
    · intro hlt
      have := frag_all_reachable p.length p 0 _ (Nat.le_refl _) (frag_in_self p) n hlt
      rwa [Nat.zero_add] at this
  refine ⟨trivial, hiff, ?_⟩
  have hset : {n | nfa_reach (frag_nodes p 0) (frag_start p 0) n} =
      ((Finset.range (frag_size p) : Finset Nat) : Set Nat) := by
    ext n
    simp [hiff]
  rw [hset, Set.ncard_coe_Finset, Finset.card_range]

/-- Witness of C26: the NFA of `a*b` has `num_nodes = 5` and its five nodes are
reachable from the start node 4. -/
theorem nfa_num_nodes_counts_reachable_witness :
    (40 ∉ bytes "a*b" ∧ generate_nfa 8 [] (bytes "a*b") = some (nh_astar_b, ⟨5, 4, 3⟩)) ∧
      5 = nh_astar_b.length ∧ (∀ n, nfa_reach nh_astar_b 4 n ↔ n < 5) ∧
      Set.ncard {n | nfa_reach nh_astar_b 4 n} = 5 :=
  ⟨by decide,
    nfa_num_nodes_counts_reachable (bytes "a*b") 8 nh_astar_b ⟨5, 4, 3⟩ (by decide)
      (by decide)⟩

/-! ### Wiring of the star -/

theorem nfa_at_set (h : List nfa_node) (p i : Nat) (v : nfa_node) :
    nfa_at (h.set p v) i = if p = i ∧ i < h.length then v else nfa_at h i := by
  unfold nfa_at
  rw [List.getD_eq_getElem?_getD, List.getD_eq_getElem?_getD, List.getElem?_set]
  by_cases hpi : p = i
  · by_cases hlt : i < h.length
    · simp [hpi, hlt]
    · simp [hpi, hlt]
      have : h.length ≤ i := by omega
      simp [List.getElem?_eq_none this]
  · simp [hpi]

theorem length_nfa_push_edge (h : List nfa_node) (p : Nat) (a : Bool) (c n : Nat) :
    (nfa_push_edge h p a c n).length = h.length := by
  simp [nfa_push_edge]

theorem length_nfa_set_isend (h : List nfa_node) (p : Nat) (v : Bool) :
    (nfa_set_isend h p v).length = h.length := by
  simp [nfa_set_isend]

theorem nfa_at_push_edge (h : List nfa_node) (p i : Nat) (a : Bool) (c n : Nat) :
    nfa_at (nfa_push_edge h p a c n) i =
      if p = i ∧ i < h.length then
        ⟨(nfa_at h p).isend, ⟨c, a, n⟩ :: (nfa_at h p).next_l⟩
      else nfa_at h i := by
  simp [nfa_push_edge, nfa_at_set, insert_nfa_edge]

theorem nfa_at_set_isend (h : List nfa_node) (p i : Nat) (v : Bool) :
    nfa_at (nfa_set_isend h p v) i =
      if p = i ∧ i < h.length then ⟨v, (nfa_at h p).next_l⟩ else nfa_at h i := by
  simp [nfa_set_isend, nfa_at_set]

theorem split_unit_of_ne (c d : Nat) (rest : List Nat) (hc : c ≠ 40) :
    split_unit (c :: d :: rest) = some (0, [c]) := by
  simp [split_unit, hc]

/-- The nodes that `generate_nfa` finds on the heap are left as they are, and the
start and the end of the returned automaton are among the nodes it appends. -/
theorem generate_nfa_frame (fuel : Nat) :
    ∀ (h : List nfa_node) (regex : List Nat) (h1 : List nfa_node) (n : nfa),
      generate_nfa fuel h regex = some (h1, n) →
        h.length < h1.length ∧ (∀ i, i < h.length → nfa_at h1 i = nfa_at h i) ∧
          h.length ≤ n.start ∧ n.start < h1.length ∧ h.length ≤ n.end_ ∧
          n.end_ < h1.length := by
  induction fuel with
  | zero =>
    intro h regex h1 n hg
    simp [generate_nfa] at hg
  | succ fuel ih =>
    intro h regex h1 n hg
    match regex, hg with
    | [], hg =>
      simp only [generate_nfa, Option.some.injEq, Prod.mk.injEq] at hg
      obtain ⟨rfl, rfl⟩ := hg
      refine ⟨by simp, fun i hi => nfa_at_append_left _ _ i hi, ?_⟩
      simp
    | [c], hg =>
      simp only [generate_nfa, Option.some.injEq, Prod.mk.injEq] at hg
      obtain ⟨rfl, rfl⟩ := hg
      refine ⟨by simp, fun i hi => nfa_at_append_left _ _ i hi, ?_⟩
      simp
    | a :: b :: rest, hg =>
      rw [generate_nfa] at hg
      generalize a :: b :: rest = regex0 at hg
      cases hsp : split_unit regex0 with
      | none => simp [hsp] at hg
      | some sp =>
        obtain ⟨regex_end, left_regex⟩ := sp
        simp only [hsp] at hg
        cases hf : generate_nfa fuel h left_regex with
        | none => simp [hf] at hg
        | some r1 =>
          obtain ⟨ha, first⟩ := r1
          simp only [hf] at hg
          obtain ⟨f1, f2, f3, f4, f5, f6⟩ := ih h left_regex ha first hf
          by_cases hstar : regex0.getD (regex_end + 1) 0 = 42
          · simp only [hstar, if_true] at hg
            cases hs : generate_nfa fuel ha (regex0.drop (regex_end + 2)) with
            | none => simp [hs] at hg
            | some r2 =>
              obtain ⟨hb, second⟩ := r2
              simp only [hs, Option.some.injEq, Prod.mk.injEq] at hg
              obtain ⟨rfl, rfl⟩ := hg
              obtain ⟨s1, s2, s3, s4, s5, s6⟩ := ih ha _ hb second hs
              refine ⟨?_, ?_, ?_, ?_, ?_, ?_⟩
              · simp [length_nfa_set_isend, length_nfa_push_edge]
                omega
              · intro i hi
                rw [nfa_at_set_isend, if_neg (by omega), nfa_at_push_edge, if_neg (by omega),
                  nfa_at_push_edge, if_neg (by omega)]
                rw [nfa_at_append_left _ _ i (by omega)]
                rw [s2 i (by omega), f2 i hi]
              · simp only []
                omega
              · simp [length_nfa_set_isend, length_nfa_push_edge]
              · simp only []
                omega
              · simp [length_nfa_set_isend, length_nfa_push_edge]
                omega
          · simp only [hstar, if_false] at hg
            cases hs : generate_nfa fuel ha (regex0.drop (regex_end + 1)) with
            | none => simp [hs] at hg
            | some r2 =>
              obtain ⟨hb, second⟩ := r2
              simp only [hs, Option.some.injEq, Prod.mk.injEq] at hg
              obtain ⟨rfl, rfl⟩ := hg
              obtain ⟨s1, s2, s3, s4, s5, s6⟩ := ih ha _ hb second hs
              refine ⟨?_, ?_, ?_, ?_, ?_, ?_⟩
              · simp [length_nfa_set_isend, length_nfa_push_edge]
                omega
              · intro i hi
                rw [nfa_at_push_edge, if_neg (by omega), nfa_at_set_isend, if_neg (by omega)]
                rw [s2 i (by omega), f2 i hi]
              · simp only []
                omega
              · simp [length_nfa_set_isend, length_nfa_push_edge]
                omega
              · simp only []
                omega
              · simp [length_nfa_set_isend, length_nfa_push_edge]
                omega

/-- C22 (as stated, refuted): for the pattern `a*b` the start node of the NFA
returned by `generate_nfa` is node 4 and carries one edge only, the epsilon edge
to the start of the fragment of `a` (node 0); the epsilon edge to the start of
the fragment of `b` (node 2) is on node 0, not on the start node. -/
theorem star_start_has_one_edge :
    generate_nfa 8 [] (bytes "a*b") = some (nh_astar_b, ⟨5, 4, 3⟩) ∧
      (nfa_at nh_astar_b 4).next_l = [⟨0, true, 0⟩] ∧
      (¬ ∃ e ∈ (nfa_at nh_astar_b 4).next_l, e.node = 2) ∧
      ⟨0, true, 2⟩ ∈ (nfa_at nh_astar_b 0).next_l := by
  decide

/-- C22 (amended): for every pattern `u*r` where `u` is a single byte other than
`(`, `generate_nfa` builds the fragment of `u` at the nodes 0 and 1 and the
fragment of `r` after it; the start node of the returned NFA is a newly created
node, the last one allocated, that is not accepting and carries exactly one
edge, an epsilon edge to the start of the fragment of `u`; the start node of
the fragment of `u` carries the epsilon edge to the start of the fragment of
`r` and its consuming edge; the end node of the fragment of `u` is not accepting
and carries exactly one edge, an epsilon edge back to the start of `u`; the end of
the returned NFA is the end of the fragment of `r`. -/
theorem star_wiring (u : Nat) (r : List Nat) (fuel : Nat) (h : List nfa_node) (re_nfa : nfa)
    (hu : u ≠ 40) (hg : generate_nfa fuel [] (u :: 42 :: r) = some (h, re_nfa)) :
    ∃ (h2 : List nfa_node) (second : nfa),
      generate_nfa (fuel - 1) [⟨false, [⟨u, false, 1⟩]⟩, ⟨true, []⟩] r = some (h2, second) ∧
        h.length = h2.length + 1 ∧ re_nfa.start = h2.length ∧
        nfa_at h re_nfa.start = ⟨false, [⟨0, true, 0⟩]⟩ ∧
        nfa_at h 0 = ⟨false, [⟨0, true, second.start⟩, ⟨u, false, 1⟩]⟩ ∧
        nfa_at h 1 = ⟨false, [⟨0, true, 0⟩]⟩ ∧
        re_nfa.end_ = second.end_ ∧
        re_nfa.num_nodes = 1 + (2 + second.num_nodes) ∧
        ∀ i, 2 ≤ i → i < h2.length → nfa_at h i = nfa_at h2 i := by
  match fuel, hg with
  | 0, hg => simp [generate_nfa] at hg
  | 1, hg => simp [generate_nfa, split_unit_of_ne u 42 r hu] at hg
  | fuel + 2, hg =>
    rw [generate_nfa] at hg
    simp only [split_unit_of_ne u 42 r hu] at hg
    have hfirst : generate_nfa (fuel + 1) [] [u] =
        some ([⟨false, [⟨u, false, 1⟩]⟩, ⟨true, []⟩], ⟨2, 0, 1⟩) := by
      simp [generate_nfa, insert_nfa_edge]
    simp only [hfirst] at hg
    have hget : (u :: 42 :: r).getD (0 + 1) 0 = 42 := by simp
    have hdrop : (u :: 42 :: r).drop (0 + 2) = r := by simp
    simp only [hget, hdrop, if_true] at hg
    cases hs : generate_nfa (fuel + 1) [⟨false, [⟨u, false, 1⟩]⟩, ⟨true, []⟩] r with
    | none => simp [hs] at hg
    | some r2 =>
      obtain ⟨h2, second⟩ := r2
      simp only [hs, Option.some.injEq, Prod.mk.injEq] at hg
      obtain ⟨rfl, rfl⟩ := hg
      obtain ⟨s1, s2, s3, s4, s5, s6⟩ := generate_nfa_frame _ _ _ _ _ hs
      simp only [List.length_cons, List.length_nil] at s1 s2 s3 s5
      have e0 : nfa_at h2 0 = ⟨false, [⟨u, false, 1⟩]⟩ := s2 0 (by omega)
      have e1 : nfa_at h2 1 = ⟨true, []⟩ := s2 1 (by omega)
      dsimp only
      obtain ⟨h3, hh3⟩ : ∃ h3, h3 = h2 ++ [⟨false, insert_nfa_edge [] true 0 0⟩] := ⟨_, rfl⟩
      obtain ⟨h4, hh4⟩ : ∃ h4, h4 = nfa_push_edge h3 0 true 0 second.start := ⟨_, rfl⟩
      obtain ⟨h5, hh5⟩ : ∃ h5, h5 = nfa_push_edge h4 1 true 0 0 := ⟨_, rfl⟩
      rw [← hh3, ← hh4, ← hh5]
      have l3 : h3.length = h2.length + 1 := by simp [hh3]
      have l4 : h4.length = h2.length + 1 := by rw [hh4, length_nfa_push_edge, l3]
      have l5 : h5.length = h2.length + 1 := by rw [hh5, length_nfa_push_edge, l4]
      have a3 : ∀ i, i < h2.length → nfa_at h3 i = nfa_at h2 i := by
        intro i hi
        rw [hh3, nfa_at_append_left _ _ i hi]
      have b3 : nfa_at h3 h2.length = ⟨false, [⟨0, true, 0⟩]⟩ := by
        rw [hh3, nfa_at_append_zero]
        rfl
      have a4 : ∀ i, i ≠ 0 → nfa_at h4 i = nfa_at h3 i := by
        intro i hi
        rw [hh4, nfa_at_push_edge h3 0 i, if_neg (by omega)]
      have b4 : nfa_at h4 0 = ⟨false, [⟨0, true, second.start⟩, ⟨u, false, 1⟩]⟩ := by
        rw [hh4, nfa_at_push_edge h3 0 0, if_pos ⟨rfl, by omega⟩, a3 0 (by omega), e0]
      have a5 : ∀ i, i ≠ 1 → nfa_at h5 i = nfa_at h4 i := by
        intro i hi
        rw [hh5, nfa_at_push_edge h4 1 i, if_neg (by omega)]
      have b5 : nfa_at h5 1 = ⟨true, [⟨0, true, 0⟩]⟩ := by
        rw [hh5, nfa_at_push_edge h4 1 1, if_pos ⟨rfl, by omega⟩, a4 1 (by omega),
          a3 1 (by omega), e1]
      have a6 : ∀ i, i ≠ 1 → nfa_at (nfa_set_isend h5 1 false) i = nfa_at h5 i := by
        intro i hi
        rw [nfa_at_set_isend h5 1 i, if_neg (by omega)]
      have b6 : nfa_at (nfa_set_isend h5 1 false) 1 = ⟨false, [⟨0, true, 0⟩]⟩ := by
        rw [nfa_at_set_isend h5 1 1, if_pos ⟨rfl, by omega⟩, b5]
      refine ⟨h2, second, hs, ?_, rfl, ?_, ?_, b6, rfl, rfl, ?_⟩
      · rw [length_nfa_set_isend, l5]
      · rw [a6 _ (by omega), a5 _ (by omega), a4 _ (by omega), b3]
      · rw [a6 _ (by omega), a5 _ (by omega), b4]
      · intro i hi2 hi
        rw [a6 _ (by omega), a5 _ (by omega), a4 _ (by omega), a3 i hi]

/-- Witness of C22 (amended): the pattern `a*b`, whose NFA has its start at
node 4 and the fragment of `b` at the nodes 2 and 3. -/
theorem star_wiring_witness :
    (97 ≠ 40 ∧ generate_nfa 8 [] (97 :: 42 :: [98]) = some (nh_astar_b, ⟨5, 4, 3⟩)) ∧
      ∃ (h2 : List nfa_node) (second : nfa),
        generate_nfa (8 - 1) [⟨false, [⟨97, false, 1⟩]⟩, ⟨true, []⟩] [98] = some (h2, second) ∧
          nh_astar_b.length = h2.length + 1 ∧ (⟨5, 4, 3⟩ : nfa).start = h2.length ∧
          nfa_at nh_astar_b (⟨5, 4, 3⟩ : nfa).start = ⟨false, [⟨0, true, 0⟩]⟩ ∧
          nfa_at nh_astar_b 0 = ⟨false, [⟨0, true, second.start⟩, ⟨97, false, 1⟩]⟩ ∧
          nfa_at nh_astar_b 1 = ⟨false, [⟨0, true, 0⟩]⟩ ∧
          (⟨5, 4, 3⟩ : nfa).end_ = second.end_ ∧
          (⟨5, 4, 3⟩ : nfa).num_nodes = 1 + (2 + second.num_nodes) ∧
          ∀ i, 2 ≤ i → i < h2.length → nfa_at nh_astar_b i = nfa_at h2 i :=
  ⟨by decide, star_wiring 97 [98] 8 nh_astar_b ⟨5, 4, 3⟩ (by decide) (by decide)⟩

/-! ### Iterations of the matcher and the addresses it inspects -/

theorem mem_text_zero (mem : Nat → Nat) (t : Nat) : mem_text mem t 0 = [] := rfl

theorem mem_text_succ (mem : Nat → Nat) (t n : Nat) :
    mem_text mem t (n + 1) = mem t :: mem_text mem (t + 1) n := by
  unfold mem_text
  rw [List.range_succ_eq_map]
  simp [List.map_map, Function.comp_def, Nat.add_assoc, Nat.add_comm 1]

theorem RE_matchhere_trace_spec (dh : List dfa_node) (re : RE) (mem : Nat → Nat) :
    ∀ (n t node fuel : Nat), (∀ i, i < n → mem (t + i) ≠ 0) → mem (t + n) = 0 →
      n + 1 ≤ fuel →
      ∃ b tr, RE_matchhere_trace dh re mem fuel node t = some (b, tr) ∧
        tr.length ≤ n + 1 ∧ (∀ a ∈ tr, t ≤ a ∧ a ≤ t + n) ∧
        b = RE_matchhere_loop dh re node (mem_text mem t n) := by
  intro n
  induction n with
  | zero =>
    intro t node fuel _ h0 hf
    obtain ⟨f, rfl⟩ : ∃ f, fuel = f + 1 := ⟨fuel - 1, by omega⟩
    rw [Nat.add_zero] at h0
    rw [RE_matchhere_trace, mem_text_zero, RE_matchhere_loop, h0]
    by_cases hacc : ((dfa_at dh node).isend && (!re.match_end || (0 : Nat) == 0)) = true
    · rw [if_pos hacc, if_pos hacc]
      exact ⟨true, [t], rfl, by simp, by simp, rfl⟩
    · rw [if_neg hacc, if_neg hacc]
      cases first_match (dfa_at dh node).next_l 0 with
      | none => exact ⟨false, [t], rfl, by simp, by simp, rfl⟩
      | some next => exact ⟨false, [t], by simp, by simp, by simp, rfl⟩
  | succ n ih =>
    intro t node fuel hnz h0 hf
    obtain ⟨f, rfl⟩ : ∃ f, fuel = f + 1 := ⟨fuel - 1, by omega⟩
    have hc : mem t ≠ 0 := by simpa using hnz 0 (by omega)
    rw [RE_matchhere_trace, mem_text_succ, RE_matchhere_loop]
    by_cases hacc : ((dfa_at dh node).isend && (!re.match_end || mem t == 0)) = true
    · rw [if_pos hacc, if_pos hacc]
      exact ⟨true, [t], rfl, by simp, by simp, rfl⟩
    · rw [if_neg hacc, if_neg hacc]
      cases first_match (dfa_at dh node).next_l (mem t) with
      | none => exact ⟨false, [t], rfl, by simp, by simp, rfl⟩
      | some next =>
        simp only [hc, ne_eq, not_false_eq_true, if_true]
        obtain ⟨b, tr, h1, h2, h3, h4⟩ := ih (t + 1) next f
          (fun i hi => by
            have := hnz (i + 1) (by omega)
            rwa [show t + (i + 1) = t + 1 + i by omega] at this)
          (by rwa [show t + 1 + n = t + (n + 1) by omega]) (by omega)
        refine ⟨b, t :: tr, by simp [h1], by simp; omega, ?_, h4⟩
        intro a ha
        rcases List.mem_cons.1 ha with rfl | ha
        · omega
        · have := h3 a ha
          omega

theorem RE_run_trace_loop_spec (dh : List dfa_node) (re : RE) (mem : Nat → Nat)
    (regex : List Nat) :
    ∀ (n t fuel fm : Nat), (∀ i, i < n → mem (t + i) ≠ 0) → mem (t + n) = 0 →
      n + 1 ≤ fuel → n + 1 ≤ fm →
      ∃ b calls, RE_run_trace_loop dh re mem fm fuel t = some (b, calls) ∧
        calls.length ≤ n + 1 ∧
        (∀ c ∈ calls, t ≤ c.1 ∧ c.1 ≤ t + n ∧ c.2.length ≤ n + 1 ∧
          ∀ a ∈ c.2, c.1 ≤ a ∧ a ≤ t + n) ∧
        b = RE_run_loop dh re regex (mem_text mem t n) := by
  intro n
  induction n with
  | zero =>
    intro t fuel fm hnz h0 hf hfm
    obtain ⟨f, rfl⟩ : ∃ f, fuel = f + 1 := ⟨fuel - 1, by omega⟩
    obtain ⟨b, tr, h1, h2, h3, h4⟩ :=
      RE_matchhere_trace_spec dh re mem 0 t re.dfa.start fm hnz h0 hfm
    rw [Nat.add_zero] at h0
    rw [RE_run_trace_loop, h1, mem_text_zero, RE_run_loop]
    rw [mem_text_zero] at h4
    have h4b : b = RE_matchhere dh re regex [] := h4
    cases b with
    | true => exact ⟨true, [(t, tr)], by simp, by simp, by simpa using ⟨h2, h3⟩, h4b⟩
    | false =>
      refine ⟨false, [(t, tr)], by simp [h0], by simp, by simpa using ⟨h2, h3⟩, h4b⟩
  | succ n ih =>
    intro t fuel fm hnz h0 hf hfm
    obtain ⟨f, rfl⟩ : ∃ f, fuel = f + 1 := ⟨fuel - 1, by omega⟩
    have hc : mem t ≠ 0 := by simpa using hnz 0 (by omega)
    obtain ⟨b, tr, h1, h2, h3, h4⟩ :=
      RE_matchhere_trace_spec dh re mem (n + 1) t re.dfa.start fm hnz h0 hfm
    rw [RE_run_trace_loop, h1, mem_text_succ, RE_run_loop]
    rw [mem_text_succ] at h4
    have h4b : b = RE_matchhere dh re regex (mem t :: mem_text mem (t + 1) n) := h4
    cases b with
    | true =>
      rw [← h4b]
      exact ⟨true, [(t, tr)], by simp, by simp, by simpa using ⟨h2, h3⟩, by simp⟩
    | false =>
      rw [← h4b]
      simp only [hc, ne_eq, not_false_eq_true, if_true, Bool.false_eq_true, if_false]
      obtain ⟨b2, calls, g1, g2, g3, g4⟩ := ih (t + 1) f fm
        (fun i hi => by
          have := hnz (i + 1) (by omega)
          rwa [show t + (i + 1) = t + 1 + i by omega] at this)
        (by rwa [show t + 1 + n = t + (n + 1) by omega]) (by omega) (by omega)
      refine ⟨b2, (t, tr) :: calls, by simp [g1], by simp; omega, ?_, g4⟩
      intro c hcm
      rcases List.mem_cons.1 hcm with rfl | hcm
      · exact ⟨Nat.le_refl _, by omega, h2, h3⟩
      · obtain ⟨q1, q2, q3, q4⟩ := g3 c hcm
        refine ⟨by omega, by omega, by omega, fun a ha => ?_⟩
        have := q4 a ha
        omega

/-- C28: for every DFA and every text of `n` bytes followed by a NUL at address
`t` of the memory, every call of `RE_matchhere` on an offset of the text
returns after at most `n + 1` iterations of its loop and inspects addresses
from `t` to `t + n` only (the NUL is at `t + n`); `RE_run` on the text returns
after at most `n + 1` calls of `RE_matchhere`, each on an address between `t`
and `t + n`, and each of them makes at most `n + 1` iterations and inspects
addresses up to `t + n` only.  The results are those of `RE_matchhere` and
`RE_run` on the bytes of the text. -/
theorem matcher_stays_in_text (dh : List dfa_node) (re : RE) (mem : Nat → Nat)
    (regex : List Nat) (t n fuel : Nat) (hnz : ∀ i, i < n → mem (t + i) ≠ 0)
    (h0 : mem (t + n) = 0) (hf : n + 1 ≤ fuel) :
    (∀ o node, o ≤ n →
      ∃ b tr, RE_matchhere_trace dh re mem fuel node (t + o) = some (b, tr) ∧
        tr.length ≤ n + 1 ∧ (∀ a ∈ tr, t ≤ a ∧ a ≤ t + n) ∧
        b = RE_matchhere_loop dh re node (mem_text mem (t + o) (n - o))) ∧
      ∃ b calls, RE_run_trace dh re mem fuel fuel regex t = some (b, calls) ∧
        calls.length ≤ n + 1 ∧
        (∀ c ∈ calls, t ≤ c.1 ∧ c.1 ≤ t + n ∧ c.2.length ≤ n + 1 ∧
          ∀ a ∈ c.2, t ≤ a ∧ a ≤ t + n) ∧
        b = RE_run dh re regex (mem_text mem t n) := by
  constructor
  · intro o node ho
    obtain ⟨b, tr, h1, h2, h3, h4⟩ := RE_matchhere_trace_spec dh re mem (n - o) (t + o) node fuel
      (fun i hi => by
        have := hnz (o + i) (by omega)
        rwa [show t + (o + i) = t + o + i by omega] at this)
      (by rwa [show t + o + (n - o) = t + n by omega]) (by omega)
    refine ⟨b, tr, h1, by omega, fun a ha => ?_, h4⟩
    have := h3 a ha
    omega
  · unfold RE_run_trace RE_run
    by_cases hreg : regex.headD 0 = 94
    · rw [if_pos hreg, if_pos hreg]
      obtain ⟨b, tr, h1, h2, h3, h4⟩ :=
        RE_matchhere_trace_spec dh re mem n t re.dfa.start fuel hnz h0 hf
      refine ⟨b, [(t, tr)], by simp [h1], by simp, ?_, h4⟩
      intro c hc
      rw [List.mem_singleton] at hc
      subst hc
      exact ⟨Nat.le_refl _, by omega, h2, h3⟩
    · rw [if_neg hreg, if_neg hreg]
      obtain ⟨b, calls, g1, g2, g3, g4⟩ :=
        RE_run_trace_loop_spec dh re mem regex n t fuel fuel hnz h0 hf hf
      refine ⟨b, calls, g1, g2, fun c hc => ?_, g4⟩
      obtain ⟨q1, q2, q3, q4⟩ := g3 c hc
      refine ⟨q1, q2, q3, fun a ha => ?_⟩
      have := q4 a ha
      omega

/-- Witness of C28: the DFA of `b$` on the text `ab` at address 0 of a memory
that holds the bytes `a`, `b` and then NUL. -/
theorem matcher_stays_in_text_witness :
    ((∀ i, i < 2 → (fun a => [97, 98].getD a 0) (0 + i) ≠ 0) ∧
        (fun a => [97, 98].getD a 0) (0 + 2) = 0 ∧ 2 + 1 ≤ 3) ∧
      ((∀ o node, o ≤ 2 →
        ∃ b tr, RE_matchhere_trace (dh_single 98) ⟨false, true, ⟨2, 0⟩⟩
            (fun a => [97, 98].getD a 0) 3 node (0 + o) = some (b, tr) ∧
          tr.length ≤ 2 + 1 ∧ (∀ a ∈ tr, 0 ≤ a ∧ a ≤ 0 + 2) ∧
          b = RE_matchhere_loop (dh_single 98) ⟨false, true, ⟨2, 0⟩⟩ node
            (mem_text (fun a => [97, 98].getD a 0) (0 + o) (2 - o))) ∧
        ∃ b calls, RE_run_trace (dh_single 98) ⟨false, true, ⟨2, 0⟩⟩
            (fun a => [97, 98].getD a 0) 3 3 [98] 0 = some (b, calls) ∧
          calls.length ≤ 2 + 1 ∧
          (∀ c ∈ calls, 0 ≤ c.1 ∧ c.1 ≤ 0 + 2 ∧ c.2.length ≤ 2 + 1 ∧
            ∀ a ∈ c.2, 0 ≤ a ∧ a ≤ 0 + 2) ∧
          b = RE_run (dh_single 98) ⟨false, true, ⟨2, 0⟩⟩ [98]
            (mem_text (fun a => [97, 98].getD a 0) 0 2)) :=
  ⟨⟨by decide, by decide, by decide⟩,
    matcher_stays_in_text (dh_single 98) ⟨false, true, ⟨2, 0⟩⟩ (fun a => [97, 98].getD a 0)
      [98] 0 2 3 (by decide) (by decide) (by decide)⟩

/-! ### Termination of the worklist loop -/

theorem match_nfa_list_decide : ∀ a b : List Nat, match_nfa_list a b = decide (a = b)
  | [], [] => by simp [match_nfa_list]
  | [], _ :: _ => by simp [match_nfa_list]
  | _ :: _, [] => by simp [match_nfa_list]
  | x :: xs, y :: ys => by
    rw [match_nfa_list, match_nfa_list_decide xs ys]
    by_cases hxy : x = y
    · simp [hxy]
    · simp [hxy]

theorem find_dfagen_node_none (L : List dfagen_node) (k : List Nat) :
    find_dfagen_node L k = none ↔ ∀ v ∈ L, v.nfas ≠ k := by
  induction L with
  | nil => simp [find_dfagen_node]
  | cons v L ih =>
    rw [find_dfagen_node, match_nfa_list_decide]
    by_cases hv : v.nfas = k
    · simp [hv]
    · simp [hv, ih]

theorem find_dfagen_node_some (L : List dfagen_node) (k : List Nat) (v : dfagen_node)
    (hf : find_dfagen_node L k = some v) : v ∈ L ∧ v.nfas = k := by
  induction L with
  | nil => simp [find_dfagen_node] at hf
  | cons u L ih =>
    rw [find_dfagen_node, match_nfa_list_decide] at hf
    by_cases hu : u.nfas = k
    · simp [hu] at hf
      subst hf
      exact ⟨by simp, hu⟩
    · simp [hu] at hf
      exact ⟨List.mem_cons_of_mem _ (ih hf).1, (ih hf).2⟩

theorem find_dfagen_node_none_iff_keys (L : List dfagen_node) (k : List Nat) :
    find_dfagen_node L k = none ↔ k ∉ L.map (fun v => v.nfas) := by
  rw [find_dfagen_node_none]
  simp only [List.mem_map, not_exists, not_and]

theorem copy_copy_nfa_list (l : List Nat) : copy_nfa_list (copy_nfa_list l) = l := by
  simp [copy_nfa_list_eq_reverse]

theorem copy_nfa_list_inj (a b : List Nat) (hab : copy_nfa_list a = copy_nfa_list b) : a = b := by
  have := congrArg copy_nfa_list hab
  rwa [copy_copy_nfa_list, copy_copy_nfa_list] at this

theorem nfas_valid_copy (N : Nat) (K : List Nat) (hK : nfas_valid N K) :
    nfas_valid N (copy_nfa_list K) := by
  obtain ⟨h1, h2⟩ := hK
  refine ⟨?_, fun m hm => h2 m ((mem_copy_nfa_list K m).1 hm)⟩
  rw [copy_nfa_list_eq_reverse]
  exact List.nodup_reverse.2 h1

theorem link_conns_worked_list (curr : Nat) (cs : List nfa_2dlist) :
    ∀ s : dfagen_state, (link_conns curr cs s).worked_list = s.worked_list := by
  induction cs with
  | nil =>
    intro s
    rfl
  | cons c cs ih =>
    intro s
    rw [link_conns]
    cases hfind : find_dfagen_node s.worked_list c.nfas with
    | some tmp =>
      simp only []
      rw [ih]
    | none =>
      simp only [insert_into_dfagen_list]
      rw [ih]

/-- What `link_conns` pushes: one entry for every list of `conns` that
`worked_list` does not hold, in front of the worklist. -/
theorem link_conns_worklist (curr : Nat) (cs : List nfa_2dlist) :
    ∀ s : dfagen_state, ∃ pushed, (link_conns curr cs s).worklist = pushed ++ s.worklist ∧
      (∀ a ∈ pushed, ∃ c ∈ cs, a.nfas = copy_nfa_list c.nfas ∧
        find_dfagen_node s.worked_list c.nfas = none) ∧
      ∀ c ∈ cs, find_dfagen_node s.worked_list c.nfas = none →
        ∃ a ∈ pushed, a.nfas = copy_nfa_list c.nfas := by
  induction cs with
  | nil =>
    intro s
    exact ⟨[], rfl, by simp, by simp⟩
  | cons c cs ih =>
    intro s
    rw [link_conns]
    cases hfind : find_dfagen_node s.worked_list c.nfas with
    | some tmp =>
      simp only []
      obtain ⟨pushed, h1, h2, h3⟩ := ih
        { s with dheap := dfa_push_edge s.dheap curr c.cond_ch tmp.node }
      refine ⟨pushed, h1, ?_, ?_⟩
      · intro a ha
        obtain ⟨c1, hc1, e1, e2⟩ := h2 a ha
        exact ⟨c1, List.mem_cons_of_mem _ hc1, e1, e2⟩
      · intro c1 hc1 hn
        rcases List.mem_cons.1 hc1 with rfl | hc1
        · rw [hfind] at hn
          exact absurd hn (by simp)
        · exact h3 c1 hc1 hn
    | none =>
      simp only [insert_into_dfagen_list]
      obtain ⟨pushed, h1, h2, h3⟩ := ih
        { dheap := dfa_push_edge
            ((s.dheap ++ [(⟨c.isend, []⟩ : dfa_node)]).set
              ((s.dheap ++ [(⟨c.isend, []⟩ : dfa_node)]).length - 1)
              ⟨c.isend, []⟩) curr c.cond_ch
              ((s.dheap ++ [(⟨c.isend, []⟩ : dfa_node)]).length - 1),
          worklist := ⟨copy_nfa_list c.nfas, s.dheap.length⟩ :: s.worklist,
          worked_list := s.worked_list,
          num_nodes := s.num_nodes + 1 }
      refine ⟨pushed ++ [⟨copy_nfa_list c.nfas, s.dheap.length⟩], ?_, ?_, ?_⟩
      · rw [h1]
        simp
      · intro a ha
        rcases List.mem_append.1 ha with ha | ha
        · obtain ⟨c1, hc1, e1, e2⟩ := h2 a ha
          exact ⟨c1, List.mem_cons_of_mem _ hc1, e1, e2⟩
        · rw [List.mem_singleton] at ha
          subst ha
          exact ⟨c, by simp, rfl, hfind⟩
      · intro c1 hc1 hn
        rcases List.mem_cons.1 hc1 with rfl | hc1
        · exact ⟨⟨copy_nfa_list c1.nfas, s.dheap.length⟩, by simp, rfl⟩
        · obtain ⟨a, ha, e⟩ := h3 c1 hc1 hn
          exact ⟨a, List.mem_append_left _ ha, e⟩

theorem mem_key_universe (N : Nat) (K : List Nat) (hK : nfas_valid N K) : K ∈ key_universe N := by
  obtain ⟨hnd, hlt⟩ := hK
  unfold key_universe
  rw [List.mem_toFinset, List.mem_flatMap]
  refine ⟨(List.range N).filter (fun a => decide (a ∈ K)), ?_, ?_⟩
  · rw [List.mem_sublists]
    exact List.filter_sublist _
  · rw [List.mem_permutations]
    refine (List.perm_ext_iff_of_nodup hnd ((List.nodup_range N).filter _)).2 (fun a => ?_)
    simp only [List.mem_filter, List.mem_range, decide_eq_true_eq]
    exact ⟨fun ha => ⟨hlt a ha, ha⟩, fun ha => ha.2⟩

/-- One iteration of the loop, on the lists: the entry goes to `worked_list`, and
the lists of `conns` that are not in `worked_list` after that are queued. -/
theorem nfa_to_dfa_step_lists (h : List nfa_node) (fuel : Nat) (s s1 : dfagen_state)
    (w : dfagen_node) (tmp : List dfagen_node)
    (hstep : nfa_to_dfa_step h fuel s w tmp = some s1) :
    ∃ conns pushed, conns_of_nodes h fuel w.nfas [] = some conns ∧
      worked_keys s1 = copy_nfa_list w.nfas :: worked_keys s ∧
      s1.worklist = pushed ++ tmp ∧
      (∀ a ∈ pushed, ∃ c ∈ conns, a.nfas = copy_nfa_list c.nfas ∧
        c.nfas ∉ copy_nfa_list w.nfas :: worked_keys s) ∧
      ∀ c ∈ conns, c.nfas ∈ copy_nfa_list w.nfas :: worked_keys s ∨
        ∃ a ∈ pushed, a.nfas = copy_nfa_list c.nfas := by
  unfold nfa_to_dfa_step at hstep
  cases hc : conns_of_nodes h fuel w.nfas [] with
  | none => simp [hc] at hstep
  | some conns =>
    simp only [hc, Option.some.injEq] at hstep
    obtain ⟨pushed, h1, h2, h3⟩ := link_conns_worklist w.node conns
      { s with worklist := tmp, worked_list := insert_node_into_dfagen_list s.worked_list w }
    have hwl := link_conns_worked_list w.node conns
      { s with worklist := tmp, worked_list := insert_node_into_dfagen_list s.worked_list w }
    rw [hstep] at h1 hwl
    have hkeys : worked_keys s1 = copy_nfa_list w.nfas :: worked_keys s := by
      unfold worked_keys
      rw [hwl]
      simp [insert_node_into_dfagen_list]
    have hk2 : (insert_node_into_dfagen_list s.worked_list w).map (fun v => v.nfas) =
        copy_nfa_list w.nfas :: worked_keys s := by
      simp [insert_node_into_dfagen_list, worked_keys]
    refine ⟨conns, pushed, rfl, hkeys, h1, ?_, ?_⟩
    · intro a ha
      obtain ⟨c, hcm, e1, e2⟩ := h2 a ha
      refine ⟨c, hcm, e1, ?_⟩
      rw [find_dfagen_node_none_iff_keys] at e2
      rwa [hk2] at e2
    · intro c hcm
      by_cases hin : c.nfas ∈ copy_nfa_list w.nfas :: worked_keys s
      · exact Or.inl hin
      · right
        apply h3 c hcm
        rw [find_dfagen_node_none_iff_keys]
        simpa only [hk2] using hin

theorem stack_inv_step (h : List nfa_node) (fuel : Nat) (s s1 : dfagen_state)
    (w : dfagen_node) (tmp : List dfagen_node) (hw : s.worklist = w :: tmp)
    (hJ : stack_inv h fuel s) (hstep : nfa_to_dfa_step h fuel s w tmp = some s1) :
    stack_inv h fuel s1 := by
  obtain ⟨conns, pushed, hc, hkeys, hwl, hp1, hp2⟩ :=
    nfa_to_dfa_step_lists h fuel s s1 w tmp hstep
  intro above x below hsplit hx conns1 hc1 c hcm
  rw [hkeys] at hx ⊢
  rw [hwl] at hsplit
  -- the entry `x` is in `tmp`, with the part `c1` of `tmp` above it
  have key : ∀ c1, above = pushed ++ c1 → tmp = c1 ++ x :: below →
      c.nfas ∈ copy_nfa_list w.nfas :: worked_keys s ∨
        ∃ a ∈ above, copy_nfa_list a.nfas = c.nfas := by
    intro c1 hab htmp
    rcases List.mem_cons.1 hx with hxe | hxW
    · have hxw : x.nfas = w.nfas := copy_nfa_list_inj _ _ hxe
      rw [hxw, hc] at hc1
      have hcc : conns = conns1 := Option.some.inj hc1
      subst hcc
      rcases hp2 c hcm with hin | ⟨a, ha, e⟩
      · exact Or.inl hin
      · right
        refine ⟨a, ?_, ?_⟩
        · rw [hab]
          exact List.mem_append_left _ ha
        · rw [e, copy_copy_nfa_list]
    · have hs : s.worklist = (w :: c1) ++ x :: below := by
        rw [hw, htmp]
        rfl
      rcases hJ (w :: c1) x below hs hxW conns1 hc1 c hcm with hin | ⟨a, ha, e⟩
      · exact Or.inl (List.mem_cons_of_mem _ hin)
      · rcases List.mem_cons.1 ha with rfl | ha
        · left
          rw [← e]
          exact List.mem_cons_self _ _
        · right
          refine ⟨a, ?_, e⟩
          rw [hab]
          exact List.mem_append_right _ ha
  rcases List.append_eq_append_iff.1 hsplit with ⟨a1, e1, e2⟩ | ⟨c1, e1, e2⟩
  · exact key a1 e1 e2
  · cases c1 with
    | nil =>
      simp only [List.nil_append] at e2
      simp only [List.append_nil] at e1
      exact key [] (by simp [e1]) (by simp [e2])
    | cons y a2 =>
      simp only [List.cons_append, List.cons.injEq] at e2
      obtain ⟨hxy, _⟩ := e2
      have hxp : x ∈ pushed := by
        rw [e1, hxy]
        simp
      obtain ⟨c0, _, e3, e4⟩ := hp1 x hxp
      rw [e3, copy_copy_nfa_list] at hx
      exact absurd hx e4

theorem lists_valid_step (h : List nfa_node) (fuel N : Nat)
    (hval : ∀ ns conns, (∀ m ∈ ns, m < N) → conns_of_nodes h fuel ns [] = some conns →
      ∀ c ∈ conns, nfas_valid N c.nfas)
    (s s1 : dfagen_state) (w : dfagen_node) (tmp : List dfagen_node)
    (hw : s.worklist = w :: tmp) (hV : lists_valid N s)
    (hstep : nfa_to_dfa_step h fuel s w tmp = some s1) : lists_valid N s1 := by
  obtain ⟨conns, pushed, hc, hkeys, hwl, hp1, _⟩ :=
    nfa_to_dfa_step_lists h fuel s s1 w tmp hstep
  obtain ⟨hV1, hV2⟩ := hV
  have hwv : nfas_valid N w.nfas := hV1 w (by rw [hw]; simp)
  constructor
  · intro x hx
    rw [hwl] at hx
    rcases List.mem_append.1 hx with hx | hx
    · obtain ⟨c, hcm, e, _⟩ := hp1 x hx
      rw [e]
      exact nfas_valid_copy N _ (hval w.nfas conns hwv.2 hc c hcm)
    · exact hV1 x (by rw [hw]; exact List.mem_cons_of_mem _ hx)
  · intro v hv
    have hvk : v.nfas ∈ worked_keys s1 := List.mem_map.2 ⟨v, hv, rfl⟩
    rw [hkeys] at hvk
    rcases List.mem_cons.1 hvk with e | hvk
    · rw [e]
      exact nfas_valid_copy N _ hwv
    · obtain ⟨u, hu, e⟩ := List.mem_map.1 hvk
      have := hV2 u hu
      simpa [e] using this

/-- The worklist loop returns when every call of `conns_of_nodes` returns: a
list that is new in `worked_list` uses up one of the finitely many lists, and a
list that is in `worked_list` already queues nothing. -/
theorem nfa_to_dfa_loop_terminates (h : List nfa_node) (fuel N : Nat)
    (hret : ∀ ns, ∃ conns, conns_of_nodes h fuel ns [] = some conns)
    (hval : ∀ ns conns, (∀ m ∈ ns, m < N) → conns_of_nodes h fuel ns [] = some conns →
      ∀ c ∈ conns, nfas_valid N c.nfas) :
    ∀ (k L : Nat) (s : dfagen_state), stack_inv h fuel s → lists_valid N s →
      (key_universe N \ (worked_keys s).toFinset).card < k → s.worklist.length ≤ L →
      ∃ n s1, nfa_to_dfa_loop h fuel n s = some s1 := by
  intro k
  induction k with
  | zero =>
    intro L s _ _ hk _
    exact absurd hk (Nat.not_lt_zero _)
  | succ k ihk =>
    intro L
    induction L with
    | zero =>
      intro s _ _ _ hL
      have hnil : s.worklist = [] := List.length_eq_zero.1 (Nat.le_zero.1 hL)
      exact ⟨1, s, by simp [nfa_to_dfa_loop, hnil]⟩
    | succ L ihL =>
      intro s hJ hV hk hL
      cases hwl : s.worklist with
      | nil => exact ⟨1, s, by simp [nfa_to_dfa_loop, hwl]⟩
      | cons w tmp =>
        obtain ⟨conns, hc⟩ := hret w.nfas
        have hstep : ∃ s1, nfa_to_dfa_step h fuel s w tmp = some s1 := by
          unfold nfa_to_dfa_step
          rw [hc]
          exact ⟨_, rfl⟩
        obtain ⟨s1, hstep⟩ := hstep
        have hJ1 := stack_inv_step h fuel s s1 w tmp hwl hJ hstep
        have hV1 := lists_valid_step h fuel N hval s s1 w tmp hwl hV hstep
        obtain ⟨conns0, pushed, hc0, hkeys, hwl1, hp1, hp2⟩ :=
          nfa_to_dfa_step_lists h fuel s s1 w tmp hstep
        have hrec : ∃ n s2, nfa_to_dfa_loop h fuel n s1 = some s2 := by
          by_cases hstale : copy_nfa_list w.nfas ∈ worked_keys s
          · -- the list is in `worked_list` already: nothing is queued
            have hpushed : pushed = [] := by
              cases hpe : pushed with
              | nil => rfl
              | cons a rest =>
                exfalso
                obtain ⟨c, hcm, e1, e2⟩ := hp1 a (by rw [hpe]; simp)
                have hs : s.worklist = [] ++ w :: tmp := by rw [hwl]; rfl
                rcases hJ [] w tmp hs hstale conns0 hc0 c hcm with hin | ⟨a0, ha0, _⟩
                · exact e2 (List.mem_cons_of_mem _ hin)
                · simp at ha0
            apply ihL s1 hJ1 hV1
            · have hfs : (worked_keys s1).toFinset = (worked_keys s).toFinset := by
                rw [hkeys, List.toFinset_cons]
                exact Finset.insert_eq_of_mem (List.mem_toFinset.2 hstale)
              rw [hfs]
              exact hk
            · rw [hwl1, hpushed]
              rw [hwl] at hL
              simp only [List.length_cons] at hL
              simp only [List.nil_append]
              omega
          · -- a new list: one list less is left
            apply ihk s1.worklist.length s1 hJ1 hV1 _ (Nat.le_refl _)
            have hwv : nfas_valid N (copy_nfa_list w.nfas) :=
              nfas_valid_copy N _ (hV.1 w (by rw [hwl]; simp))
            have hU := mem_key_universe N _ hwv
            have hlt : (key_universe N \ (worked_keys s1).toFinset).card <
                (key_universe N \ (worked_keys s).toFinset).card := by
              apply Finset.card_lt_card
              rw [hkeys, List.toFinset_cons]
              constructor
              · intro a ha
                rw [Finset.mem_sdiff] at ha ⊢
                exact ⟨ha.1, fun hh => ha.2 (Finset.mem_insert_of_mem hh)⟩
              · intro hsub
                have hmem : copy_nfa_list w.nfas ∈
                    key_universe N \ (worked_keys s).toFinset :=
                  Finset.mem_sdiff.2 ⟨hU, fun hh => hstale (List.mem_toFinset.1 hh)⟩
                have := hsub hmem
                rw [Finset.mem_sdiff] at this
                exact this.2 (Finset.mem_insert_self _ _)
            omega
        obtain ⟨n, s2, hn⟩ := hrec
        refine ⟨n + 1, s2, ?_⟩
        rw [nfa_to_dfa_loop, hwl]
        simp only [hstep]
        exact hn

theorem always_group_uniform (H : List nfa_node) (N : Nat)
    (hin : ∀ i, i < N → ∃ f g, always_group H f i = some g) :
    ∃ F, ∀ i, i < N → ∃ g, always_group H F i = some g := by
  induction N with
  | zero => exact ⟨0, fun i hi => absurd hi (Nat.not_lt_zero _)⟩
  | succ N ih =>
    obtain ⟨F, hF⟩ := ih (fun i hi => hin i (by omega))
    obtain ⟨f, g, hg⟩ := hin N (by omega)
    refine ⟨max F f, fun i hi => ?_⟩
    by_cases hiN : i < N
    · obtain ⟨g1, hg1⟩ := hF i hiN
      exact ⟨g1, always_group_mono H (Nat.le_max_left _ _) i g1 hg1⟩
    · have : i = N := by omega
      subst this
      exact ⟨g, always_group_mono H (Nat.le_max_right _ _) i g hg⟩

theorem always_group_total (H : List nfa_node)
    (hin : ∀ i, i < H.length → ∃ f g, always_group H f i = some g) :
    ∃ F, ∀ i, ∃ g, always_group H F i = some g := by
  obtain ⟨F, hF⟩ := always_group_uniform H H.length hin
  refine ⟨F + 1, fun i => ?_⟩
  by_cases hi : i < H.length
  · obtain ⟨g, hg⟩ := hF i hi
    exact ⟨g, always_group_mono H (Nat.le_succ _) i g hg⟩
  · exact always_group_no_edge H F i false (nfa_at_out_of_range H i (by omega))

theorem conns_of_edges_returns (h : List nfa_node) (fuel : Nat)
    (htot : ∀ i, ∃ g, always_group h fuel i = some g) (es : List nfa_edge) :
    ∀ conns, ∃ out, conns_of_edges h fuel es conns = some out := by
  induction es with
  | nil =>
    intro conns
    exact ⟨conns, rfl⟩
  | cons e es ih =>
    intro conns
    unfold conns_of_edges
    by_cases ha : e.always = true
    · rw [if_pos ha]
      exact ih conns
    · rw [if_neg ha]
      obtain ⟨g, hg⟩ := htot e.node
      rw [hg]
      exact ih _

theorem conns_of_nodes_returns (h : List nfa_node) (fuel : Nat)
    (htot : ∀ i, ∃ g, always_group h fuel i = some g) (ns : List Nat) :
    ∀ conns, ∃ out, conns_of_nodes h fuel ns conns = some out := by
  induction ns with
  | nil =>
    intro conns
    exact ⟨conns, rfl⟩
  | cons n ns ih =>
    intro conns
    unfold conns_of_nodes
    obtain ⟨c1, hc1⟩ := conns_of_edges_returns h fuel htot (nfa_at h n).next_l conns
    rw [hc1]
    exact ih c1

theorem eps_reach_bounded (h : List nfa_node) (N : Nat)
    (hclosed : ∀ n, ∀ e ∈ (nfa_at h n).next_l, e.node < N) (n m : Nat) (hn : n < N)
    (hr : eps_reach h n m) : m < N := by
  induction hr with
  | refl => exact hn
  | tail _ hstep _ =>
    obtain ⟨e, he, _, rfl⟩ := hstep
    exact hclosed _ e he

theorem always_group_valid (h : List nfa_node) (N : Nat)
    (hclosed : ∀ n, ∀ e ∈ (nfa_at h n).next_l, e.node < N)
    (hloop : ∀ n, ∀ e ∈ (nfa_at h n).next_l, e.always = false → e.node ≠ n)
    (fuel n : Nat) (g : always_g) (hn : n < N) (hg : always_group h fuel n = some g) :
    nfas_valid N g.nfas :=
  ⟨always_group_nodup h hloop fuel n g hg,
    fun m hm => eps_reach_bounded h N hclosed n m hn (((always_group_spec h fuel n g hg).1 m).1 hm)⟩

theorem nfas_valid_insert (N : Nat) (conns : List nfa_2dlist) (cond_ch : Nat)
    (isend : Bool) (nfas : List Nat) (hc : ∀ c ∈ conns, nfas_valid N c.nfas)
    (hn : nfas_valid N nfas) :
    ∀ c ∈ insert_into_conns conns cond_ch isend nfas, nfas_valid N c.nfas := by
  have hcopy := nfas_valid_copy N nfas hn
  have hmerge : ∀ c ∈ conns.map (fun it =>
      if it.cond_ch = cond_ch then
        ({ it with nfas := union_into_nfa_list it.nfas (copy_nfa_list nfas),
                   isend := it.isend || isend } : nfa_2dlist)
      else it), nfas_valid N c.nfas := by
    intro c hcm
    obtain ⟨it, hit, rfl⟩ := List.mem_map.1 hcm
    have hok := hc it hit
    by_cases he : it.cond_ch = cond_ch
    · rw [if_pos he]
      refine ⟨nodup_union_into_nfa_list _ _ hok.1 hcopy.1, fun m hm => ?_⟩
      rcases (mem_union_into_nfa_list _ _ m).1 hm with hm | hm
      · exact hok.2 m hm
      · exact hcopy.2 m hm
    · rw [if_neg he]
      exact hok
  intro c hcm
  unfold insert_into_conns at hcm
  by_cases hf : conns.any (fun it => it.cond_ch == cond_ch) = true
  · simp only [hf, if_true] at hcm
    exact hmerge c hcm
  · simp only [hf, Bool.false_eq_true, if_false, List.mem_cons] at hcm
    rcases hcm with rfl | hcm
    · exact hcopy
    · exact hmerge c hcm

theorem conns_of_edges_valid (h : List nfa_node) (N : Nat)
    (hclosed : ∀ n, ∀ e ∈ (nfa_at h n).next_l, e.node < N)
    (hloop : ∀ n, ∀ e ∈ (nfa_at h n).next_l, e.always = false → e.node ≠ n)
    (fuel : Nat) (es : List nfa_edge) (hes : ∀ e ∈ es, e.node < N) :
    ∀ (conns out : List nfa_2dlist), (∀ c ∈ conns, nfas_valid N c.nfas) →
      conns_of_edges h fuel es conns = some out → ∀ c ∈ out, nfas_valid N c.nfas := by
  induction es with
  | nil =>
    intro conns out hc he
    simp only [conns_of_edges, Option.some.injEq] at he
    exact he ▸ hc
  | cons e es ih =>
    intro conns out hc he
    unfold conns_of_edges at he
    have hes2 : ∀ e1 ∈ es, e1.node < N := fun e1 h1 => hes e1 (List.mem_cons_of_mem _ h1)
    by_cases ha : e.always = true
    · rw [if_pos ha] at he
      exact ih hes2 conns out hc he
    · rw [if_neg ha] at he
      cases hg : always_group h fuel e.node with
      | none => simp [hg] at he
      | some alw_g =>
        rw [hg] at he
        exact ih hes2 _ out
          (nfas_valid_insert N conns _ _ _ hc
            (always_group_valid h N hclosed hloop fuel e.node alw_g
              (hes e (List.mem_cons_self _ _)) hg)) he

theorem conns_of_nodes_valid (h : List nfa_node) (N : Nat)
    (hclosed : ∀ n, ∀ e ∈ (nfa_at h n).next_l, e.node < N)
    (hloop : ∀ n, ∀ e ∈ (nfa_at h n).next_l, e.always = false → e.node ≠ n)
    (fuel : Nat) (ns : List Nat) :
    ∀ (conns out : List nfa_2dlist), (∀ c ∈ conns, nfas_valid N c.nfas) →
      conns_of_nodes h fuel ns conns = some out → ∀ c ∈ out, nfas_valid N c.nfas := by
  induction ns with
  | nil =>
    intro conns out hc he
    simp only [conns_of_nodes, Option.some.injEq] at he
    exact he ▸ hc
  | cons n ns ih =>
    intro conns out hc he
    unfold conns_of_nodes at he
    cases hce : conns_of_edges h fuel (nfa_at h n).next_l conns with
    | none => simp [hce] at he
    | some conns1 =>
      rw [hce] at he
      exact ih conns1 out
        (conns_of_edges_valid h N hclosed hloop fuel _ (hclosed n) conns conns1 hc hce) he

/-- The subset construction returns on every NFA whose epsilon closures are
computed by `always_group` and whose consuming edges are not loops on one
node: with enough fuel `nfa_to_dfa_state` returns a final state. -/
theorem nfa_to_dfa_state_returns (h : List nfa_node) (nfa_in : nfa) (N : Nat)
    (hin : ∀ i, i < h.length → ∃ f g, always_group h f i = some g)
    (hclosed : ∀ n, ∀ e ∈ (nfa_at h n).next_l, e.node < N)
    (hloop : ∀ n, ∀ e ∈ (nfa_at h n).next_l, e.always = false → e.node ≠ n)
    (hstart : nfa_in.start < N) :
    ∃ fuel2 s, ∀ f, fuel2 ≤ f → nfa_to_dfa_state h f nfa_in = some s := by
  obtain ⟨F, htot⟩ := always_group_total h hin
  obtain ⟨g, hg⟩ := htot nfa_in.start
  have hgv := always_group_valid h N hclosed hloop F nfa_in.start g hstart hg
  obtain ⟨n, s1, hn⟩ := nfa_to_dfa_loop_terminates h F N
    (fun ns => conns_of_nodes_returns h F htot ns [])
    (fun ns conns _ hc => conns_of_nodes_valid h N hclosed hloop F ns [] conns (by simp) hc)
    ((key_universe N \ (worked_keys
      ⟨[⟨g.isend, []⟩], [⟨copy_nfa_list g.nfas, 0⟩], [], 1⟩).toFinset).card + 1) 1
    ⟨[⟨g.isend, []⟩], [⟨copy_nfa_list g.nfas, 0⟩], [], 1⟩
    (by
      intro above x below _ hx
      simp [worked_keys] at hx)
    (by
      constructor
      · intro x hx
        simp only [List.mem_singleton] at hx
        subst hx
        exact nfas_valid_copy N _ hgv
      · intro v hv
        simp at hv)
    (Nat.lt_succ_self _) (by simp)
  refine ⟨max F n, s1, fun f hf => ?_⟩
  unfold nfa_to_dfa_state
  rw [always_group_mono h (le_trans (Nat.le_max_left _ _) hf) _ _ hg]
  simp only [insert_into_dfagen_list, List.nil_append, List.length_nil]
  exact nfa_to_dfa_loop_mono h (le_trans (Nat.le_max_left _ _) hf) n f _ _
    (le_trans (Nat.le_max_right _ _) hf) hn

theorem frag_closed (p : List Nat) :
    ∀ n, ∀ e ∈ (nfa_at (frag_nodes p 0) n).next_l, e.node < frag_size p := by
  intro n e he
  by_cases hn : n < frag_size p
  · have := frag_edge_range p.length p 0 _ (Nat.le_refl _) (frag_in_self p) n hn e
      (by rw [Nat.zero_add]; exact he)
    omega
  · rw [nfa_at_out_of_range _ n (by rw [frag_nodes_len]; omega)] at he
    simp at he

theorem frag_no_loop (p : List Nat) :
    ∀ n, ∀ e ∈ (nfa_at (frag_nodes p 0) n).next_l, e.always = false → e.node ≠ n := by
  intro n e he ha
  by_cases hn : n < frag_size p
  · have := frag_consuming_edge p.length p 0 _ (Nat.le_refl _) (frag_in_self p) n hn e
      (by rw [Nat.zero_add]; exact he) ha
    omega
  · rw [nfa_at_out_of_range _ n (by rw [frag_nodes_len]; omega)] at he
    simp at he

theorem frag_nfa_to_dfa_state_returns (p : List Nat) :
    ∃ fuel2 s, ∀ f, fuel2 ≤ f →
      nfa_to_dfa_state (frag_nodes p 0) f ⟨frag_size p, frag_start p 0, frag_end p 0⟩ =
        some s := by
  apply nfa_to_dfa_state_returns (frag_nodes p 0) _ (frag_size p) _ (frag_closed p)
    (frag_no_loop p)
  · have := (frag_start_range p 0).2
    simpa using this
  · intro i hi
    rw [frag_nodes_len] at hi
    have := frag_always_group_returns p.length p 0 _ (Nat.le_refl _) (frag_in_self p) i hi
    rwa [Nat.zero_add] at this

/-! ### The node count of the DFA -/

theorem dfa_reach_mono (dh dh1 : List dfa_node)
    (hsub : ∀ i, ∀ e ∈ (dfa_at dh i).next_l, e ∈ (dfa_at dh1 i).next_l) (a b : Nat)
    (hr : dfa_reach dh a b) : dfa_reach dh1 a b := by
  induction hr with
  | refl => exact Relation.ReflTransGen.refl
  | tail _ hstep ih =>
    obtain ⟨e, he, rfl⟩ := hstep
    exact Relation.ReflTransGen.tail ih ⟨e, hsub _ e he, rfl⟩

theorem count_inv_push_edge (s : dfagen_state) (curr c n : Nat) (hI : count_inv s)
    (hn : n < s.dheap.length) :
    count_inv { s with dheap := dfa_push_edge s.dheap curr c n } := by
  obtain ⟨h1, h2, h3, h4, h5⟩ := hI
  refine ⟨?_, ?_, ?_, ?_, ?_⟩
  · simpa [length_dfa_push_edge] using h1
  · simpa [length_dfa_push_edge] using h2
  · simpa [length_dfa_push_edge] using h3
  · intro i e he
    simp only [length_dfa_push_edge]
    rw [dfa_at_push_edge] at he
    by_cases hc : i = curr ∧ curr < s.dheap.length
    · rw [if_pos hc] at he
      simp only [List.mem_cons] at he
      rcases he with rfl | he
      · exact hn
      · exact h4 curr e he
    · rw [if_neg hc] at he
      exact h4 i e he
  · intro i hi
    simp only [length_dfa_push_edge] at hi
    apply dfa_reach_mono s.dheap _ _ 0 i (h5 i hi)
    intro j e he
    rw [dfa_at_push_edge]
    by_cases hc : j = curr ∧ curr < s.dheap.length
    · rw [if_pos hc]
      simp only [List.mem_cons]
      right
      rw [← hc.1]
      exact he
    · rw [if_neg hc]
      exact he

theorem link_conns_count (curr : Nat) (cs : List nfa_2dlist) :
    ∀ s : dfagen_state, count_inv s → curr < s.dheap.length →
      count_inv (link_conns curr cs s) := by
  induction cs with
  | nil =>
    intro s hI _
    exact hI
  | cons c cs ih =>
    intro s hI hcurr
    rw [link_conns]
    cases hfind : find_dfagen_node s.worked_list c.nfas with
    | some tmp =>
      simp only []
      have htmp := (find_dfagen_node_some _ _ _ hfind).1
      apply ih
      · exact count_inv_push_edge s curr c.cond_ch tmp.node hI (hI.2.2.1 tmp htmp)
      · simpa [length_dfa_push_edge] using hcurr
    | none =>
      simp only [insert_into_dfagen_list]
      rw [set_last_append]
      have hlen : (s.dheap ++ [(⟨c.isend, []⟩ : dfa_node)]).length - 1 = s.dheap.length := by
        simp
      rw [hlen]
      obtain ⟨h1, h2, h3, h4, h5⟩ := hI
      have hI1 : count_inv
          { dheap := s.dheap ++ [(⟨c.isend, []⟩ : dfa_node)],
            worklist := ⟨copy_nfa_list c.nfas, s.dheap.length⟩ :: s.worklist,
            worked_list := s.worked_list,
            num_nodes := s.num_nodes + 1 } →
          count_inv
          { dheap := dfa_push_edge (s.dheap ++ [(⟨c.isend, []⟩ : dfa_node)]) curr c.cond_ch
              s.dheap.length,
            worklist := ⟨copy_nfa_list c.nfas, s.dheap.length⟩ :: s.worklist,
            worked_list := s.worked_list,
            num_nodes := s.num_nodes + 1 } := by
        intro hh
        exact count_inv_push_edge _ curr c.cond_ch s.dheap.length hh (by simp)
      -- the state after the allocation, before the edge to the new node
      have hsub : ∀ i, ∀ e ∈ (dfa_at s.dheap i).next_l,
          e ∈ (dfa_at (s.dheap ++ [(⟨c.isend, []⟩ : dfa_node)]) i).next_l := by
        intro i e he
        rw [dfa_at_append]
        by_cases hi : i < s.dheap.length
        · rw [if_pos hi]
          exact he
        · have hd : dfa_at s.dheap i = ⟨false, []⟩ := by
            simp [dfa_at, List.getD_eq_getElem?_getD, List.getElem?_eq_none (Nat.le_of_not_lt hi)]
          rw [hd] at he
          simp at he
      have hedges : ∀ i, ∀ e ∈ (dfa_at (s.dheap ++ [(⟨c.isend, []⟩ : dfa_node)]) i).next_l,
          e.node < s.dheap.length := by
        intro i e he
        rw [dfa_at_append] at he
        by_cases hi : i < s.dheap.length
        · rw [if_pos hi] at he
          exact h4 i e he
        · rw [if_neg hi] at he
          by_cases hi2 : i = s.dheap.length
          · rw [if_pos hi2] at he
            simp at he
          · rw [if_neg hi2] at he
            simp at he
      apply ih
      · refine ⟨?_, ?_, ?_, ?_, ?_⟩
        · simp [length_dfa_push_edge, h1.1]
        · intro w hw
          simp only [length_dfa_push_edge, List.length_append, List.length_singleton]
          rcases List.mem_cons.1 hw with rfl | hw
          · simp
          · exact Nat.lt_succ_of_lt (h2 w hw)
        · intro v hv
          simp only [length_dfa_push_edge, List.length_append, List.length_singleton]
          exact Nat.lt_succ_of_lt (h3 v hv)
        · intro i e he
          simp only [length_dfa_push_edge, List.length_append, List.length_singleton]
          rw [dfa_at_push_edge] at he
          by_cases hc : i = curr ∧ curr < (s.dheap ++ [(⟨c.isend, []⟩ : dfa_node)]).length
          · rw [if_pos hc] at he
            simp only [List.mem_cons] at he
            rcases he with rfl | he
            · simp
            · exact Nat.lt_succ_of_lt (hedges curr e he)
          · rw [if_neg hc] at he
            exact Nat.lt_succ_of_lt (hedges i e he)
        · intro i hi
          simp only [length_dfa_push_edge, List.length_append, List.length_singleton] at hi
          have hsub2 : ∀ j, ∀ e ∈ (dfa_at s.dheap j).next_l,
              e ∈ (dfa_at (dfa_push_edge (s.dheap ++ [(⟨c.isend, []⟩ : dfa_node)]) curr
                c.cond_ch s.dheap.length) j).next_l := by
            intro j e he
            rw [dfa_at_push_edge]
            by_cases hc : j = curr ∧ curr < (s.dheap ++ [(⟨c.isend, []⟩ : dfa_node)]).length
            · rw [if_pos hc]
              simp only [List.mem_cons]
              right
              rw [← hc.1]
              exact hsub j e he
            · rw [if_neg hc]
              exact hsub j e he
          by_cases hi2 : i < s.dheap.length
          · exact dfa_reach_mono _ _ hsub2 0 i (h5 i hi2)
          · have hiN : i = s.dheap.length := by omega
            subst hiN
            refine Relation.ReflTransGen.tail (dfa_reach_mono _ _ hsub2 0 curr (h5 curr hcurr))
              ⟨⟨c.cond_ch, s.dheap.length⟩, ?_, rfl⟩
            rw [dfa_at_push_edge, if_pos ⟨rfl, by simp; omega⟩]
            simp
      · simp only [length_dfa_push_edge, List.length_append, List.length_singleton]
        omega

theorem nfa_to_dfa_loop_count (h : List nfa_node) (fuel : Nat) (n : Nat) :
    ∀ s s1 : dfagen_state, count_inv s → nfa_to_dfa_loop h fuel n s = some s1 →
      count_inv s1 := by
  induction n with
  | zero =>
    intro s s1 _ hl
    simp [nfa_to_dfa_loop] at hl
  | succ n ih =>
    intro s s1 hI hl
    rw [nfa_to_dfa_loop] at hl
    cases hwl : s.worklist with
    | nil =>
      simp only [hwl, Option.some.injEq] at hl
      exact hl ▸ hI
    | cons w tmp =>
      simp only [hwl] at hl
      cases hstep : nfa_to_dfa_step h fuel s w tmp with
      | none => simp [hstep] at hl
      | some s2 =>
        simp only [hstep] at hl
        refine ih s2 s1 ?_ hl
        unfold nfa_to_dfa_step at hstep
        cases hc : conns_of_nodes h fuel w.nfas [] with
        | none => simp [hc] at hstep
        | some conns =>
          simp only [hc, Option.some.injEq] at hstep
          rw [← hstep]
          obtain ⟨h1, h2, h3, h4, h5⟩ := hI
          have hw : w.node < s.dheap.length := h2 w (by rw [hwl]; simp)
          apply link_conns_count
          · refine ⟨h1, ?_, ?_, h4, h5⟩
            · intro x hx
              exact h2 x (by rw [hwl]; exact List.mem_cons_of_mem _ hx)
            · intro v hv
              simp only [insert_node_into_dfagen_list, List.mem_cons] at hv
              rcases hv with rfl | hv
              · exact hw
              · exact h3 v hv
          · exact hw

theorem nfa_to_dfa_state_count (h : List nfa_node) (fuel : Nat) (nfa_in : nfa)
    (s : dfagen_state) (hs : nfa_to_dfa_state h fuel nfa_in = some s) : count_inv s := by
  unfold nfa_to_dfa_state at hs
  cases hg : always_group h fuel nfa_in.start with
  | none => simp [hg] at hs
  | some g =>
    simp only [hg, insert_into_dfagen_list, List.nil_append, List.length_nil] at hs
    refine nfa_to_dfa_loop_count h fuel fuel _ s ?_ hs
    refine ⟨⟨rfl, by simp⟩, ?_, ?_, ?_, ?_⟩
    · intro w hw
      simp only [List.mem_singleton] at hw
      subst hw
      simp
    · intro v hv
      simp at hv
    · intro i e he
      have hd : (dfa_at [(⟨g.isend, []⟩ : dfa_node)] i).next_l = [] := by
        cases i with
        | zero => rfl
        | succ i => simp [dfa_at]
      rw [hd] at he
      simp at he
    · intro i hi
      simp only [List.length_singleton] at hi
      have : i = 0 := by omega
      subst this
      exact Relation.ReflTransGen.refl

theorem nfa_to_dfa_state_of_dfa (h : List nfa_node) (fuel : Nat) (nfa_in : nfa)
    (dh : List dfa_node) (d : dfa) (hd : nfa_to_dfa h fuel nfa_in = some (dh, d)) :
    ∃ s, nfa_to_dfa_state h fuel nfa_in = some s ∧ dh = s.dheap ∧ d = ⟨s.num_nodes, 0⟩ := by
  unfold nfa_to_dfa at hd
  unfold nfa_to_dfa_state
  cases hg : always_group h fuel nfa_in.start with
  | none => simp [hg] at hd
  | some g =>
    simp only [hg] at hd ⊢
    cases hl : nfa_to_dfa_loop h fuel fuel
        ⟨(insert_into_dfagen_list [] [] g.isend g.nfas).1,
          (insert_into_dfagen_list [] [] g.isend g.nfas).2, [], 1⟩ with
    | none =>
      rw [hl] at hd
      simp at hd
    | some s =>
      rw [hl] at hd
      simp only [Option.some.injEq, Prod.mk.injEq] at hd
      exact ⟨s, rfl, hd.1.symm, hd.2.symm⟩

theorem nfa_to_dfa_loop_worklist (h : List nfa_node) (fuel : Nat) (n : Nat) :
    ∀ s s1 : dfagen_state, nfa_to_dfa_loop h fuel n s = some s1 → s1.worklist = [] := by
  induction n with
  | zero =>
    intro s s1 hl
    simp [nfa_to_dfa_loop] at hl
  | succ n ih =>
    intro s s1 hl
    rw [nfa_to_dfa_loop] at hl
    cases hwl : s.worklist with
    | nil =>
      simp only [hwl, Option.some.injEq] at hl
      rw [← hl]
      exact hwl
    | cons w tmp =>
      simp only [hwl] at hl
      cases hstep : nfa_to_dfa_step h fuel s w tmp with
      | none => simp [hstep] at hl
      | some s2 =>
        simp only [hstep] at hl
        exact ih s2 s1 hl

theorem nfa_to_dfa_state_worklist (h : List nfa_node) (fuel : Nat) (nfa_in : nfa)
    (s : dfagen_state) (hs : nfa_to_dfa_state h fuel nfa_in = some s) : s.worklist = [] := by
  unfold nfa_to_dfa_state at hs
  cases hg : always_group h fuel nfa_in.start with
  | none => simp [hg] at hs
  | some g =>
    simp only [hg] at hs
    exact nfa_to_dfa_loop_worklist h fuel fuel _ s hs

theorem dfa_reach_iff_allocated (s : dfagen_state) (hI : count_inv s) (n : Nat) :
    dfa_reach s.dheap 0 n ↔ n < s.dheap.length := by
  obtain ⟨⟨_, h0⟩, _, _, h4, h5⟩ := hI
  constructor
  · intro hr
    induction hr with
    | refl => exact h0
    | tail _ hstep _ =>
      obtain ⟨e, he, rfl⟩ := hstep
      exact h4 _ e he
  · exact h5 n

/-- C21: for every pattern without parentheses the worklist loop of
`nfa_to_dfa` on the NFA of the pattern returns: with enough fuel (a bound on the
number of iterations) the loop ends in a state whose worklist is empty, and
`nfa_to_dfa` returns the DFA of that state; the DFA nodes created are the
`num_nodes` nodes of the heap of that state. -/
theorem worklist_loop_terminates (p : List Nat) (fuel : Nat) (h : List nfa_node)
    (re_nfa : nfa) (hp : 40 ∉ p) (hg : generate_nfa fuel [] p = some (h, re_nfa)) :
    ∃ fuel2 s, s.worklist = [] ∧ s.num_nodes = s.dheap.length ∧
      ∀ f, fuel2 ≤ f → nfa_to_dfa_state h f re_nfa = some s ∧
        nfa_to_dfa h f re_nfa = some (s.dheap, ⟨s.num_nodes, 0⟩) := by
  have hr := generate_nfa_eq_layout p hp fuel [] _ hg
  simp only [List.nil_append, List.length_nil, Prod.mk.injEq] at hr
  obtain ⟨hh, hn⟩ := hr
  subst hh
  subst hn
  obtain ⟨fuel2, s, hs⟩ := frag_nfa_to_dfa_state_returns p
  have hs0 := hs fuel2 (Nat.le_refl _)
  refine ⟨fuel2, s, nfa_to_dfa_state_worklist _ _ _ s hs0,
    (nfa_to_dfa_state_count _ _ _ s hs0).1.1, fun f hf => ?_⟩
  exact ⟨hs f hf, nfa_to_dfa_of_state _ _ _ s (hs f hf)⟩

/-- Witness of C21: the NFA of the pattern `a*b`. -/
theorem worklist_loop_terminates_witness :
    (40 ∉ bytes "a*b" ∧ generate_nfa 8 [] (bytes "a*b") = some (nh_astar_b, ⟨5, 4, 3⟩)) ∧
      ∃ fuel2 s, s.worklist = [] ∧ s.num_nodes = s.dheap.length ∧
        ∀ f, fuel2 ≤ f → nfa_to_dfa_state nh_astar_b f ⟨5, 4, 3⟩ = some s ∧
          nfa_to_dfa nh_astar_b f ⟨5, 4, 3⟩ = some (s.dheap, ⟨s.num_nodes, 0⟩) :=
  ⟨by decide,
    worklist_loop_terminates (bytes "a*b") 8 nh_astar_b ⟨5, 4, 3⟩ (by decide) (by decide)⟩

/-- C27: for every pattern without parentheses `nfa_to_dfa` returns, on the NFA
of the pattern, a DFA whose `num_nodes` is the number of DFA nodes allocated;
the nodes reachable from the start node of the DFA are exactly the allocated
nodes, so their number is `num_nodes`. -/
theorem dfa_num_nodes_counts_reachable (p : List Nat) (fuel : Nat) (h : List nfa_node)
    (re_nfa : nfa) (hp : 40 ∉ p) (hg : generate_nfa fuel [] p = some (h, re_nfa)) :
    ∃ fuel2 dh d, (∀ f, fuel2 ≤ f → nfa_to_dfa h f re_nfa = some (dh, d)) ∧
      d.num_nodes = dh.length ∧ (∀ n, dfa_reach dh d.start n ↔ n < d.num_nodes) ∧
      Set.ncard {n | dfa_reach dh d.start n} = d.num_nodes := by
  have hr := generate_nfa_eq_layout p hp fuel [] _ hg
  simp only [List.nil_append, List.length_nil, Prod.mk.injEq] at hr
  obtain ⟨hh, hn⟩ := hr
  subst hh
  subst hn
  obtain ⟨fuel2, s, hs⟩ := frag_nfa_to_dfa_state_returns p
  have hs0 := hs fuel2 (Nat.le_refl _)
  have hI := nfa_to_dfa_state_count _ _ _ s hs0
  have hiff : ∀ n, dfa_reach s.dheap 0 n ↔ n < s.num_nodes := by
    intro n
    rw [hI.1.1]
    exact dfa_reach_iff_allocated s hI n
  refine ⟨fuel2, s.dheap, ⟨s.num_nodes, 0⟩,
    fun f hf => nfa_to_dfa_of_state _ _ _ s (hs f hf), hI.1.1, hiff, ?_⟩
  have hset : {n | dfa_reach s.dheap 0 n} =
      ((Finset.range s.num_nodes : Finset Nat) : Set Nat) := by
    ext n
    simp [hiff]
  show Set.ncard {n | dfa_reach s.dheap 0 n} = s.num_nodes
  rw [hset, Set.ncard_coe_Finset, Finset.card_range]

/-- Witness of C27: the NFA of the pattern `a*b`, whose DFA has four nodes. -/
theorem dfa_num_nodes_counts_reachable_witness :
    (40 ∉ bytes "a*b" ∧ generate_nfa 8 [] (bytes "a*b") = some (nh_astar_b, ⟨5, 4, 3⟩)) ∧
      ∃ fuel2 dh d, (∀ f, fuel2 ≤ f → nfa_to_dfa nh_astar_b f ⟨5, 4, 3⟩ = some (dh, d)) ∧
        d.num_nodes = dh.length ∧ (∀ n, dfa_reach dh d.start n ↔ n < d.num_nodes) ∧
        Set.ncard {n | dfa_reach dh d.start n} = d.num_nodes :=
  ⟨by decide,
    dfa_num_nodes_counts_reachable (bytes "a*b") 8 nh_astar_b ⟨5, 4, 3⟩ (by decide)
      (by decide)⟩

/-! ### The backtracking matcher and the language of the pattern -/

theorem matchstar_loop_iff (mh : List Nat → Bool) (c : Nat) (T : List Nat) (hT : 0 ∉ T) :
    Backtracking.matchstar_loop mh c T = true ↔
      ∃ j, j ≤ T.length ∧ (∀ b ∈ T.take j, char_match c b = true) ∧ mh (T.drop j) = true := by
  induction T with
  | nil =>
    simp [Backtracking.matchstar_loop]
  | cons t text ih =>
    have ht : t ≠ 0 := fun e => hT (by simp [e])
    have htext : 0 ∉ text := fun e => hT (by simp [e])
    rw [Backtracking.matchstar_loop]
    by_cases h0 : mh (t :: text) = true
    · rw [if_pos h0]
      simp only [h0, true_iff]
      exact ⟨0, by simp, by simp, by simpa using h0⟩
    · rw [if_neg h0]
      by_cases hstop : (c ≠ 46 ∧ t ≠ c) ∨ t = 0
      · rw [if_pos hstop]
        simp only [Bool.false_eq_true, false_iff]
        rintro ⟨j, hj, hall, hm⟩
        cases j with
        | zero =>
          simp only [List.drop_zero] at hm
          exact h0 hm
        | succ j =>
          have := hall t (by simp)
          rcases hstop with ⟨h1, h2⟩ | h3
          · simp [char_match, h1, Ne.symm h2] at this
          · exact ht h3
      · rw [if_neg hstop, ih htext]
        have hcm : char_match c t = true := by
          simp only [not_or, not_and_or, not_not] at hstop
          rcases hstop.1 with h1 | h1
          · simp [char_match, h1]
          · simp [char_match, h1]
        constructor
        · rintro ⟨j, hj, hall, hm⟩
          refine ⟨j + 1, by simp; omega, ?_, by simpa using hm⟩
          intro b hb
          simp only [List.take_succ_cons, List.mem_cons] at hb
          rcases hb with rfl | hb
          · exact hcm
          · exact hall b hb
        · rintro ⟨j, hj, hall, hm⟩
          cases j with
          | zero =>
            simp only [List.drop_zero] at hm
            exact absurd hm h0
          | succ j =>
            refine ⟨j, by simp at hj; omega, ?_, by simpa using hm⟩
            intro b hb
            exact hall b (by simp [hb])

theorem match_loop_iff (regex : List Nat) (T : List Nat) (hT : 0 ∉ T) :
    Backtracking.match_loop regex T = true ↔
      ∃ o, o ≤ T.length ∧ Backtracking.matchhere regex (T.drop o) = true := by
  induction T with
  | nil =>
    simp [Backtracking.match_loop]
  | cons t text ih =>
    have ht : t ≠ 0 := fun e => hT (by simp [e])
    have htext : 0 ∉ text := fun e => hT (by simp [e])
    rw [Backtracking.match_loop]
    by_cases h0 : Backtracking.matchhere regex (t :: text) = true
    · rw [if_pos h0]
      simp only [true_iff]
      exact ⟨0, by simp, by simpa using h0⟩
    · rw [if_neg h0, if_pos ht, ih htext]
      constructor
      · rintro ⟨o, ho, hm⟩
        exact ⟨o + 1, by simp; omega, by simpa using hm⟩
      · rintro ⟨o, ho, hm⟩
        cases o with
        | zero =>
          simp only [List.drop_zero] at hm
          exact absurd hm h0
        | succ o => exact ⟨o, by simp at ho; omega, by simpa using hm⟩

theorem char_step_iff (c : Nat) (T : List Nat) (hT : 0 ∉ T) :
    (T.headD 0 ≠ 0 ∧ (c = 46 ∨ c = T.headD 0)) ↔
      ∃ b rest, T = b :: rest ∧ char_match c b = true := by
  cases T with
  | nil => simp
  | cons t text =>
    have ht : t ≠ 0 := fun e => hT (by simp [e])
    simp [char_match, ht]

theorem prefix_atom_mul (c : Nat) (L : Language Nat) (me : Bool) (T : List Nat) :
    (∃ k, k ≤ T.length ∧ T.take k ∈ atom_lang c * L ∧ (me = false ∨ k = T.length)) ↔
      ∃ b rest, T = b :: rest ∧ char_match c b = true ∧
        ∃ k, k ≤ rest.length ∧ rest.take k ∈ L ∧ (me = false ∨ k = rest.length) := by
  constructor
  · rintro ⟨k, hk, hmem, hend⟩
    rw [Language.mem_mul] at hmem
    obtain ⟨a, ⟨b, rfl, hc⟩, v, hv, hav⟩ := hmem
    cases T with
    | nil => simp at hav
    | cons t text =>
      cases k with
      | zero => simp at hav
      | succ k =>
        simp only [List.take_succ_cons, List.singleton_append, List.cons.injEq] at hav
        obtain ⟨rfl, rfl⟩ := hav
        refine ⟨b, text, rfl, hc, k, by simp at hk; omega, hv, ?_⟩
        rcases hend with h | h
        · exact Or.inl h
        · right
          simp at h
          exact h
  · rintro ⟨b, rest, rfl, hc, k, hk, hmem, hend⟩
    refine ⟨k + 1, by simp; omega, ?_, ?_⟩
    · rw [Language.mem_mul]
      exact ⟨[b], ⟨b, rfl, hc⟩, rest.take k, hmem, by simp⟩
    · rcases hend with h | h
      · exact Or.inl h
      · right
        simp [h]

theorem prefix_star_mul (c : Nat) (L : Language Nat) (me : Bool) (T : List Nat) :
    (∃ k, k ≤ T.length ∧ T.take k ∈ KStar.kstar (atom_lang c) * L ∧
        (me = false ∨ k = T.length)) ↔
      ∃ j, j ≤ T.length ∧ (∀ b ∈ T.take j, char_match c b = true) ∧
        ∃ k, k ≤ (T.drop j).length ∧ (T.drop j).take k ∈ L ∧
          (me = false ∨ k = (T.drop j).length) := by
  constructor
  · rintro ⟨k, hk, hmem, hend⟩
    rw [Language.mem_mul] at hmem
    obtain ⟨u, hu, v, hv, huv⟩ := hmem
    rw [mem_kstar_atom_lang] at hu
    have hlen : u.length + v.length = k := by
      have := congrArg List.length huv
      simp only [List.length_append, List.length_take] at this
      omega
    have hu2 : u = T.take u.length := by
      have := congrArg (List.take u.length) huv
      simp only [List.take_left', List.take_take] at this
      rwa [Nat.min_eq_left (by omega)] at this
    have hv2 : v = (T.drop u.length).take v.length := by
      have := congrArg (List.drop u.length) huv
      simp only [List.drop_left', List.drop_take] at this
      rwa [show k - u.length = v.length by omega] at this
    refine ⟨u.length, by omega, ?_, v.length, ?_, ?_, ?_⟩
    · rw [← hu2]
      exact hu
    · simp only [List.length_drop]
      omega
    · rw [← hv2]
      exact hv
    · rcases hend with h | h
      · exact Or.inl h
      · right
        simp only [List.length_drop]
        omega
  · rintro ⟨j, hj, hall, k, hk, hmem, hend⟩
    simp only [List.length_drop] at hk hend
    refine ⟨j + k, by omega, ?_, ?_⟩
    · rw [Language.mem_mul]
      refine ⟨T.take j, (mem_kstar_atom_lang c _).2 hall, (T.drop j).take k, hmem, ?_⟩
      rw [List.take_add]
    · rcases hend with h | h
      · exact Or.inl h
      · right
        omega

theorem matchhere_suffix_iff (me : Bool) (T : List Nat) (hT : 0 ∉ T) :
    Backtracking.matchhere (if me = true then [36] else []) T = true ↔
      ∃ k, k ≤ T.length ∧ T.take k ∈ (1 : Language Nat) ∧ (me = false ∨ k = T.length) := by
  cases me with
  | false =>
    simp only [Bool.false_eq_true, if_false, Backtracking.matchhere, true_iff]
    exact ⟨0, by simp, by simp, by simp⟩
  | true =>
    simp only [if_true, Backtracking.matchhere, Language.mem_one]
    cases T with
    | nil => simp
    | cons t text =>
      have ht : t ≠ 0 := fun e => hT (by simp [e])
      simp only [List.headD_cons, beq_iff_eq, ht, false_iff]
      rintro ⟨k, _, h1, h2⟩
      rcases h2 with h2 | h2
      · simp at h2
      · subst h2
        simp at h1

theorem is_atom_ne (c : Nat) (hc : is_atom c = true) : c ≠ 36 ∧ c ≠ 42 ∧ c ≠ 0 ∧ c ≠ 94 := by
  simp [is_atom] at hc
  exact ⟨hc.1.1.1.2, hc.1.1.2, hc.1.1.1.1.1, hc.1.1.1.1.2⟩

/-- The backtracking `matchhere` on a simple pattern with an optional final
`$`: it succeeds exactly when a prefix of the text is in the language of the
pattern, the whole text when the `$` is there. -/
theorem matchhere_iff (n : Nat) :
    ∀ p : List Nat, p.length ≤ n → simple_pattern p = true →
      ∀ (me : Bool) (T : List Nat), 0 ∉ T →
        (Backtracking.matchhere (p ++ if me = true then [36] else []) T = true ↔
          ∃ k, k ≤ T.length ∧ T.take k ∈ pattern_lang p ∧ (me = false ∨ k = T.length)) := by
  induction n with
  | zero =>
    intro p hl _ me T hT
    have hp : p = [] := List.length_eq_zero.1 (Nat.le_zero.1 hl)
    subst hp
    simpa [pattern_lang] using matchhere_suffix_iff me T hT
  | succ n ih =>
    intro p hl hs me T hT
    match p, hl, hs with
    | [], _, _ => simpa [pattern_lang] using matchhere_suffix_iff me T hT
    | [c], _, hs =>
      have hc : is_atom c = true := by simpa [simple_pattern] using hs
      obtain ⟨h36, h42, _, _⟩ := is_atom_ne c hc
      have hlang : pattern_lang [c] = atom_lang c * pattern_lang [] := by
        simp [pattern_lang]
      rw [hlang, prefix_atom_mul]
      have ih0 := ih [] (by simp) (by simp [simple_pattern]) me
      cases me with
      | false =>
        simp only [Bool.false_eq_true, if_false, List.append_nil, Backtracking.matchhere,
          if_neg h36]
        by_cases hcond : T.headD 0 ≠ 0 ∧ (c = 46 ∨ c = T.headD 0)
        · rw [if_pos hcond]
          obtain ⟨b, rest, rfl, hm⟩ := (char_step_iff c T hT).1 hcond
          simp only [true_iff]
          exact ⟨b, rest, rfl, hm, 0, by simp, by simp [pattern_lang], by simp⟩
        · rw [if_neg hcond]
          simp only [Bool.false_eq_true, false_iff]
          rintro ⟨b, rest, rfl, hm, _⟩
          exact hcond ((char_step_iff c _ hT).2 ⟨b, rest, rfl, hm⟩)
      | true =>
        simp only [if_true, List.singleton_append]
        have h3642 : (36 : Nat) ≠ 42 := by decide
        rw [Backtracking.matchhere, if_neg h3642]
        by_cases hcond : T.headD 0 ≠ 0 ∧ (c = 46 ∨ c = T.headD 0)
        · rw [if_pos hcond]
          obtain ⟨b, rest, rfl, hm⟩ := (char_step_iff c T hT).1 hcond
          have hrest : 0 ∉ rest := fun e => hT (by simp [e])
          have := ih0 rest hrest
          simp only [if_true, List.nil_append] at this
          simp only [List.drop_succ_cons, List.drop_zero]
          rw [this]
          constructor
          · intro hh
            exact ⟨b, rest, rfl, hm, hh⟩
          · rintro ⟨b1, rest1, he, _, hh⟩
            simp only [List.cons.injEq] at he
            obtain ⟨rfl, rfl⟩ := he
            exact hh
        · rw [if_neg hcond]
          simp only [Bool.false_eq_true, false_iff]
          rintro ⟨b, rest, rfl, hm, _⟩
          exact hcond ((char_step_iff c _ hT).2 ⟨b, rest, rfl, hm⟩)
    | c :: d :: rest, hl, hs =>
      simp only [simple_pattern, Bool.and_eq_true] at hs
      obtain ⟨hc, hs2⟩ := hs
      by_cases hd : d = 42
      · subst hd
        simp only [if_true] at hs2
        have ihr := ih rest (by simp at hl; omega) hs2 me
        simp only [List.cons_append]
        rw [Backtracking.matchhere, if_pos rfl, matchstar_loop_iff _ c T hT]
        simp only [pattern_lang, if_true]
        rw [prefix_star_mul]
        constructor
        · rintro ⟨j, hj, hall, hm⟩
          have hdrop : 0 ∉ T.drop j := fun e => hT (List.mem_of_mem_drop e)
          exact ⟨j, hj, hall, (ihr _ hdrop).1 hm⟩
        · rintro ⟨j, hj, hall, hm⟩
          have hdrop : 0 ∉ T.drop j := fun e => hT (List.mem_of_mem_drop e)
          exact ⟨j, hj, hall, (ihr _ hdrop).2 hm⟩
      · simp only [hd, if_false] at hs2
        have ihr := ih (d :: rest) (by simp at hl ⊢; omega) hs2 me
        simp only [List.cons_append]
        rw [Backtracking.matchhere, if_neg hd]
        simp only [pattern_lang, if_neg hd]
        rw [prefix_atom_mul]
        by_cases hcond : T.headD 0 ≠ 0 ∧ (c = 46 ∨ c = T.headD 0)
        · rw [if_pos hcond]
          obtain ⟨b, rest1, rfl, hm⟩ := (char_step_iff c T hT).1 hcond
          have hrest : 0 ∉ rest1 := fun e => hT (by simp [e])
          have := ihr rest1 hrest
          simp only [List.cons_append] at this
          simp only [List.drop_succ_cons, List.drop_zero]
          rw [this]
          constructor
          · intro hh
            exact ⟨b, rest1, rfl, hm, hh⟩
          · rintro ⟨b1, rest2, he, _, hh⟩
            simp only [List.cons.injEq] at he
            obtain ⟨rfl, rfl⟩ := he
            exact hh
        · rw [if_neg hcond]
          simp only [Bool.false_eq_true, false_iff]
          rintro ⟨b, rest1, rfl, hm, _⟩
          exact hcond ((char_step_iff c _ hT).2 ⟨b, rest1, rfl, hm⟩)

/-! ### The DFA follows the NFA -/

theorem edges_move_append (h : List nfa_node) (E F : List nfa_edge) (b m : Nat) :
    edges_move h (E ++ F) b m ↔ edges_move h E b m ∨ edges_move h F b m := by
  unfold edges_move
  constructor
  · rintro ⟨e, he, h1, h2, h3⟩
    rcases List.mem_append.1 he with he | he
    · exact Or.inl ⟨e, he, h1, h2, h3⟩
    · exact Or.inr ⟨e, he, h1, h2, h3⟩
  · rintro (⟨e, he, h1, h2, h3⟩ | ⟨e, he, h1, h2, h3⟩)
    · exact ⟨e, List.mem_append_left _ he, h1, h2, h3⟩
    · exact ⟨e, List.mem_append_right _ he, h1, h2, h3⟩

theorem edges_move_single (h : List nfa_node) (e : nfa_edge) (b m : Nat) :
    edges_move h [e] b m ↔ e.always = false ∧ e.cond_ch = b ∧ eps_reach h e.node m := by
  simp [edges_move]

theorem conns_rep_insert (h : List nfa_node) (fuel : Nat) (E : List nfa_edge)
    (conns : List nfa_2dlist) (e : nfa_edge) (g : always_g) (hr : conns_rep h E conns)
    (ha : e.always = false) (hg : always_group h fuel e.node = some g) :
    conns_rep h (E ++ [e]) (insert_into_conns conns e.cond_ch g.isend g.nfas) := by
  obtain ⟨r1, r2, r3⟩ := hr
  have hgm : ∀ m, m ∈ g.nfas ↔ eps_reach h e.node m := (always_group_spec h fuel _ g hg).1
  have hmerge : ∀ c ∈ conns.map (fun it =>
      if it.cond_ch = e.cond_ch then
        ({ it with nfas := union_into_nfa_list it.nfas (copy_nfa_list g.nfas),
                   isend := it.isend || g.isend } : nfa_2dlist)
      else it),
      (∀ m, m ∈ c.nfas ↔ edges_move h (E ++ [e]) c.cond_ch m) ∧
        ∃ e1 ∈ E ++ [e], e1.always = false ∧ e1.cond_ch = c.cond_ch := by
    intro c hcm
    obtain ⟨it, hit, rfl⟩ := List.mem_map.1 hcm
    by_cases he : it.cond_ch = e.cond_ch
    · rw [if_pos he]
      refine ⟨fun m => ?_, e, by simp, ha, he.symm⟩
      simp only [mem_union_into_nfa_list, mem_copy_nfa_list, edges_move_append,
        edges_move_single, r1 it hit m, hgm m, ha, he, true_and]
    · rw [if_neg he]
      obtain ⟨e1, he1, h1, h2⟩ := r3 it hit
      refine ⟨fun m => ?_, e1, List.mem_append_left _ he1, h1, h2⟩
      rw [edges_move_append, edges_move_single, r1 it hit m]
      constructor
      · exact Or.inl
      · rintro (hh | ⟨_, h2, _⟩)
        · exact hh
        · exact absurd h2.symm he
  have hmap : ∀ b, (∃ c ∈ conns, c.cond_ch = b) → ∃ c ∈ conns.map (fun it =>
      if it.cond_ch = e.cond_ch then
        ({ it with nfas := union_into_nfa_list it.nfas (copy_nfa_list g.nfas),
                   isend := it.isend || g.isend } : nfa_2dlist)
      else it), c.cond_ch = b := by
    rintro b ⟨c, hc, rfl⟩
    refine ⟨_, List.mem_map.2 ⟨c, hc, rfl⟩, ?_⟩
    by_cases he : c.cond_ch = e.cond_ch
    · rw [if_pos he]
    · rw [if_neg he]
  unfold insert_into_conns
  by_cases hf : conns.any (fun it => it.cond_ch == e.cond_ch) = true
  · simp only [hf, if_true]
    refine ⟨fun c hc => (hmerge c hc).1, ?_, fun c hc => (hmerge c hc).2⟩
    intro b m hbm
    rw [edges_move_append, edges_move_single] at hbm
    rcases hbm with hbm | ⟨_, h2, _⟩
    · exact hmap b (r2 b m hbm)
    · simp only [List.any_eq_true, beq_iff_eq] at hf
      obtain ⟨c, hc, hce⟩ := hf
      exact hmap b ⟨c, hc, hce.trans h2⟩
  · simp only [hf, Bool.false_eq_true, if_false]
    have hnone : ∀ c ∈ conns, c.cond_ch ≠ e.cond_ch := by
      intro c hc hce
      apply hf
      simp only [List.any_eq_true, beq_iff_eq]
      exact ⟨c, hc, hce⟩
    refine ⟨?_, ?_, ?_⟩
    · intro c hc m
      rcases List.mem_cons.1 hc with rfl | hc
      · simp only [mem_copy_nfa_list, edges_move_append, edges_move_single, hgm m, ha,
          true_and]
        constructor
        · exact Or.inr
        · rintro (hh | hh)
          · obtain ⟨c1, hc1, hce⟩ := r2 _ m hh
            exact absurd hce (hnone c1 hc1)
          · exact hh
      · exact (hmerge c hc).1 m
    · intro b m hbm
      rw [edges_move_append, edges_move_single] at hbm
      rcases hbm with hbm | ⟨_, h2, _⟩
      · obtain ⟨c, hc, hcb⟩ := hmap b (r2 b m hbm)
        exact ⟨c, List.mem_cons_of_mem _ hc, hcb⟩
      · exact ⟨_, List.mem_cons_self _ _, h2⟩
    · intro c hc
      rcases List.mem_cons.1 hc with rfl | hc
      · exact ⟨e, by simp, ha, rfl⟩
      · exact (hmerge c hc).2

theorem conns_rep_eps (h : List nfa_node) (E : List nfa_edge) (conns : List nfa_2dlist)
    (e : nfa_edge) (hr : conns_rep h E conns) (ha : e.always = true) :
    conns_rep h (E ++ [e]) conns := by
  obtain ⟨r1, r2, r3⟩ := hr
  have hiff : ∀ b m, edges_move h (E ++ [e]) b m ↔ edges_move h E b m := by
    intro b m
    rw [edges_move_append, edges_move_single]
    simp [ha]
  refine ⟨fun c hc m => ?_, fun b m hbm => ?_, fun c hc => ?_⟩
  · rw [hiff]
    exact r1 c hc m
  · rw [hiff] at hbm
    exact r2 b m hbm
  · obtain ⟨e1, he1, h1, h2⟩ := r3 c hc
    exact ⟨e1, List.mem_append_left _ he1, h1, h2⟩

theorem conns_of_edges_rep (h : List nfa_node) (fuel : Nat) (es : List nfa_edge) :
    ∀ (E : List nfa_edge) (conns out : List nfa_2dlist), conns_rep h E conns →
      conns_of_edges h fuel es conns = some out → conns_rep h (E ++ es) out := by
  induction es with
  | nil =>
    intro E conns out hr he
    simp only [conns_of_edges, Option.some.injEq] at he
    subst he
    simpa using hr
  | cons e es ih =>
    intro E conns out hr he
    unfold conns_of_edges at he
    have happ : E ++ e :: es = (E ++ [e]) ++ es := by simp
    rw [happ]
    by_cases ha : e.always = true
    · rw [if_pos ha] at he
      exact ih _ conns out (conns_rep_eps h E conns e hr ha) he
    · rw [if_neg ha] at he
      cases hg : always_group h fuel e.node with
      | none => simp [hg] at he
      | some g =>
        rw [hg] at he
        exact ih _ _ out (conns_rep_insert h fuel E conns e g hr (by simpa using ha) hg) he

theorem conns_of_nodes_rep (h : List nfa_node) (fuel : Nat) (ns : List Nat) :
    ∀ (E : List nfa_edge) (conns out : List nfa_2dlist), conns_rep h E conns →
      conns_of_nodes h fuel ns conns = some out →
        conns_rep h (E ++ ns.flatMap (fun n => (nfa_at h n).next_l)) out := by
  induction ns with
  | nil =>
    intro E conns out hr he
    simp only [conns_of_nodes, Option.some.injEq] at he
    subst he
    simpa using hr
  | cons n ns ih =>
    intro E conns out hr he
    unfold conns_of_nodes at he
    cases hce : conns_of_edges h fuel (nfa_at h n).next_l conns with
    | none => simp [hce] at he
    | some conns1 =>
      rw [hce] at he
      have := ih _ conns1 out (conns_of_edges_rep h fuel _ E conns conns1 hr hce) he
      simpa [List.flatMap_cons, List.append_assoc] using this

theorem edges_move_flatMap (h : List nfa_node) (S : List Nat) (b m : Nat) :
    edges_move h (S.flatMap (fun n => (nfa_at h n).next_l)) b m ↔ move_closure h S b m := by
  unfold move_closure edges_move
  constructor
  · rintro ⟨e, he, h1, h2, h3⟩
    obtain ⟨n, hn, hen⟩ := List.mem_flatMap.1 he
    exact ⟨n, hn, e, hen, h1, h2, h3⟩
  · rintro ⟨n, hn, e, hen, h1, h2, h3⟩
    exact ⟨e, List.mem_flatMap.2 ⟨n, hn, hen⟩, h1, h2, h3⟩

/-- What `conns` holds after the loops of lines 290-301 over the NFA nodes `S`:
one entry for every label of a consuming edge that leaves `S`, with the closure
of the targets of the edges with that label. -/
theorem conns_of_nodes_spec (h : List nfa_node) (fuel : Nat) (S : List Nat)
    (conns : List nfa_2dlist) (hc : conns_of_nodes h fuel S [] = some conns) :
    (∀ c ∈ conns, ∀ m, m ∈ c.nfas ↔ move_closure h S c.cond_ch m) ∧
      (∀ b m, move_closure h S b m → ∃ c ∈ conns, c.cond_ch = b) ∧
      ∀ c ∈ conns, ∃ n ∈ S, ∃ e ∈ (nfa_at h n).next_l, e.always = false ∧
        e.cond_ch = c.cond_ch := by
  have hrep := conns_of_nodes_rep h fuel S [] [] conns
    ⟨by simp, by simp [edges_move], by simp⟩ hc
  simp only [List.nil_append] at hrep
  obtain ⟨r1, r2, r3⟩ := hrep
  refine ⟨fun c hcm m => ?_, fun b m hbm => ?_, fun c hcm => ?_⟩
  · rw [← edges_move_flatMap]
    exact r1 c hcm m
  · rw [← edges_move_flatMap] at hbm
    exact r2 b m hbm
  · obtain ⟨e, he, h1, h2⟩ := r3 c hcm
    obtain ⟨n, hn, hen⟩ := List.mem_flatMap.1 he
    exact ⟨n, hn, e, hen, h1, h2⟩

theorem link_conns_cons (curr : Nat) (c : nfa_2dlist) (cs : List nfa_2dlist)
    (s : dfagen_state) :
    link_conns curr (c :: cs) s = link_conns curr cs (link_conn curr c s) := by
  rw [link_conns, link_conn]
  cases hfind : find_dfagen_node s.worked_list c.nfas with
  | some tmp => rfl
  | none =>
    simp only [insert_into_dfagen_list]
    rw [set_last_append]
    simp

theorem dfa_at_out_of_range (dh : List dfa_node) (q : Nat) (hq : dh.length ≤ q) :
    dfa_at dh q = ⟨false, []⟩ := by
  simp [dfa_at, List.getD_eq_getElem?_getD, List.getElem?_eq_none hq]

/-- What one iteration of `link_conns` does: one edge more on the current node, to
the node of an entry that lists the nodes of `c`; the other nodes are as before. -/
theorem link_conn_effect (curr : Nat) (c : nfa_2dlist) (s : dfagen_state)
    (hcurr : curr < s.dheap.length) :
    ∃ t v1,
      (dfa_at (link_conn curr c s).dheap curr).next_l =
          ⟨c.cond_ch, t⟩ :: (dfa_at s.dheap curr).next_l ∧
        (v1 ∈ (link_conn curr c s).worklist ∨ v1 ∈ (link_conn curr c s).worked_list) ∧
        v1.node = t ∧ (∀ m, m ∈ v1.nfas ↔ m ∈ c.nfas) ∧
        (link_conn curr c s).worked_list = s.worked_list ∧
        (((link_conn curr c s).worklist = s.worklist ∧
            (link_conn curr c s).dheap.length = s.dheap.length) ∨
          ((link_conn curr c s).worklist =
              ⟨copy_nfa_list c.nfas, s.dheap.length⟩ :: s.worklist ∧
            (link_conn curr c s).dheap.length = s.dheap.length + 1)) ∧
        (∀ q, q ≠ curr → q < s.dheap.length →
          dfa_at (link_conn curr c s).dheap q = dfa_at s.dheap q) ∧
        ∀ q, s.dheap.length ≤ q → (dfa_at (link_conn curr c s).dheap q).next_l = [] := by
  unfold link_conn
  cases hfind : find_dfagen_node s.worked_list c.nfas with
  | some tmp =>
    obtain ⟨htmp, hk⟩ := find_dfagen_node_some _ _ _ hfind
    refine ⟨tmp.node, tmp, ?_, Or.inr htmp, rfl, fun m => by rw [hk], rfl,
      Or.inl ⟨rfl, by simp [length_dfa_push_edge]⟩, ?_, ?_⟩
    · simp only []
      rw [dfa_at_push_edge, if_pos ⟨rfl, hcurr⟩]
    · intro q hq _
      simp only []
      rw [dfa_at_push_edge, if_neg (fun hh => hq hh.1)]
    · intro q hq
      simp only []
      rw [dfa_at_push_edge, if_neg (fun hh => by omega), dfa_at_out_of_range _ q hq]
  | none =>
    have hlen : curr < (s.dheap ++ [(⟨c.isend, []⟩ : dfa_node)]).length := by
      simp
      omega
    refine ⟨s.dheap.length, ⟨copy_nfa_list c.nfas, s.dheap.length⟩, ?_, Or.inl (by simp), rfl,
      fun m => mem_copy_nfa_list _ m, rfl,
      Or.inr ⟨rfl, by simp [length_dfa_push_edge]⟩, ?_, ?_⟩
    · simp only []
      rw [dfa_at_push_edge, if_pos ⟨rfl, hlen⟩, dfa_at_append, if_pos hcurr]
    · intro q hq hql
      simp only []
      rw [dfa_at_push_edge, if_neg (fun hh => hq hh.1), dfa_at_append, if_pos hql]
    · intro q hq
      simp only []
      rw [dfa_at_push_edge, if_neg (fun hh => by omega), dfa_at_append,
        if_neg (by omega)]
      by_cases hq2 : q = s.dheap.length
      · rw [if_pos hq2]
      · rw [if_neg hq2]

/-- What `link_conns` does: the nodes other than the current one keep their
edges, the new nodes have no edge and are queued, and the current node gets one
edge for every entry of `conns`, to the node of an entry that lists the nodes of
the entry of `conns`. -/
theorem link_conns_effect (curr : Nat) (cs : List nfa_2dlist) :
    ∀ s : dfagen_state, curr < s.dheap.length →
      s.dheap.length ≤ (link_conns curr cs s).dheap.length ∧
        (∀ q, q ≠ curr → q < s.dheap.length →
          dfa_at (link_conns curr cs s).dheap q = dfa_at s.dheap q) ∧
        (∀ q, s.dheap.length ≤ q → (dfa_at (link_conns curr cs s).dheap q).next_l = []) ∧
        (link_conns curr cs s).worked_list = s.worked_list ∧
        (∃ pushed, (link_conns curr cs s).worklist = pushed ++ s.worklist ∧
          (pushed.map (fun w => w.node)).Nodup ∧
          ∀ a ∈ pushed, s.dheap.length ≤ a.node ∧
            a.node < (link_conns curr cs s).dheap.length ∧
            ∃ c ∈ cs, a.nfas = copy_nfa_list c.nfas) ∧
        (∀ e ∈ (dfa_at (link_conns curr cs s).dheap curr).next_l,
          e ∈ (dfa_at s.dheap curr).next_l ∨
            ∃ c ∈ cs, e.cond_ch = c.cond_ch ∧
              ∃ v1, (v1 ∈ (link_conns curr cs s).worklist ∨
                  v1 ∈ (link_conns curr cs s).worked_list) ∧
                v1.node = e.node ∧ ∀ m, m ∈ v1.nfas ↔ m ∈ c.nfas) ∧
        (∀ c ∈ cs, ∃ e ∈ (dfa_at (link_conns curr cs s).dheap curr).next_l,
          e.cond_ch = c.cond_ch) ∧
        ∀ e ∈ (dfa_at s.dheap curr).next_l,
          e ∈ (dfa_at (link_conns curr cs s).dheap curr).next_l := by
  induction cs with
  | nil =>
    intro s _
    refine ⟨Nat.le_refl _, fun q _ _ => rfl, ?_, rfl, ⟨[], rfl, by simp, by simp⟩,
      fun e he => Or.inl he, by simp, fun e he => he⟩
    intro q hq
    show (dfa_at s.dheap q).next_l = []
    rw [dfa_at_out_of_range _ q hq]
  | cons c cs ih =>
    intro s hcurr
    rw [link_conns_cons]
    obtain ⟨t, v1, a1, a2, a3, a4, a5, a6, a7, a8⟩ := link_conn_effect curr c s hcurr
    have hlen1 : s.dheap.length ≤ (link_conn curr c s).dheap.length := by
      rcases a6 with ⟨_, h⟩ | ⟨_, h⟩ <;> omega
    obtain ⟨b1, b2, b3, b4, ⟨pushed, b5, b6, b7⟩, b8, b9, b10⟩ :=
      ih (link_conn curr c s) (by omega)
    refine ⟨by omega, ?_, ?_, by rw [b4, a5], ?_, ?_, ?_, ?_⟩
    · intro q hq hql
      rw [b2 q hq (by omega), a7 q hq hql]
    · intro q hq
      by_cases hq1 : (link_conn curr c s).dheap.length ≤ q
      · exact b3 q hq1
      · rw [b2 q (by omega) (by omega)]
        exact a8 q hq
    · rcases a6 with ⟨hw, hl⟩ | ⟨hw, hl⟩
      · refine ⟨pushed, by rw [b5, hw], b6, fun a ha => ?_⟩
        obtain ⟨h1, h2, c1, hc1, h3⟩ := b7 a ha
        exact ⟨by omega, h2, c1, List.mem_cons_of_mem _ hc1, h3⟩
      · refine ⟨pushed ++ [⟨copy_nfa_list c.nfas, s.dheap.length⟩], ?_, ?_, fun a ha => ?_⟩
        · rw [b5, hw]
          simp
        · rw [List.map_append, List.nodup_append]
          refine ⟨b6, by simp, ?_⟩
          intro x hx hx2
          simp only [List.map_cons, List.map_nil, List.mem_singleton] at hx2
          obtain ⟨a, ha, rfl⟩ := List.mem_map.1 hx
          have := (b7 a ha).1
          omega
        · rcases List.mem_append.1 ha with ha | ha
          · obtain ⟨h1, h2, c1, hc1, h3⟩ := b7 a ha
            exact ⟨by omega, h2, c1, List.mem_cons_of_mem _ hc1, h3⟩
          · rw [List.mem_singleton] at ha
            subst ha
            exact ⟨Nat.le_refl _, by simp only []; omega, c, by simp, rfl⟩
    · intro e he
      rcases b8 e he with he1 | ⟨c1, hc1, h1, h2⟩
      · rw [a1] at he1
        rcases List.mem_cons.1 he1 with rfl | he1
        · right
          refine ⟨c, by simp, rfl, v1, ?_, a3, a4⟩
          rcases a2 with hv | hv
          · left
            rw [b5]
            exact List.mem_append_right _ hv
          · right
            rw [b4]
            exact hv
        · exact Or.inl he1
      · exact Or.inr ⟨c1, List.mem_cons_of_mem _ hc1, h1, h2⟩
    · intro c1 hc1
      rcases List.mem_cons.1 hc1 with rfl | hc1
      · exact ⟨⟨c1.cond_ch, t⟩, b10 _ (by rw [a1]; simp), rfl⟩
      · exact b9 c1 hc1
    · intro e he
      exact b10 e (by rw [a1]; exact List.mem_cons_of_mem _ he)

theorem move_closure_congr (h : List nfa_node) (S S1 : List Nat)
    (hS : ∀ n, n ∈ S ↔ n ∈ S1) (b m : Nat) :
    move_closure h S b m ↔ move_closure h S1 b m := by
  unfold move_closure
  constructor
  · rintro ⟨n, hn, hh⟩
    exact ⟨n, (hS n).1 hn, hh⟩
  · rintro ⟨n, hn, hh⟩
    exact ⟨n, (hS n).2 hn, hh⟩

theorem move_closure_closed (h : List nfa_node) (S : List Nat) (b m m1 : Nat)
    (hm : move_closure h S b m) (hr : eps_reach h m m1) : move_closure h S b m1 := by
  obtain ⟨n, hn, e, he, h1, h2, h3⟩ := hm
  exact ⟨n, hn, e, he, h1, h2, Relation.ReflTransGen.trans h3 hr⟩

theorem nfa_to_dfa_step_det (h : List nfa_node) (fuel : Nat) (s s1 : dfagen_state)
    (w : dfagen_node) (tmp : List dfagen_node)
    (hlit : ∀ n, ∀ e ∈ (nfa_at h n).next_l, e.always = false → e.cond_ch ≠ 46)
    (hw : s.worklist = w :: tmp) (hD : det_ok h s)
    (hstep : nfa_to_dfa_step h fuel s w tmp = some s1) : det_ok h s1 := by
  obtain ⟨⟨d1a, d1b⟩, d2, d3, d4, d5, d6⟩ := hD
  unfold nfa_to_dfa_step at hstep
  cases hc : conns_of_nodes h fuel w.nfas [] with
  | none => simp [hc] at hstep
  | some conns =>
    simp only [hc, Option.some.injEq] at hstep
    obtain ⟨c1, c2, c3⟩ := conns_of_nodes_spec h fuel w.nfas conns hc
    have hwin : w ∈ s.worklist := by rw [hw]; simp
    have htmp : ∀ x, x ∈ tmp → x ∈ s.worklist := fun x hx => by
      rw [hw]
      exact List.mem_cons_of_mem _ hx
    have hcurr : w.node < s.dheap.length := d2 w (Or.inl hwin)
    obtain ⟨s0, hs0⟩ : ∃ s0 : dfagen_state, s0 =
        { s with worklist := tmp,
                 worked_list := insert_node_into_dfagen_list s.worked_list w } := ⟨_, rfl⟩
    rw [← hs0] at hstep
    have e_dh : s0.dheap = s.dheap := by rw [hs0]
    have e_wl : s0.worklist = tmp := by rw [hs0]
    have e_wd : s0.worked_list = ⟨copy_nfa_list w.nfas, w.node⟩ :: s.worked_list := by
      rw [hs0]
      rfl
    obtain ⟨f1, f2, f3, f4, ⟨pushed, f5, f6, f7⟩, f8, f9, _⟩ :=
      link_conns_effect w.node conns s0 (by rw [e_dh]; exact hcurr)
    rw [hstep] at f1 f2 f3 f4 f5 f7 f8 f9
    rw [e_dh] at f1 f2 f3 f7 f8
    rw [e_wl] at f5
    rw [e_wd] at f4
    -- nodes of the lists of the new state
    have hrw : w.node ∉ tmp.map (fun x => x.node) := by
      rw [hw] at d1a
      simp only [List.map_cons, List.nodup_cons] at d1a
      exact d1a.1
    have hold : ∀ x, x ∈ tmp ∨ x ∈ s.worked_list → x.node ≠ w.node ∧ x.node < s.dheap.length := by
      rintro x (hx | hx)
      · exact ⟨fun e => hrw (List.mem_map.2 ⟨x, hx, e⟩), d2 x (Or.inl (htmp x hx))⟩
      · exact ⟨fun e => d1b w hwin x hx e.symm, d2 x (Or.inr hx)⟩
    have hedges_old : ∀ x, x ∈ tmp ∨ x ∈ s.worked_list →
        dfa_at s1.dheap x.node = dfa_at s.dheap x.node := fun x hx =>
      f2 x.node (hold x hx).1 (hold x hx).2
    have hentry : ∀ x, x ∈ s.worklist ∨ x ∈ s.worked_list →
        ∃ x1, (x1 ∈ s1.worklist ∨ x1 ∈ s1.worked_list) ∧ x1.node = x.node ∧
          ∀ m, m ∈ x1.nfas ↔ m ∈ x.nfas := by
      rintro x (hx | hx)
      · rw [hw] at hx
        rcases List.mem_cons.1 hx with rfl | hx
        · exact ⟨⟨copy_nfa_list x.nfas, x.node⟩, Or.inr (by rw [f4]; simp), rfl,
            fun m => mem_copy_nfa_list _ m⟩
        · exact ⟨x, Or.inl (by rw [f5]; exact List.mem_append_right _ hx), rfl, fun m => Iff.rfl⟩
      · exact ⟨x, Or.inr (by rw [f4]; exact List.mem_cons_of_mem _ hx), rfl, fun m => Iff.rfl⟩
    refine ⟨⟨?_, ?_⟩, ?_, ?_, ?_, ?_, ?_⟩
    · rw [f5, List.map_append, List.nodup_append]
      refine ⟨f6, ?_, ?_⟩
      · rw [hw] at d1a
        simp only [List.map_cons, List.nodup_cons] at d1a
        exact d1a.2
      · intro n hn hn2
        obtain ⟨a, ha, rfl⟩ := List.mem_map.1 hn
        obtain ⟨x, hx, hxa⟩ := List.mem_map.1 hn2
        have h1 := (f7 a ha).1
        have h2 := (hold x (Or.inl hx)).2
        omega
    · intro x hx v hv
      rw [f5] at hx
      rw [f4] at hv
      rcases List.mem_append.1 hx with hx | hx
      · have h1 := (f7 x hx).1
        rcases List.mem_cons.1 hv with rfl | hv
        · simp only []
          omega
        · have := (hold v (Or.inr hv)).2
          omega
      · rcases List.mem_cons.1 hv with rfl | hv
        · exact (hold x (Or.inl hx)).1
        · exact d1b x (htmp x hx) v hv
    · rintro x (hx | hx)
      · rw [f5] at hx
        rcases List.mem_append.1 hx with hx | hx
        · exact (f7 x hx).2.1
        · have := (hold x (Or.inl hx)).2
          omega
      · rw [f4] at hx
        rcases List.mem_cons.1 hx with rfl | hx
        · simp only []
          omega
        · have := (hold x (Or.inr hx)).2
          omega
    · intro x hx
      rw [f5] at hx
      rcases List.mem_append.1 hx with hx | hx
      · exact f3 x.node (f7 x hx).1
      · rw [hedges_old x (Or.inl hx)]
        exact d3 x (htmp x hx)
    · intro v hv e he
      rw [f4] at hv
      rcases List.mem_cons.1 hv with rfl | hv
      · simp only [] at he ⊢
        rcases f8 e he with he0 | ⟨c, hcm, h1, v1, hv1, h2, h3⟩
        · rw [d3 w hwin] at he0
          simp at he0
        · obtain ⟨n, _, e1, he1, h4, h5⟩ := c3 c hcm
          refine ⟨?_, v1, hv1, h2, fun m => ?_⟩
          · rw [h1, ← h5]
            exact hlit n e1 he1 h4
          · rw [h3, c1 c hcm m, h1]
            exact move_closure_congr h _ _ (fun n => (mem_copy_nfa_list _ n).symm) _ _
      · rw [hedges_old v (Or.inr hv)] at he
        obtain ⟨h1, v1, hv1, h2, h3⟩ := d4 v hv e he
        obtain ⟨x1, hx1, h4, h5⟩ := hentry v1 hv1
        exact ⟨h1, x1, hx1, h4.trans h2, fun m => (h5 m).trans (h3 m)⟩
    · intro v hv b m hm
      rw [f4] at hv
      rcases List.mem_cons.1 hv with rfl | hv
      · simp only [] at hm ⊢
        have hm2 := (move_closure_congr h _ _ (fun n => mem_copy_nfa_list w.nfas n) b m).1 hm
        obtain ⟨c, hcm, hcb⟩ := c2 b m hm2
        obtain ⟨e, he, h1⟩ := f9 c hcm
        exact ⟨e, he, h1.trans hcb⟩
      · rw [hedges_old v (Or.inr hv)]
        exact d5 v hv b m hm
    · rintro x (hx | hx) m hm m1 hr
      · rw [f5] at hx
        rcases List.mem_append.1 hx with hx | hx
        · obtain ⟨_, _, c, hcm, h3⟩ := f7 x hx
          rw [h3, mem_copy_nfa_list] at hm ⊢
          rw [c1 c hcm] at hm ⊢
          exact move_closure_closed h _ _ m m1 hm hr
        · exact d6 x (Or.inl (htmp x hx)) m hm m1 hr
      · rw [f4] at hx
        rcases List.mem_cons.1 hx with rfl | hx
        · simp only [mem_copy_nfa_list] at hm ⊢
          exact d6 w (Or.inl hwin) m hm m1 hr
        · exact d6 x (Or.inr hx) m hm m1 hr

theorem nfa_to_dfa_loop_det (h : List nfa_node) (fuel : Nat)
    (hlit : ∀ n, ∀ e ∈ (nfa_at h n).next_l, e.always = false → e.cond_ch ≠ 46) (n : Nat) :
    ∀ s s1 : dfagen_state, det_ok h s → nfa_to_dfa_loop h fuel n s = some s1 →
      det_ok h s1 := by
  induction n with
  | zero =>
    intro s s1 _ hl
    simp [nfa_to_dfa_loop] at hl
  | succ n ih =>
    intro s s1 hD hl
    rw [nfa_to_dfa_loop] at hl
    cases hwl : s.worklist with
    | nil =>
      simp only [hwl, Option.some.injEq] at hl
      exact hl ▸ hD
    | cons w tmp =>
      simp only [hwl] at hl
      cases hstep : nfa_to_dfa_step h fuel s w tmp with
      | none => simp [hstep] at hl
      | some s2 =>
        simp only [hstep] at hl
        exact ih s2 s1 (nfa_to_dfa_step_det h fuel s s2 w tmp hlit hwl hD hstep) hl

theorem nfa_to_dfa_state_det (h : List nfa_node) (fuel : Nat) (nfa_in : nfa)
    (hlit : ∀ n, ∀ e ∈ (nfa_at h n).next_l, e.always = false → e.cond_ch ≠ 46)
    (s : dfagen_state) (hs : nfa_to_dfa_state h fuel nfa_in = some s) : det_ok h s := by
  unfold nfa_to_dfa_state at hs
  cases hg : always_group h fuel nfa_in.start with
  | none => simp [hg] at hs
  | some g =>
    simp only [hg, insert_into_dfagen_list, List.nil_append, List.length_nil] at hs
    refine nfa_to_dfa_loop_det h fuel hlit fuel _ s ?_ hs
    have hgm := (always_group_spec h fuel _ g hg).1
    refine ⟨⟨by simp, by simp⟩, ?_, ?_, by simp, by simp, ?_⟩
    · rintro x (hx | hx)
      · simp only [List.mem_singleton] at hx
        subst hx
        simp
      · simp at hx
    · intro x hx
      simp only [List.mem_singleton] at hx
      subst hx
      rfl
    · rintro x (hx | hx) m hm m1 hr
      · simp only [List.mem_singleton] at hx
        subst hx
        simp only [mem_copy_nfa_list] at hm ⊢
        rw [hgm] at hm ⊢
        exact Relation.ReflTransGen.trans hm hr
      · simp at hx

theorem nfa_to_dfa_state_entries (h : List nfa_node) (fuel : Nat) (nfa_in : nfa)
    (s : dfagen_state) (hs : nfa_to_dfa_state h fuel nfa_in = some s) :
    (∃ w ∈ s.worked_list, w.node = 0 ∧ ∀ m, m ∈ w.nfas ↔ eps_reach h nfa_in.start m) ∧
      ∀ w ∈ s.worked_list, entry_ok h s.dheap w := by
  unfold nfa_to_dfa_state at hs
  cases hg : always_group h fuel nfa_in.start with
  | none => simp [hg] at hs
  | some alw_g =>
    rw [hg] at hs
    simp only [insert_into_dfagen_list, List.nil_append, List.length_nil] at hs
    obtain ⟨hmem, hend⟩ := always_group_spec h fuel _ _ hg
    have hinit : state_ok h alw_g.nfas
        ⟨[⟨alw_g.isend, []⟩], [⟨copy_nfa_list alw_g.nfas, 0⟩], [], 1⟩ := by
      refine ⟨?_, ?_, ⟨copy_nfa_list alw_g.nfas, 0⟩, by simp, rfl, ?_⟩
      · intro w hw
        simp only [List.mem_singleton, List.not_mem_nil, or_false] at hw
        subst hw
        unfold entry_ok
        simp only [List.length_singleton, Nat.lt_one_iff, mem_copy_nfa_list, true_and]
        simpa [dfa_at] using always_group_isend_iff h fuel _ _ hg
      · intro i hi
        have hi0 : i = 0 := by simpa using hi
        exact ⟨⟨copy_nfa_list alw_g.nfas, 0⟩, by simp, hi0.symm⟩
      · intro m
        simp [mem_copy_nfa_list]
    obtain ⟨⟨h1, _, w0, hw0, hw0n, hw0m⟩, hwl⟩ :=
      nfa_to_dfa_loop_ok h alw_g.nfas fuel fuel _ s hinit hs
    rw [hwl] at h1 hw0
    simp only [List.not_mem_nil, false_or] at h1 hw0
    refine ⟨⟨w0, hw0, hw0n, fun m => ?_⟩, h1⟩
    rw [hw0m m]
    exact hmem m

theorem nfa_path_of_eps_reach (h : List nfa_node) (m n t : Nat) (w : List Nat)
    (hr : eps_reach h m n) : nfa_path h n w t → nfa_path h m w t := by
  induction hr with
  | refl => exact id
  | tail _ hstep ih =>
    intro hp
    obtain ⟨e, he, ha, rfl⟩ := hstep
    exact ih (nfa_path.eps _ _ _ e he ha hp)

theorem nfa_path_nil (h : List nfa_node) (m t : Nat) (w : List Nat) (hp : nfa_path h m w t) :
    w = [] → eps_reach h m t := by
  induction hp with
  | refl => exact fun _ => Relation.ReflTransGen.refl
  | eps n m w e he ha _ ih =>
    intro hw
    exact Relation.ReflTransGen.head ⟨e, he, ha, rfl⟩ (ih hw)
  | consume n m b w e _ _ _ _ _ =>
    intro hw
    simp at hw

theorem nfa_path_cons (h : List nfa_node) (m t : Nat) (w0 : List Nat)
    (hp : nfa_path h m w0 t) :
    ∀ b w, w0 = b :: w → ∃ n e, eps_reach h m n ∧ e ∈ (nfa_at h n).next_l ∧ e.always = false ∧
      char_match e.cond_ch b = true ∧ nfa_path h e.node w t := by
  induction hp with
  | refl =>
    intro b w hw
    simp at hw
  | eps n m w1 e he ha _ ih =>
    intro b w hw
    obtain ⟨n1, e1, h1, h2, h3, h4, h5⟩ := ih b w hw
    exact ⟨n1, e1, Relation.ReflTransGen.head ⟨e, he, ha, rfl⟩ h1, h2, h3, h4, h5⟩
  | consume n m b1 w1 e he ha hc hp1 _ =>
    intro b w hw
    simp only [List.cons.injEq] at hw
    obtain ⟨rfl, rfl⟩ := hw
    exact ⟨n, e, Relation.ReflTransGen.refl, he, ha, hc, hp1⟩

theorem first_match_some (es : List dfa_edge) (b j : Nat) (hf : first_match es b = some j) :
    ∃ e ∈ es, char_match e.cond_ch b = true ∧ e.node = j := by
  induction es with
  | nil => simp [first_match] at hf
  | cons e es ih =>
    rw [first_match] at hf
    by_cases hc : char_match e.cond_ch b = true
    · rw [if_pos hc] at hf
      exact ⟨e, by simp, hc, Option.some.inj hf⟩
    · rw [if_neg hc] at hf
      obtain ⟨e1, he1, h1, h2⟩ := ih hf
      exact ⟨e1, List.mem_cons_of_mem _ he1, h1, h2⟩

theorem first_match_none (es : List dfa_edge) (b : Nat) (hf : first_match es b = none) :
    ∀ e ∈ es, char_match e.cond_ch b = false := by
  induction es with
  | nil => simp
  | cons e es ih =>
    rw [first_match] at hf
    by_cases hc : char_match e.cond_ch b = true
    · rw [if_pos hc] at hf
      simp at hf
    · rw [if_neg hc] at hf
      intro e1 he1
      rcases List.mem_cons.1 he1 with rfl | he1
      · simpa using hc
      · exact ih hf e1 he1

theorem char_match_literal (c b : Nat) (hc : c ≠ 46) : char_match c b = true ↔ c = b := by
  simp [char_match, hc]

/-- The DFA follows the NFA: from the DFA node of a list of NFA nodes a word
leads to an accepting DFA node exactly when the NFA has a path for the word from
a node of the list to an accepting node.  No consuming edge of the NFA is a
wildcard. -/
theorem dfa_follow_iff (h : List nfa_node) (s : dfagen_state) (hD : det_ok h s)
    (hwl : s.worklist = []) (hE : ∀ v ∈ s.worked_list, entry_ok h s.dheap v)
    (hlit : ∀ n, ∀ e ∈ (nfa_at h n).next_l, e.always = false → e.cond_ch ≠ 46) :
    ∀ (w : List Nat) (v : dfagen_node), v ∈ s.worked_list →
      ((∃ n, dfa_follow s.dheap v.node w = some n ∧ (dfa_at s.dheap n).isend = true) ↔
        ∃ m ∈ v.nfas, ∃ t, nfa_path h m w t ∧ (nfa_at h t).isend = true) := by
  obtain ⟨_, _, _, d4, d5, d6⟩ := hD
  have hworked : ∀ v1, (v1 ∈ s.worklist ∨ v1 ∈ s.worked_list) → v1 ∈ s.worked_list := by
    rintro v1 (hv | hv)
    · rw [hwl] at hv
      simp at hv
    · exact hv
  intro w
  induction w with
  | nil =>
    intro v hv
    simp only [dfa_follow, Option.some.injEq, exists_eq_left']
    rw [(hE v hv).2]
    constructor
    · rintro ⟨m, hm, hacc⟩
      exact ⟨m, hm, m, nfa_path.refl m, hacc⟩
    · rintro ⟨m, hm, t, hp, hacc⟩
      exact ⟨t, d6 v (Or.inr hv) m hm t (nfa_path_nil h m t [] hp rfl), hacc⟩
  | cons b w ih =>
    intro v hv
    rw [dfa_follow]
    constructor
    · rintro ⟨n, hf, hacc⟩
      cases hfm : first_match (dfa_at s.dheap v.node).next_l b with
      | none =>
        rw [hfm] at hf
        simp at hf
      | some j =>
        rw [hfm] at hf
        obtain ⟨e, he, hcm, rfl⟩ := first_match_some _ b j hfm
        obtain ⟨h46, v1, hv1, hn1, hset⟩ := d4 v hv e he
        have heb : e.cond_ch = b := (char_match_literal _ _ h46).1 hcm
        have hf1 : dfa_follow s.dheap v1.node w = some n := by
          rw [hn1]
          exact hf
        obtain ⟨m1, hm1, t, hp, hacct⟩ := (ih v1 (hworked v1 hv1)).1 ⟨n, hf1, hacc⟩
        obtain ⟨n0, hn0, e0, he0, ha0, hc0, hr0⟩ := (hset m1).1 hm1
        refine ⟨n0, hn0, t, ?_, hacct⟩
        refine nfa_path.consume n0 t b w e0 he0 ha0 ?_ (nfa_path_of_eps_reach h _ _ t w hr0 hp)
        rw [char_match_literal _ _ (hlit n0 e0 he0 ha0), hc0, heb]
    · rintro ⟨m, hm, t, hp, hacct⟩
      obtain ⟨n0, e0, hr0, he0, ha0, hc0, hp0⟩ := nfa_path_cons h m t _ hp b w rfl
      have hn0 : n0 ∈ v.nfas := d6 v (Or.inr hv) m hm n0 hr0
      have hlab : e0.cond_ch = b := (char_match_literal _ _ (hlit n0 e0 he0 ha0)).1 hc0
      have hmove : move_closure h v.nfas b e0.node :=
        ⟨n0, hn0, e0, he0, ha0, hlab, Relation.ReflTransGen.refl⟩
      obtain ⟨e, he, heb⟩ := d5 v hv b e0.node hmove
      cases hfm : first_match (dfa_at s.dheap v.node).next_l b with
      | none =>
        have := first_match_none _ b hfm e he
        rw [heb] at this
        have h46 := (d4 v hv e he).1
        rw [heb] at h46
        have : char_match b b = true := (char_match_literal b b h46).2 rfl
        simp_all
      | some j =>
        obtain ⟨e1, he1, hcm1, rfl⟩ := first_match_some _ b j hfm
        obtain ⟨h46, v1, hv1, hn1, hset⟩ := d4 v hv e1 he1
        have heb1 : e1.cond_ch = b := (char_match_literal _ _ h46).1 hcm1
        have hin : e0.node ∈ v1.nfas := by
          rw [hset, heb1]
          exact hmove
        obtain ⟨n, hf, hacc⟩ := (ih v1 (hworked v1 hv1)).2 ⟨e0.node, hin, t, hp0, hacct⟩
        refine ⟨n, ?_, hacc⟩
        simp only []
        rw [← hn1]
        exact hf

/-- The words that lead the DFA from its start node to an accepting node are the
words of the NFA paths from the start node to an accepting node. -/
theorem dfa_accepts_iff_nfa_path (h : List nfa_node) (fuel : Nat) (nfa_in : nfa)
    (hlit : ∀ n, ∀ e ∈ (nfa_at h n).next_l, e.always = false → e.cond_ch ≠ 46)
    (s : dfagen_state) (hs : nfa_to_dfa_state h fuel nfa_in = some s) (w : List Nat) :
    (∃ n, dfa_follow s.dheap 0 w = some n ∧ (dfa_at s.dheap n).isend = true) ↔
      ∃ t, nfa_path h nfa_in.start w t ∧ (nfa_at h t).isend = true := by
  obtain ⟨⟨v0, hv0, hn0, hset0⟩, hE⟩ := nfa_to_dfa_state_entries h fuel nfa_in s hs
  have hD := nfa_to_dfa_state_det h fuel nfa_in hlit s hs
  have hwl := nfa_to_dfa_state_worklist h fuel nfa_in s hs
  have := dfa_follow_iff h s hD hwl hE hlit w v0 hv0
  rw [hn0] at this
  rw [this]
  constructor
  · rintro ⟨m, hm, t, hp, hacc⟩
    exact ⟨t, nfa_path_of_eps_reach h _ m t w ((hset0 m).1 hm) hp, hacc⟩
  · rintro ⟨t, hp, hacc⟩
    exact ⟨nfa_in.start, (hset0 _).2 Relation.ReflTransGen.refl, t, hp, hacc⟩

/-! ### The backtracking matcher and the DFA pipeline -/

theorem frag_consuming_label (n : Nat) :
    ∀ (p : List Nat) (k : Nat) (H : List nfa_node), p.length ≤ n → frag_in H k p →
      ∀ i, i < frag_size p → ∀ e ∈ (nfa_at H (k + i)).next_l, e.always = false →
        e.cond_ch ∈ p := by
  induction n with
  | zero =>
    intro p k H hl hin i hi e he ha
    match p, hl with
    | [], _ =>
      obtain ⟨h0, h1⟩ := frag_in_nil H k hin
      have hi2 : i = 0 ∨ i = 1 := by simp [frag_size] at hi; omega
      rcases hi2 with rfl | rfl
      · rw [Nat.add_zero, h0] at he
        simp at he
        simp [he] at ha
      · rw [h1] at he
        simp at he
  | succ n ih =>
    intro p k H hl hin i hi e he ha
    match p, hl with
    | [], _ =>
      obtain ⟨h0, h1⟩ := frag_in_nil H k hin
      have hi2 : i = 0 ∨ i = 1 := by simp [frag_size] at hi; omega
      rcases hi2 with rfl | rfl
      · rw [Nat.add_zero, h0] at he
        simp at he
        simp [he] at ha
      · rw [h1] at he
        simp at he
    | [c], _ =>
      obtain ⟨h0, h1⟩ := frag_in_single H k c hin
      have hi2 : i = 0 ∨ i = 1 := by simp [frag_size] at hi; omega
      rcases hi2 with rfl | rfl
      · rw [Nat.add_zero, h0] at he
        simp at he
        simp [he]
      · rw [h1] at he
        simp at he
    | c :: d :: rest, hl =>
      by_cases hd : d = 42
      · subst hd
        obtain ⟨h0, h1, hrest, hS⟩ := frag_in_star H k c rest hin
        have hsz : frag_size (c :: 42 :: rest) = 3 + frag_size rest := by simp [frag_size]
        by_cases hi0 : i = 0
        · subst hi0
          rw [Nat.add_zero, h0] at he
          simp at he
          rcases he with rfl | rfl
          · simp at ha
          · simp
        by_cases hi1 : i = 1
        · subst hi1
          rw [h1] at he
          simp at he
          simp [he] at ha
        by_cases hi2 : i = 2 + frag_size rest
        · subst hi2
          rw [show k + (2 + frag_size rest) = k + 2 + frag_size rest by omega, hS] at he
          simp at he
          simp [he] at ha
        · have := ih rest (k + 2) H (by simp at hl; omega) hrest (i - 2) (by omega) e
            (by rw [show k + 2 + (i - 2) = k + i by omega]; exact he) ha
          simp [this]
      · obtain ⟨h0, h1, htl⟩ := frag_in_concat H k c d rest hd hin
        have hsz : frag_size (c :: d :: rest) = 2 + frag_size (d :: rest) := by
          simp [frag_size, hd]
        by_cases hi0 : i = 0
        · subst hi0
          rw [Nat.add_zero, h0] at he
          simp at he
          simp [he]
        by_cases hi1 : i = 1
        · subst hi1
          rw [h1] at he
          simp at he
          simp [he] at ha
        · have := ih (d :: rest) (k + 2) H (by simp at hl ⊢; omega) htl (i - 2) (by omega) e
            (by rw [show k + 2 + (i - 2) = k + i by omega]; exact he) ha
          exact List.mem_cons_of_mem _ this

theorem literal_pattern_bytes (n : Nat) :
    ∀ p : List Nat, p.length ≤ n → literal_pattern p = true →
      simple_pattern p = true ∧ ∀ x ∈ p, is_literal x = true ∨ x = 42 := by
  induction n with
  | zero =>
    intro p hl _
    have hp : p = [] := List.length_eq_zero.1 (Nat.le_zero.1 hl)
    subst hp
    simp [simple_pattern]
  | succ n ih =>
    intro p hl hs
    match p, hl, hs with
    | [], _, _ => simp [simple_pattern]
    | [c], _, hs =>
      have hc : is_literal c = true := by simpa [literal_pattern] using hs
      have ha : is_atom c = true := by
        simp only [is_literal, Bool.and_eq_true] at hc
        exact hc.1
      exact ⟨by simp [simple_pattern, ha], by simp [hc]⟩
    | c :: d :: rest, hl, hs =>
      simp only [literal_pattern, Bool.and_eq_true] at hs
      obtain ⟨hc, hs2⟩ := hs
      have ha : is_atom c = true := by
        simp only [is_literal, Bool.and_eq_true] at hc
        exact hc.1
      by_cases hd : d = 42
      · subst hd
        simp only [if_true] at hs2
        obtain ⟨h1, h2⟩ := ih rest (by simp at hl; omega) hs2
        refine ⟨by simp [simple_pattern, ha, h1], ?_⟩
        intro x hx
        simp only [List.mem_cons] at hx
        rcases hx with rfl | rfl | hx
        · exact Or.inl hc
        · exact Or.inr rfl
        · exact h2 x hx
      · simp only [hd, if_false] at hs2
        obtain ⟨h1, h2⟩ := ih (d :: rest) (by simp at hl ⊢; omega) hs2
        refine ⟨by simp [simple_pattern, ha, hd, h1], ?_⟩
        intro x hx
        rcases List.mem_cons.1 hx with rfl | hx
        · exact Or.inl hc
        · exact h2 x hx

theorem literal_or_star_ne (x : Nat) (hx : is_literal x = true ∨ x = 42) :
    x ≠ 46 ∧ x ≠ 40 ∧ x ≠ 36 ∧ x ≠ 94 := by
  rcases hx with hx | rfl
  · simp [is_literal, is_atom] at hx
    exact ⟨hx.2, hx.1.1.2, hx.1.1.1.1.2, hx.1.1.1.1.1.2⟩
  · decide

/-- The DFA of a pattern of literals and stars accepts the language of the
pattern. -/
theorem frag_dfa_language (p : List Nat) (hp : literal_pattern p = true) (fuel : Nat)
    (s : dfagen_state)
    (hs : nfa_to_dfa_state (frag_nodes p 0) fuel
      ⟨frag_size p, frag_start p 0, frag_end p 0⟩ = some s) (w : List Nat) :
    (∃ n, dfa_follow s.dheap 0 w = some n ∧ (dfa_at s.dheap n).isend = true) ↔
      w ∈ pattern_lang p := by
  obtain ⟨hsimple, hbytes⟩ := literal_pattern_bytes p.length p (Nat.le_refl _) hp
  have hlit : ∀ n, ∀ e ∈ (nfa_at (frag_nodes p 0) n).next_l, e.always = false →
      e.cond_ch ≠ 46 := by
    intro n e he ha
    by_cases hn : n < frag_size p
    · have := frag_consuming_label p.length p 0 _ (Nat.le_refl _) (frag_in_self p) n hn e
        (by rw [Nat.zero_add]; exact he) ha
      exact (literal_or_star_ne _ (hbytes _ this)).1
    · rw [nfa_at_out_of_range _ n (by rw [frag_nodes_len]; omega)] at he
      simp at he
  rw [dfa_accepts_iff_nfa_path _ fuel _ hlit s hs w]
  have hend : ∀ t, (nfa_at (frag_nodes p 0) t).isend = true ↔ t = frag_end p 0 := by
    intro t
    by_cases ht : t < frag_size p
    · have := frag_isend p.length p 0 _ (Nat.le_refl _) (frag_in_self p) t ht
      simpa using this
    · rw [nfa_at_out_of_range _ t (by rw [frag_nodes_len]; omega)]
      have := (frag_end_range p.length p 0 (Nat.le_refl _)).2.1
      simp only [Bool.false_eq_true, false_iff]
      omega
  have hpath := frag_path_iff p.length p 0 _ (Nat.le_refl _) (frag_in_self p) w
  simp only [] at hpath ⊢
  constructor
  · rintro ⟨t, hpt, hacc⟩
    rw [hend] at hacc
    subst hacc
    exact hpath.1 hpt
  · intro hw
    exact ⟨frag_end p 0, hpath.2 hw, (hend _).2 rfl⟩

theorem anchored_head (ms me : Bool) (body : List Nat) (hne : body ≠ [])
    (h94 : ∀ x ∈ body, x ≠ 94) :
    ((anchored ms me body).headD 0 = 94 ↔ ms = true) ∧
      (if ms = true then (anchored ms me body).drop 1 else anchored ms me body) =
        body ++ (if me = true then [36] else []) := by
  cases body with
  | nil => exact absurd rfl hne
  | cons c rest =>
    have hc : c ≠ 94 := h94 c (by simp)
    cases ms <;> simp [anchored, hc]

theorem getLastD_append_body (body : List Nat) (me : Bool) (hne : body ≠ [])
    (h36 : ∀ x ∈ body, x ≠ 36) :
    ((body ++ if me = true then [36] else []).getLastD 94 = 36 ↔ me = true) ∧
      (if me = true then (body ++ if me = true then [36] else []).dropLast
        else (body ++ if me = true then [36] else [])) = body := by
  cases me with
  | true =>
    simp only [if_true]
    constructor
    · simp [List.getLastD_eq_getLast?]
    · simp [List.dropLast_concat]
  | false =>
    simp only [Bool.false_eq_true, if_false, List.append_nil, iff_false, and_true]
    rw [List.getLastD_eq_getLast?, List.getLast?_eq_getLast _ hne]
    simp only [Option.getD_some]
    exact h36 _ (List.getLast_mem hne)

theorem RE_gen_anchored (fuel : Nat) (ms me : Bool) (body : List Nat) (hne : body ≠ [])
    (hb : ∀ x ∈ body, x ≠ 94 ∧ x ≠ 36) (h : List nfa_node) (re_nfa : nfa)
    (dh : List dfa_node) (d : dfa) (l : List Nat)
    (hg : generate_nfa fuel [] body = some (h, re_nfa))
    (hd : nfa_to_dfa h fuel re_nfa = some (dh, d)) (hfree : free_nfa h re_nfa = some l) :
    RE_gen fuel (anchored ms me body) =
      some (dh, ⟨ms, me, d⟩, if ms = true then 94 :: body else body) := by
  obtain ⟨h1, h2⟩ := anchored_head ms me body hne (fun x hx => (hb x hx).1)
  obtain ⟨h3, h4⟩ := getLastD_append_body body me hne (fun x hx => (hb x hx).2)
  unfold RE_gen
  have e1 : ((anchored ms me body).headD 0 == 94) = ms := by
    cases ms with
    | true => simpa using h1.2 rfl
    | false =>
      have : ¬ (anchored false me body).headD 0 = 94 := fun hh => by
        have := h1.1 hh
        simp at this
      simpa using this
  simp only [e1, h2]
  have e2 : ((body ++ if me = true then [36] else []).getLastD 94 == 36) = me := by
    cases me with
    | true => simp
    | false =>
      have : ¬ (body ++ if false = true then [36] else []).getLastD 94 = 36 := fun hh => by
        have := h3.1 hh
        simp at this
      simpa using this
  simp only [e2, h4]
  have e3 : ¬ ((body ++ if me = true then [36] else []) = [] ∧ ms = false) := by
    rintro ⟨hh, _⟩
    simp at hh
    exact hne hh.1
  rw [if_neg e3]
  simp only [hg, hd, hfree]

theorem RE_matchhere_eq_matchhere (p : List Nat) (hp : literal_pattern p = true) (fuel : Nat)
    (s : dfagen_state)
    (hs : nfa_to_dfa_state (frag_nodes p 0) fuel
      ⟨frag_size p, frag_start p 0, frag_end p 0⟩ = some s)
    (ms me : Bool) (regex : List Nat) (T : List Nat) (hT : 0 ∉ T) :
    RE_matchhere s.dheap ⟨ms, me, ⟨s.num_nodes, 0⟩⟩ regex T =
      Backtracking.matchhere (p ++ if me = true then [36] else []) T := by
  obtain ⟨hsimple, _⟩ := literal_pattern_bytes p.length p (Nat.le_refl _) hp
  rw [Bool.eq_iff_iff, matchhere_iff p.length p (Nat.le_refl _) hsimple me T hT]
  unfold RE_matchhere
  rw [RE_matchhere_loop_iff _ _ T hT]
  simp only []
  constructor
  · rintro ⟨k, n, hk, hf, hacc, hend⟩
    exact ⟨k, hk, (frag_dfa_language p hp fuel s hs _).1 ⟨n, hf, hacc⟩, hend⟩
  · rintro ⟨k, hk, hmem, hend⟩
    obtain ⟨n, hf, hacc⟩ := (frag_dfa_language p hp fuel s hs _).2 hmem
    exact ⟨k, n, hk, hf, hacc, hend⟩

/-- The pipeline `RE_gen` then `RE_run` of `4_dfa_from_nfa` and `match` of
`1_backtracking` on a pattern of literal bytes and `*` applied to a literal,
with a leading `^` when `ms` is set and a trailing `$` when `me` is set: when the
execution of `free_nfa` on the NFA of the body is defined, the pipeline returns
with enough fuel, and its result is the result of `match`. -/
theorem backtracking_agrees_when_released (ms me : Bool) (body T : List Nat)
    (hb : literal_pattern body = true) (hne : body ≠ []) (hT : 0 ∉ T) (l : List Nat)
    (hfree : free_nfa (frag_nodes body 0)
      ⟨frag_size body, frag_start body 0, frag_end body 0⟩ = some l) :
    ∃ fuel2, ∀ fuel, fuel2 ≤ fuel →
      RE_gen_run fuel (anchored ms me body) T =
        some (Backtracking.match_ (anchored ms me body) T) := by
  obtain ⟨hsimple, hbytes⟩ := literal_pattern_bytes body.length body (Nat.le_refl _) hb
  have h40 : 40 ∉ body := fun hh => (literal_or_star_ne _ (hbytes _ hh)).2.1 rfl
  have hb2 : ∀ x ∈ body, x ≠ 94 ∧ x ≠ 36 := fun x hx =>
    ⟨(literal_or_star_ne _ (hbytes _ hx)).2.2.2, (literal_or_star_ne _ (hbytes _ hx)).2.2.1⟩
  obtain ⟨fuelD, s, hs⟩ := frag_nfa_to_dfa_state_returns body
  refine ⟨max (body.length + 1) fuelD, fun fuel hf => ?_⟩
  have hg : generate_nfa fuel [] body =
      some (frag_nodes body 0, ⟨frag_size body, frag_start body 0, frag_end body 0⟩) := by
    have := generate_nfa_layout fuel body [] h40
      (lt_of_lt_of_le (Nat.lt_succ_self _) (le_trans (Nat.le_max_left _ _) hf))
    simpa using this
  have hsf := hs fuel (le_trans (Nat.le_max_right _ _) hf)
  have hd := nfa_to_dfa_of_state _ _ _ s hsf
  unfold RE_gen_run
  rw [RE_gen_anchored fuel ms me body hne hb2 _ _ _ _ l hg hd hfree]
  simp only [Option.some.injEq]
  obtain ⟨h1, h2⟩ := anchored_head ms me body hne (fun x hx => (hb2 x hx).1)
  unfold RE_run Backtracking.match_
  cases ms with
  | true =>
    have hhead : (anchored true me body).headD 0 = 94 := h1.2 rfl
    simp only [if_true] at h2
    simp only [if_true, List.headD_cons, hhead, h2]
    exact RE_matchhere_eq_matchhere body hb fuel s hsf true me _ T hT
  | false =>
    have hhead : ¬ (anchored false me body).headD 0 = 94 := fun hh => by
      have := h1.1 hh
      simp at this
    simp only [Bool.false_eq_true, if_false] at h2
    have hbh : ¬ body.headD 0 = 94 := by
      cases body with
      | nil => exact absurd rfl hne
      | cons c rest => exact (hb2 c (by simp)).1
    rw [h2] at hhead
    simp only [Bool.false_eq_true, if_false, hbh, h2]
    rw [if_neg hhead, Bool.eq_iff_iff, RE_run_loop_iff _ _ _ T hT, match_loop_iff _ T hT]
    constructor
    · rintro ⟨o, ho, hm⟩
      have hdrop : 0 ∉ T.drop o := fun e => hT (List.mem_of_mem_drop e)
      rw [RE_matchhere_eq_matchhere body hb fuel s hsf false me _ _ hdrop] at hm
      exact ⟨o, ho, hm⟩
    · rintro ⟨o, ho, hm⟩
      have hdrop : 0 ∉ T.drop o := fun e => hT (List.mem_of_mem_drop e)
      rw [← RE_matchhere_eq_matchhere body hb fuel s hsf false me body _ hdrop] at hm
      exact ⟨o, ho, hm⟩

/-- The pattern `a*b$` on the text `xaab`: `free_nfa` releases the five nodes of
the NFA of `a*b` once each, and the pipeline agrees with `match`. -/
theorem backtracking_agrees_on_astar_b :
    free_nfa (frag_nodes (bytes "a*b") 0)
        ⟨frag_size (bytes "a*b"), frag_start (bytes "a*b") 0, frag_end (bytes "a*b") 0⟩ =
        some [4, 0, 2, 1, 3] ∧
      ∃ fuel2, ∀ fuel, fuel2 ≤ fuel →
        RE_gen_run fuel (anchored false true (bytes "a*b")) (bytes "xaab") =
          some (Backtracking.match_ (anchored false true (bytes "a*b")) (bytes "xaab")) :=
  ⟨by decide,
    backtracking_agrees_when_released false true (bytes "a*b") (bytes "xaab") (by decide)
      (by decide) (by decide) [4, 0, 2, 1, 3] (by decide)⟩

theorem RE_gen_astar_bc (fuel : Nat) : RE_gen fuel (bytes "a*bc") = none := by
  cases hr : RE_gen fuel (bytes "a*bc") with
  | none => rfl
  | some r =>
    exfalso
    have h1 := RE_gen_mono (Nat.le_max_left fuel 8) _ _ hr
    have hg : generate_nfa (max fuel 8) [] (bytes "a*bc") = some (nh_astar_bc, ⟨7, 6, 5⟩) :=
      generate_nfa_mono (Nat.le_max_right fuel 8) _ _ _ (by decide)
    have hb : bytes "a*bc" = [97, 42, 98, 99] := by decide
    rw [hb] at h1 hg
    have hfree : free_nfa nh_astar_bc ⟨7, 6, 5⟩ = none := by decide
    cases hd : nfa_to_dfa nh_astar_bc (max fuel 8) ⟨7, 6, 5⟩ with
    | none => simp [RE_gen, hg, hd] at h1
    | some q => simp [RE_gen, hg, hd, hfree] at h1

/-- C25, evaluated at the pattern `a*bc` (literal bytes and `*` applied to a
literal, no anchor) and the text `abc`: `match` of `1_backtracking` returns 1.
In `RE_gen` the call `free_nfa(re_nfa)` runs on the NFA of 7 nodes with start
node 6: after five iterations of the first loop of `FREE_FA_GRAPH` node 0 is in
the slots 1 and 5 of `tofree`, the sixth iteration walks the edge list of node 0
that the second iteration released, so the execution of `free_nfa` is
undefined and `RE_gen` returns no compiled regex, with any fuel, although
`generate_nfa` and `nfa_to_dfa` return. -/
theorem pipeline_undefined_backtracking_matches :
    literal_pattern (bytes "a*bc") = true ∧
      anchored false false (bytes "a*bc") = bytes "a*bc" ∧
      Backtracking.match_ (bytes "a*bc") (bytes "abc") = true ∧
      generate_nfa 8 [] (bytes "a*bc") = some (nh_astar_bc, ⟨7, 6, 5⟩) ∧
      nfa_to_dfa nh_astar_bc 8 ⟨7, 6, 5⟩ =
        some ([⟨false, [⟨97, 2⟩, ⟨98, 1⟩]⟩, ⟨false, [⟨99, 4⟩]⟩, ⟨false, [⟨98, 3⟩, ⟨97, 2⟩]⟩,
          ⟨false, [⟨99, 4⟩]⟩, ⟨true, []⟩], ⟨5, 0⟩) ∧
      FREE_FA_GRAPH_loop (fun n => (nfa_at nh_astar_bc n).next_l.map (fun e => e.node)) 5 0
          ⟨[6], []⟩ = some ⟨[6, 0, 2, 1, 3, 0, 4], [6, 0, 2, 1, 3]⟩ ∧
      free_nfa nh_astar_bc ⟨7, 6, 5⟩ = none ∧
      ∀ fuel, RE_gen fuel (bytes "a*bc") = none ∧
        RE_gen_run fuel (bytes "a*bc") (bytes "abc") = none := by
  refine ⟨by decide, by decide, by decide, by decide, by decide, by decide, by decide,
    fun fuel => ⟨RE_gen_astar_bc fuel, ?_⟩⟩
  unfold RE_gen_run
  rw [RE_gen_astar_bc fuel]

end ParvumGrep
